import Mathlib

/-!
# Checkers move engine: a shallow embedding of `src/Checkers/main.cpp`

The board `std::vector<std::vector<char>>` is embedded as a function from
(row, column) to the character stored there.  The 8x8 board is the part of it
with both coordinates in `[0, 8)`; indexing the vector outside this range is
undefined in the source, and the move generators index it only after an
`onBoard` test.  Coordinates and counters are C++ `int`s whose values stay far
below the overflow range, so they are embedded as `Int`.

Loops whose number of iterations is not fixed take a bound as first argument.
The bounds used are never reached: see `searchCaptures_total` for the
recursion of `searchCaptures` and the section on loop bounds for the others.
-/

namespace Checkers

/-! ## Data model -/

/-- The constant `static constexpr int BOARD_SIZE = 8;`. -/
def BOARD_SIZE : Int := 8

/-- The record `struct MoveStep`. -/
structure MoveStep where
  startRow : Int
  startCol : Int
  endRow : Int
  endCol : Int
deriving DecidableEq

/-- The record `struct MoveSequence`. -/
structure MoveSequence where
  steps : List MoveStep
  capturesCount : Int
deriving DecidableEq

/-- The grid of characters, addressed as `board r c` for `board[r][c]`. -/
abbrev Board := Int → Int → Char

/-- The assignment `board[r][c] = v`. -/
def Board.set (b : Board) (r c : Int) (v : Char) : Board :=
  fun i j => if i = r ∧ j = c then v else b i j

/-- Function `onBoard`: both coordinates are in `[0, BOARD_SIZE)`. -/
def onBoard (r c : Int) : Bool :=
  decide (r ≥ 0) && decide (r < BOARD_SIZE) && decide (c ≥ 0) && decide (c < BOARD_SIZE)

/-- Function `pieceColor`: 1 = white, -1 = black, 0 = no piece. -/
def pieceColor (p : Char) : Int :=
  if p = 'w' ∨ p = 'W' then 1
  else if p = 'b' ∨ p = 'B' then -1
  else 0

/-- Function `isKing`. -/
def isKing (p : Char) : Bool :=
  decide (p = 'W' ∨ p = 'B')

/-- Function `promoteIfNeeded`. -/
def promoteIfNeeded (board : Board) (r c : Int) : Board :=
  if board r c = 'w' ∧ r = 0 then board.set r c 'W'
  else if board r c = 'b' ∧ r = BOARD_SIZE - 1 then board.set r c 'B'
  else board

/-- The integers `lo, lo+1, ..., hi-1` visited by `for (int i = lo; i < hi; ++i)`. -/
def intRange (lo hi : Int) : List Int :=
  List.map (fun (k : Nat) => lo + (k : Int)) (List.range (hi - lo).toNat)

/-- Function `initBoard`: every cell `'.'`, then black men on rows 0..2 and white men
on rows 5..7, on the cells with `(r + c) % 2 == 1`. -/
def initBoard : Board :=
  let empty : Board := fun _ _ => '.'
  let withBlack := (intRange 0 3).foldl (fun b r =>
    (intRange 0 BOARD_SIZE).foldl (fun b c =>
      if (r + c) % 2 = 1 then b.set r c 'b' else b) b) empty
  (intRange 5 BOARD_SIZE).foldl (fun b r =>
    (intRange 0 BOARD_SIZE).foldl (fun b c =>
      if (r + c) % 2 = 1 then b.set r c 'w' else b) b) withBlack

/-! ## Move application -/

/-- The `while` loop of `makeOneStep`: walk from `(checkR, checkC)` in direction
`(dirR, dirC)` until the end cell is reached, clearing the first cell that holds
a piece.  Every iteration reads a new cell of the diagonal, so an execution
that stays on the 8x8 board makes fewer than `BOARD_SIZE` iterations; the first
argument bounds the number of iterations (`clearCaptured_bound_irrelevant`).
The source loop has no bound and no test of the indices: for a step that does
not run along a diagonal between two cells of the board it can read outside the
vector.  This total version is the loop for the steps that stay on the board;
`clearCapturedInBounds` is the loop with the accesses checked, and
`makeOneStepInBounds_eq_some` relates the two. -/
def clearCaptured : Nat → Board → Int → Int → Int → Int → Int → Int → Board
  | 0, board, _, _, _, _, _, _ => board
  | n + 1, board, checkR, checkC, dirR, dirC, endRow, endCol =>
    if checkR ≠ endRow ∨ checkC ≠ endCol then
      if pieceColor (board checkR checkC) ≠ 0 then
        board.set checkR checkC '.'
      else
        clearCaptured n board (checkR + dirR) (checkC + dirC) dirR dirC endRow endCol
    else board

/-- Function `makeOneStep`.  The C++ function always returns `true`; the embedding
returns the board it leaves behind. -/
def makeOneStep (board : Board) (step : MoveStep) (isCapture : Bool) : Board :=
  let piece := board step.startRow step.startCol
  let board := board.set step.startRow step.startCol '.'
  let board := board.set step.endRow step.endCol piece
  let board :=
    if isCapture then
      let dirR : Int := if step.endRow - step.startRow > 0 then 1 else -1
      let dirC : Int := if step.endCol - step.startCol > 0 then 1 else -1
      clearCaptured BOARD_SIZE.toNat board (step.startRow + dirR) (step.startCol + dirC)
        dirR dirC step.endRow step.endCol
    else board
  promoteIfNeeded board step.endRow step.endCol

/-- The `for (auto &st : seq.steps)` loop of `makeMoveSequence`. -/
def applySteps (capture : Bool) : Board → List MoveStep → Board
  | board, [] => board
  | board, st :: rest => applySteps capture (makeOneStep board st capture) rest

/-- Function `makeMoveSequence`: the returned flag and the board left behind. -/
def makeMoveSequence (board : Board) (seq : MoveSequence) : Bool × Board :=
  if seq.steps.isEmpty then (false, board)
  else
    let capture : Bool := decide (seq.capturesCount > 0)
    (true, applySteps capture board seq.steps)

/-! ## Move application with the accesses to the vector checked

The board of the source is a `std::vector<std::vector<char>>` of 8 rows of 8
cells, and `operator[]` with an index outside `0..7` is undefined behaviour.
The functions below are `makeOneStep` and `makeMoveSequence` again, returning
`none` as soon as a cell outside the vector is accessed. -/

/-- The `while` loop of `makeOneStep` with the accesses checked: `none` when the
loop reads `board[checkR][checkC]` outside the vector.  The first argument
bounds the number of iterations; a walk that starts next to a cell of the
board has left the board after `BOARD_SIZE` iterations, so the bound is never
the reason for `none` there (`clearCapturedInBounds_bound_irrelevant`). -/
def clearCapturedInBounds : Nat → Board → Int → Int → Int → Int → Int → Int → Option Board
  | 0, _, _, _, _, _, _, _ => none
  | n + 1, board, checkR, checkC, dirR, dirC, endRow, endCol =>
    if checkR ≠ endRow ∨ checkC ≠ endCol then
      if onBoard checkR checkC then
        if pieceColor (board checkR checkC) ≠ 0 then
          some (board.set checkR checkC '.')
        else
          clearCapturedInBounds n board (checkR + dirR) (checkC + dirC) dirR dirC endRow endCol
      else none
    else some board

/-- Function `makeOneStep` with the accesses checked: `none` when the start or
the end cell of the step is outside the vector, or when the loop of a capture
reads outside it; otherwise the board left behind. -/
def makeOneStepInBounds (board : Board) (step : MoveStep) (isCapture : Bool) : Option Board :=
  if onBoard step.startRow step.startCol && onBoard step.endRow step.endCol then
    let piece := board step.startRow step.startCol
    let board := board.set step.startRow step.startCol '.'
    let board := board.set step.endRow step.endCol piece
    let walked : Option Board :=
      if isCapture then
        let dirR : Int := if step.endRow - step.startRow > 0 then 1 else -1
        let dirC : Int := if step.endCol - step.startCol > 0 then 1 else -1
        clearCapturedInBounds BOARD_SIZE.toNat board (step.startRow + dirR)
          (step.startCol + dirC) dirR dirC step.endRow step.endCol
      else some board
    match walked with
    | none => none
    | some board => some (promoteIfNeeded board step.endRow step.endCol)
  else none

/-- The `for (auto &st : seq.steps)` loop of `makeMoveSequence` with the accesses
checked. -/
def applyStepsInBounds (capture : Bool) : Board → List MoveStep → Option Board
  | board, [] => some board
  | board, st :: rest =>
    match makeOneStepInBounds board st capture with
    | none => none
    | some board2 => applyStepsInBounds capture board2 rest

/-- Function `makeMoveSequence` with the accesses checked: `none` when some step
accesses a cell outside the vector, otherwise the returned flag and the board
left behind. -/
def makeMoveSequenceInBounds (board : Board) (seq : MoveSequence) : Option (Bool × Board) :=
  if seq.steps.isEmpty then some (false, board)
  else
    let capture : Bool := decide (seq.capturesCount > 0)
    match applyStepsInBounds capture board seq.steps with
    | none => none
    | some board2 => some (true, board2)

/-- A step along a diagonal: the row and the column change by the same non-zero
amount, up to sign. -/
def diagonalStep (st : MoveStep) : Bool :=
  decide (st.endRow ≠ st.startRow)
    && (decide (st.endRow - st.startRow = st.endCol - st.startCol)
        || decide (st.endRow - st.startRow = -(st.endCol - st.startCol)))

/-- A step that `makeOneStep` can apply without leaving the board: it starts and
ends on the board and, when it is applied as a capture, runs along a diagonal. -/
def stepInBounds (st : MoveStep) (capture : Bool) : Bool :=
  onBoard st.startRow st.startCol && onBoard st.endRow st.endCol
    && (!capture || diagonalStep st)

/-! ## Simple moves -/

/-- Function `getManSimpleMoves`. -/
def getManSimpleMoves (board : Board) (r c color : Int) : List MoveSequence :=
  let dr : Int := if color = 1 then -1 else 1
  ([-1, 1] : List Int).foldl (fun result dc =>
    let nr := r + dr
    let nc := c + dc
    if onBoard nr nc && decide (board nr nc = '.') then
      result ++ [{ steps := [⟨r, c, nr, nc⟩], capturesCount := 0 }]
    else result) []

/-- The `while` loop of `getKingSimpleMoves` along one direction.  Every
iteration passes the `onBoard` test at a new cell of the diagonal, so the loop
makes at most `BOARD_SIZE` iterations; the first argument bounds their number
(`kingSimpleScan_bound_irrelevant`). -/
def kingSimpleScan (board : Board) (r c dr dc : Int) :
    Nat → Int → Int → List MoveSequence → List MoveSequence
  | 0, _, _, result => result
  | n + 1, nr, nc, result =>
    if onBoard nr nc && decide (board nr nc = '.') then
      kingSimpleScan board r c dr dc n (nr + dr) (nc + dc)
        (result ++ [{ steps := [⟨r, c, nr, nc⟩], capturesCount := 0 }])
    else result

/-- The four diagonal directions, in the order of the source. -/
def directions : List (Int × Int) := [(1, 1), (1, -1), (-1, 1), (-1, -1)]

/-- Function `getKingSimpleMoves`. -/
def getKingSimpleMoves (board : Board) (r c : Int) : List MoveSequence :=
  directions.foldl (fun result d =>
    kingSimpleScan board r c d.1 d.2 (BOARD_SIZE.toNat + 1) (r + d.1) (c + d.2) result) []

/-! ## Capture search -/

/-- The lambda `wasUsed` of `searchCaptures`. -/
def wasUsed (used : List (Int × Int)) (rr cc : Int) : Bool :=
  used.any (fun u => decide (u.1 = rr) && decide (u.2 = cc))

/-- The result type of one run of `searchCaptures`: the sequences it appends to
`allSeq`, or `none` when the recursion budget is exhausted. -/
abbrev SearchResult := Option (List MoveSequence)

/-- The type of the recursive call `searchCaptures(copyB, r, c, color, used2, newSeq, allSeq)`
with `color` fixed. -/
abbrev SearchCall := Board → Int → Int → List (Int × Int) → MoveSequence → SearchResult

/-- The value `newSeq`: `currentSeq` with `st` pushed and `capturesCount` incremented. -/
def extendSeq (currentSeq : MoveSequence) (st : MoveStep) : MoveSequence :=
  { steps := currentSeq.steps ++ [st], capturesCount := currentSeq.capturesCount + 1 }

/-- The man branch of `searchCaptures`: the loop over the directions.  The
state is the list appended to `allSeq` so far and the flag `foundFurther`. -/
def manLoop (recCall : SearchCall) (board : Board) (r c color : Int)
    (used : List (Int × Int)) (currentSeq : MoveSequence) :
    List (Int × Int) → List MoveSequence × Bool → Option (List MoveSequence × Bool)
  | [], state => some state
  | (dr, dc) :: rest, (allSeq, foundFurther) =>
    let midR := r + dr
    let midC := c + dc
    let landR := r + 2 * dr
    let landC := c + 2 * dc
    if onBoard midR midC && onBoard landR landC then
      if decide (pieceColor (board midR midC) = -color) && !wasUsed used midR midC then
        if board landR landC = '.' then
          let st : MoveStep := ⟨r, c, landR, landC⟩
          let copyB := makeOneStep board st true
          let used2 := used ++ [(midR, midC)]
          let newSeq := extendSeq currentSeq st
          match recCall copyB landR landC used2 newSeq with
          | none => none
          | some found =>
            manLoop recCall board r c color used currentSeq rest (allSeq ++ found, true)
        else manLoop recCall board r c color used currentSeq rest (allSeq, foundFurther)
      else manLoop recCall board r c color used currentSeq rest (allSeq, foundFurther)
    else manLoop recCall board r c color used currentSeq rest (allSeq, foundFurther)

/-- The king branch of `searchCaptures`: the `while (onBoard(stepR, stepC))`
loop along one direction, with loop variables `stepR`, `stepC`, `foeFound`,
`foeR`, `foeC`.  Every iteration passes the `onBoard` test at a new cell of the
diagonal, so the loop makes at most `BOARD_SIZE` iterations; the first argument
bounds their number (`kingScan_bound_irrelevant`). -/
def kingScan (recCall : SearchCall) (board : Board) (r c color : Int)
    (used : List (Int × Int)) (currentSeq : MoveSequence) (dr dc : Int) :
    Nat → Int → Int → Bool → Int → Int → List MoveSequence × Bool →
      Option (List MoveSequence × Bool)
  | 0, _, _, _, _, _, state => some state
  | n + 1, stepR, stepC, foeFound, foeR, foeC, (allSeq, foundFurther) =>
    if onBoard stepR stepC then
      if !foeFound then
        if board stepR stepC = '.' then
          kingScan recCall board r c color used currentSeq dr dc n
            (stepR + dr) (stepC + dc) foeFound foeR foeC (allSeq, foundFurther)
        else if decide (pieceColor (board stepR stepC) = -color)
            && !wasUsed used stepR stepC then
          kingScan recCall board r c color used currentSeq dr dc n
            (stepR + dr) (stepC + dc) true stepR stepC (allSeq, foundFurther)
        else some (allSeq, foundFurther)
      else
        if board stepR stepC = '.' then
          let st : MoveStep := ⟨r, c, stepR, stepC⟩
          let copyB := makeOneStep board st true
          let used2 := used ++ [(foeR, foeC)]
          let newSeq := extendSeq currentSeq st
          match recCall copyB stepR stepC used2 newSeq with
          | none => none
          | some found =>
            kingScan recCall board r c color used currentSeq dr dc n
              (stepR + dr) (stepC + dc) foeFound foeR foeC (allSeq ++ found, true)
        else some (allSeq, foundFurther)
    else some (allSeq, foundFurther)

/-- The king branch of `searchCaptures`: the loop over the directions. -/
def kingLoop (recCall : SearchCall) (board : Board) (r c color : Int)
    (used : List (Int × Int)) (currentSeq : MoveSequence) :
    List (Int × Int) → List MoveSequence × Bool → Option (List MoveSequence × Bool)
  | [], state => some state
  | (dr, dc) :: rest, state =>
    match kingScan recCall board r c color used currentSeq dr dc (BOARD_SIZE.toNat + 1)
        (r + dr) (c + dc) false (-1) (-1) state with
    | none => none
    | some state2 => kingLoop recCall board r c color used currentSeq rest state2

/-- Function `searchCaptures`, returning the sequences it appends to `allSeq`.  The
first argument bounds the recursion depth; `none` means the bound was hit. -/
def searchCaptures : Nat → Board → Int → Int → Int → List (Int × Int) → MoveSequence →
    SearchResult
  | 0, _, _, _, _, _, _ => none
  | fuel + 1, board, r, c, color, used, currentSeq =>
    let man := !isKing (board r c)
    let recCall : SearchCall := fun b r2 c2 u s => searchCaptures fuel b r2 c2 color u s
    let looped :=
      if man then manLoop recCall board r c color used currentSeq directions ([], false)
      else kingLoop recCall board r c color used currentSeq directions ([], false)
    match looped with
    | none => none
    | some (allSeq, foundFurther) =>
      if !foundFurther && decide (currentSeq.capturesCount > 0) then
        some (allSeq ++ [currentSeq])
      else some allSeq

/-- Recursion budget used by `getAllCapturesForPiece`: every recursive call of
`searchCaptures` marks one more cell of the 64 as used, so the depth never
exceeds 64 and the budget is never exhausted (`searchCaptures_total`). -/
def searchBudget : Nat := (BOARD_SIZE * BOARD_SIZE).toNat + 1

/-- Function `getAllCapturesForPiece`. -/
def getAllCapturesForPiece (board : Board) (rr cc : Int) : List MoveSequence :=
  if pieceColor (board rr cc) = 0 then []
  else
    match searchCaptures searchBudget board rr cc (pieceColor (board rr cc)) []
        { steps := [], capturesCount := 0 } with
    | none => []
    | some result => result

/-! ## Enumeration over the board -/

/-- The row chunks `[rowSt, rowEnd)` produced by
`for (rowSt = 0; rowSt < BOARD_SIZE; rowSt += chunkSize)`.  With
`chunkSize >= 1` the loop makes at most `BOARD_SIZE` iterations; the first
argument bounds their number (`rowChunks_bound_irrelevant`). -/
def rowChunks (chunkSize : Int) : Nat → Int → List (Int × Int)
  | 0, _ => []
  | n + 1, rowSt =>
    if rowSt < BOARD_SIZE then
      (rowSt, min (rowSt + chunkSize) BOARD_SIZE) :: rowChunks chunkSize n (rowSt + chunkSize)
    else []

/-- The value `chunkSize` as computed from `std::thread::hardware_concurrency()`. -/
def chunkSizeOf (hw : Nat) : Int :=
  let hw : Nat := if hw = 0 then 2 else hw
  let chunkSize : Int := ((BOARD_SIZE.toNat / hw : Nat) : Int)
  if chunkSize < 1 then 1 else chunkSize

/-- The body of one asynchronous task: scan rows `[rowSt, rowEnd)` and
concatenate what `perPiece` returns for each piece of colour `color`. -/
def scanChunk (board : Board) (color : Int) (perPiece : Int → Int → List MoveSequence)
    (rowSt rowEnd : Int) : List MoveSequence :=
  (intRange rowSt rowEnd).foldl (fun localRes rr =>
    (intRange 0 BOARD_SIZE).foldl (fun localRes cc =>
      if pieceColor (board rr cc) = color then localRes ++ perPiece rr cc
      else localRes) localRes) []

/-- Function `findAllCaptures`; `hw` is the value of `std::thread::hardware_concurrency()`.
The futures are collected in the order they were launched. -/
def findAllCaptures (hw : Nat) (board : Board) (whiteTurn : Bool) : List MoveSequence :=
  let color : Int := if whiteTurn then 1 else -1
  let futures := (rowChunks (chunkSizeOf hw) BOARD_SIZE.toNat 0).map (fun ch =>
    scanChunk board color (fun rr cc => getAllCapturesForPiece board rr cc) ch.1 ch.2)
  futures.foldl (fun finalMoves part => finalMoves ++ part) []

/-- Function `findAllNormalMoves`; `hw` is the value of `std::thread::hardware_concurrency()`. -/
def findAllNormalMoves (hw : Nat) (board : Board) (whiteTurn : Bool) : List MoveSequence :=
  let color : Int := if whiteTurn then 1 else -1
  let futures := (rowChunks (chunkSizeOf hw) BOARD_SIZE.toNat 0).map (fun ch =>
    scanChunk board color (fun rr cc =>
      if !isKing (board rr cc) then getManSimpleMoves board rr cc color
      else getKingSimpleMoves board rr cc) ch.1 ch.2)
  futures.foldl (fun finalMoves part => finalMoves ++ part) []

/-- Function `hasAnyMove`. -/
def hasAnyMove (hw : Nat) (board : Board) (whiteTurn : Bool) : Bool :=
  if !(findAllCaptures hw board whiteTurn).isEmpty then true
  else !(findAllNormalMoves hw board whiteTurn).isEmpty

/-! ## Boards used in the concrete scenarios -/

/-- The empty board. -/
def emptyBoard : Board := fun _ _ => '.'

/-- Scenario 2 of the specification: light man at (3,4), dark man at (2,3). -/
def scenario2 : Board := (emptyBoard.set 3 4 'w').set 2 3 'b'

/-- Scenario 3 of the specification: light king at (4,4), dark man at (2,2). -/
def scenario3 : Board := (emptyBoard.set 4 4 'W').set 2 2 'b'

/-- A light man at (4,1) surrounded by dark men at (3,2), (3,4), (5,4), (5,2). -/
def loopBoard : Board :=
  ((((emptyBoard.set 4 1 'w').set 3 2 'b').set 3 4 'b').set 5 4 'b').set 5 2 'b'

/-! ## Auxiliary definitions for the proofs

The loops of `searchCaptures` recurse while they scan.  The scan itself does
not depend on the recursive calls (each call works on its own copies), so the
captures found by the loops can be listed first and the recursive calls run
over that list afterwards; `searchCaptures_succ` proves that this gives the
same result. -/

/-- A capture found by the loops of `searchCaptures`: the step `st` and the
cell pushed onto `used2`. -/
abbrev Target := MoveStep × (Int × Int)

/-- The captures for which the man branch recurses, in loop order. -/
def manTargets (board : Board) (r c color : Int) (used : List (Int × Int)) :
    List (Int × Int) → List Target
  | [] => []
  | (dr, dc) :: rest =>
    if onBoard (r + dr) (c + dc) && onBoard (r + 2 * dr) (c + 2 * dc)
        && (decide (pieceColor (board (r + dr) (c + dc)) = -color)
            && !wasUsed used (r + dr) (c + dc))
        && decide (board (r + 2 * dr) (c + 2 * dc) = '.') then
      (⟨r, c, r + 2 * dr, c + 2 * dc⟩, (r + dr, c + dc))
        :: manTargets board r c color used rest
    else manTargets board r c color used rest

/-- The captures for which the scan of the king along one direction recurses. -/
def kingScanTargets (board : Board) (r c color : Int) (used : List (Int × Int))
    (dr dc : Int) : Nat → Int → Int → Bool → Int → Int → List Target
  | 0, _, _, _, _, _ => []
  | n + 1, stepR, stepC, foeFound, foeR, foeC =>
    if onBoard stepR stepC then
      if !foeFound then
        if board stepR stepC = '.' then
          kingScanTargets board r c color used dr dc n (stepR + dr) (stepC + dc)
            foeFound foeR foeC
        else if decide (pieceColor (board stepR stepC) = -color)
            && !wasUsed used stepR stepC then
          kingScanTargets board r c color used dr dc n (stepR + dr) (stepC + dc)
            true stepR stepC
        else []
      else
        if board stepR stepC = '.' then
          (⟨r, c, stepR, stepC⟩, (foeR, foeC))
            :: kingScanTargets board r c color used dr dc n (stepR + dr) (stepC + dc)
                foeFound foeR foeC
        else []
    else []

/-- The captures for which the king branch recurses, in loop order. -/
def kingTargets (board : Board) (r c color : Int) (used : List (Int × Int)) :
    List (Int × Int) → List Target
  | [] => []
  | (dr, dc) :: rest =>
    kingScanTargets board r c color used dr dc (BOARD_SIZE.toNat + 1)
        (r + dr) (c + dc) false (-1) (-1)
      ++ kingTargets board r c color used rest

/-- The captures for which one run of `searchCaptures` recurses. -/
def captureTargets (board : Board) (r c color : Int) (used : List (Int × Int)) :
    List Target :=
  if !isKing (board r c) then manTargets board r c color used directions
  else kingTargets board r c color used directions

/-- The recursive calls of one run of `searchCaptures`, made in order over a
list of captures, threading `allSeq` and `foundFurther`. -/
def runTargets (recCall : SearchCall) (board : Board) (used : List (Int × Int))
    (currentSeq : MoveSequence) :
    List Target → List MoveSequence × Bool → Option (List MoveSequence × Bool)
  | [], state => some state
  | t :: rest, (allSeq, _) =>
    match recCall (makeOneStep board t.1 true) t.1.endRow t.1.endCol (used ++ [t.2])
        (extendSeq currentSeq t.1) with
    | none => none
    | some found => runTargets recCall board used currentSeq rest (allSeq ++ found, true)

/-- Geometry of a capture from `(r, c)`: the step runs `k` cells along a
diagonal, the jumped cell is at distance `j` with `1 <= j < k`, all the cells
at distances `1..k` are on the board, the jumped cell holds colour `-color`
and is not marked used, and the other cells at distances `1..k` are empty. -/
def IsTarget (b : Board) (r c color : Int) (used : List (Int × Int)) (t : Target) : Prop :=
  ∃ dr dc j k : Int, (dr = 1 ∨ dr = -1) ∧ (dc = 1 ∨ dc = -1) ∧ 1 ≤ j ∧ j < k
    ∧ t.1 = ⟨r, c, r + k * dr, c + k * dc⟩ ∧ t.2 = (r + j * dr, c + j * dc)
    ∧ (∀ i, 1 ≤ i → i ≤ k → onBoard (r + i * dr) (c + i * dc) = true)
    ∧ (∀ i, 1 ≤ i → i ≤ k → i ≠ j → b (r + i * dr) (c + i * dc) = '.')
    ∧ pieceColor (b (r + j * dr) (c + j * dc)) = -color
    ∧ wasUsed used (r + j * dr) (c + j * dc) = false

/-- A complete run of captures from `(r, c)`: every element is a capture found
on the board left by the previous ones, and no capture is found after the last. -/
def CapPath (color : Int) : Board → Int → Int → List (Int × Int) → List Target → Prop
  | b, r, c, used, [] => captureTargets b r c color used = []
  | b, r, c, used, t :: rest =>
    t ∈ captureTargets b r c color used
      ∧ CapPath color (makeOneStep b t.1 true) t.1.endRow t.1.endCol (used ++ [t.2]) rest

/-- The sequence `currentSeq` after the captures of `path` have been pushed. -/
def extendPath (currentSeq : MoveSequence) (path : List Target) : MoveSequence :=
  { steps := currentSeq.steps ++ path.map Prod.fst,
    capturesCount := currentSeq.capturesCount + (path.length : Int) }

/-- The 64 cells of the board. -/
def allCells : List (Int × Int) :=
  (intRange 0 BOARD_SIZE).flatMap (fun r => (intRange 0 BOARD_SIZE).map (fun c => (r, c)))

/-- Number of cells of the board not marked used. -/
def unusedCount (used : List (Int × Int)) : Nat :=
  allCells.countP (fun p => !wasUsed used p.1 p.2)

/-- The cell cleared by the loop `clearCaptured`, if any. -/
def capturedAt : Nat → Board → Int → Int → Int → Int → Int → Int → Option (Int × Int)
  | 0, _, _, _, _, _, _, _ => none
  | n + 1, board, checkR, checkC, dirR, dirC, endRow, endCol =>
    if checkR ≠ endRow ∨ checkC ≠ endCol then
      if pieceColor (board checkR checkC) ≠ 0 then some (checkR, checkC)
      else capturedAt n board (checkR + dirR) (checkC + dirC) dirR dirC endRow endCol
    else none

/-- The cell that `makeOneStep board step true` clears as captured, if any. -/
def capturedCell (board : Board) (step : MoveStep) : Option (Int × Int) :=
  let piece := board step.startRow step.startCol
  let board := board.set step.startRow step.startCol '.'
  let board := board.set step.endRow step.endCol piece
  let dirR : Int := if step.endRow - step.startRow > 0 then 1 else -1
  let dirC : Int := if step.endCol - step.startCol > 0 then 1 else -1
  capturedAt BOARD_SIZE.toNat board (step.startRow + dirR) (step.startCol + dirC)
    dirR dirC step.endRow step.endCol

/-- The cells cleared as captured when the steps are applied one after the
other with `makeOneStep (isCapture = true)`, in order. -/
def capturedCells : Board → List MoveStep → List (Int × Int)
  | _, [] => []
  | board, st :: rest =>
    (capturedCell board st).toList ++ capturedCells (makeOneStep board st true) rest

/-- Consecutive steps are chained: each step ends where the next one starts. -/
def stepsChain (steps : List MoveStep) : Prop :=
  List.Chain' (fun a b => a.endRow = b.startRow ∧ a.endCol = b.startCol) steps

/-- The row on which a man of the given colour is promoted. -/
def promotionRow (color : Int) : Int := if color = 1 then 0 else BOARD_SIZE - 1

/-- The character left by `promoteIfNeeded` on a cell of row `row` that held `p`. -/
def promoted (p : Char) (row : Int) : Char :=
  if p = 'w' ∧ row = 0 then 'W'
  else if p = 'b' ∧ row = 7 then 'B'
  else p

/-- The board after a capture step from `(r, c)` to `(er, ec)` over `(fr, fc)`:
the piece is moved, the jumped cell is cleared, the end cell is promoted. -/
def afterCapture (b : Board) (r c er ec fr fc : Int) : Board :=
  promoteIfNeeded (((b.set r c '.').set er ec (b r c)).set fr fc '.') er ec

/-- What holds at every call of `searchCaptures` made on behalf of
`getAllCapturesForPiece`: the piece at `(r, c)` has colour `color`, and no cell
marked used holds a piece of the other colour. -/
def SearchInv (color : Int) (b : Board) (r c : Int) (used : List (Int × Int)) : Prop :=
  color ≠ 0 ∧ pieceColor (b r c) = color
    ∧ ∀ u ∈ used, pieceColor (b u.1 u.2) ≠ -color

/-- The cell reached from `p` after the captures of `path`. -/
def pathEnd : Int × Int → List Target → Int × Int
  | p, [] => p
  | _, t :: rest => pathEnd (t.1.endRow, t.1.endCol) rest

/-! ## The turn step of `main` -/

/-- Function `chooseComputerMove`; `rnd` is the value returned by `std::rand()`. -/
def chooseComputerMove (moves : List MoveSequence) (rnd : Nat) : MoveSequence :=
  if moves.isEmpty then { steps := [], capturesCount := 0 }
  else moves.getD (rnd % moves.length) { steps := [], capturesCount := 0 }

/-- The test of `humanMoveByCoords` on one sequence: it has steps, its first
step starts on `(fromR, fromC)` and its last step ends on `(toR, toC)`. -/
def matchesCoords (fromR fromC toR toC : Int) (sq : MoveSequence) : Bool :=
  match sq.steps.head?, sq.steps.getLast? with
  | some fst, some lst =>
    decide (fst.startRow = fromR) && decide (fst.startCol = fromC)
      && decide (lst.endRow = toR) && decide (lst.endCol = toC)
  | _, _ => false

/-- Function `humanMoveByCoords`.  The console is embedded as the list of the
results of the successive calls of `getMoveInput`: `none` for a rejected line,
`some (fromR, fromC, toR, toC)` for a parsed one.  The result is the sequence
applied and the board left behind, or `none` when the lines run out while the
loop is still asking. -/
def humanMoveByCoords (board : Board) (moves : List MoveSequence) :
    List (Option (Int × Int × Int × Int)) → Option (MoveSequence × Board)
  | [] => none
  | none :: rest => humanMoveByCoords board moves rest
  | some (fromR, fromC, toR, toC) :: rest =>
    match moves.find? (matchesCoords fromR fromC toR toC) with
    | some sq => some (sq, (makeMoveSequence board sq).2)
    | none => humanMoveByCoords board moves rest

/-- What the turn step of `main` reads from outside: whose turn it is, the
value of `std::rand()` and the lines typed by the user. -/
structure TurnInput where
  isUserTurn : Bool
  rnd : Nat
  lines : List (Option (Int × Int × Int × Int))

/-- What one pass through the turn step of `main` does: it ends the game, or
it is still asking the user for a move out of the list `offered`, or it has
applied the sequence `applied` chosen out of the list `offered`. -/
inductive TurnOutcome where
  | gameOver : TurnOutcome
  | asking (offered : List MoveSequence) : TurnOutcome
  | moved (offered : List MoveSequence) (applied : MoveSequence) (board : Board) : TurnOutcome

/-- The choice and application of a move out of the list `moves`, by the user
or by the computer. -/
def chooseAndApply (board : Board) (moves : List MoveSequence) (inp : TurnInput) :
    TurnOutcome :=
  if inp.isUserTurn then
    match humanMoveByCoords board moves inp.lines with
    | some (sq, board2) => TurnOutcome.moved moves sq board2
    | none => TurnOutcome.asking moves
  else
    let compMove := chooseComputerMove moves inp.rnd
    TurnOutcome.moved moves compMove (makeMoveSequence board compMove).2

/-- The turn step of `main`: the body of `while (!gameOver)` from the test of
`hasAnyMove` to the application of the move. -/
def playTurn (hw : Nat) (board : Board) (whiteMove : Bool) (inp : TurnInput) : TurnOutcome :=
  if !hasAnyMove hw board whiteMove then TurnOutcome.gameOver
  else
    let captures := findAllCaptures hw board whiteMove
    if !captures.isEmpty then chooseAndApply board captures inp
    else
      let normals := findAllNormalMoves hw board whiteMove
      if normals.isEmpty then TurnOutcome.gameOver
      else chooseAndApply board normals inp

/-! ## Further definitions for the statements -/

/-- Number of asynchronous tasks launched by `findAllCaptures` and
`findAllNormalMoves`: the number of iterations of the loop over the row chunks. -/
def workerCount (hw : Nat) : Nat := (rowChunks (chunkSizeOf hw) BOARD_SIZE.toNat 0).length

/-- Number of cells of the board holding a piece of colour `color`. -/
def countColor (b : Board) (color : Int) : Nat :=
  allCells.countP (fun p => decide (pieceColor (b p.1 p.2) = color))

/-- Pieces stand only on cells of the board with `(row + col)` odd. -/
def OddOnly (b : Board) : Prop :=
  ∀ r c, onBoard r c = true → pieceColor (b r c) ≠ 0 → (r + c) % 2 = 1

/-- Boards reachable from `initBoard` by applying sequences returned by
`findAllCaptures` or `findAllNormalMoves`, for either side. -/
inductive Reachable : Board → Prop where
  | init : Reachable initBoard
  | move (b : Board) (hw : Nat) (whiteTurn : Bool) (s : MoveSequence) :
      Reachable b →
      (s ∈ findAllCaptures hw b whiteTurn ∨ s ∈ findAllNormalMoves hw b whiteTurn) →
      Reachable (makeMoveSequence b s).2

/-- A light man at (2,1) that captures the dark man at (1,2), lands on row 0
and can go on, as a king, over the dark man at (2,5). -/
def promotionBoard : Board := ((emptyBoard.set 2 1 'w').set 1 2 'b').set 2 5 'b'

/-! ## The capture search without the guard `wasUsed`

The same code as `manLoop`, `kingScan`, `kingLoop`, `searchCaptures` and
`getAllCapturesForPiece`, with the call `wasUsed(...)` replaced by `false`.
The list `used` is still built and passed on, but no longer read. -/

/-- The man branch of `searchCaptures` with `wasUsed(...)` replaced by `false`. -/
def manLoopNoGuard (recCall : SearchCall) (board : Board) (r c color : Int)
    (used : List (Int × Int)) (currentSeq : MoveSequence) :
    List (Int × Int) → List MoveSequence × Bool → Option (List MoveSequence × Bool)
  | [], state => some state
  | (dr, dc) :: rest, (allSeq, foundFurther) =>
    let midR := r + dr
    let midC := c + dc
    let landR := r + 2 * dr
    let landC := c + 2 * dc
    if onBoard midR midC && onBoard landR landC then
      if decide (pieceColor (board midR midC) = -color) && !false then
        if board landR landC = '.' then
          let st : MoveStep := ⟨r, c, landR, landC⟩
          let copyB := makeOneStep board st true
          let used2 := used ++ [(midR, midC)]
          let newSeq := extendSeq currentSeq st
          match recCall copyB landR landC used2 newSeq with
          | none => none
          | some found =>
            manLoopNoGuard recCall board r c color used currentSeq rest (allSeq ++ found, true)
        else manLoopNoGuard recCall board r c color used currentSeq rest (allSeq, foundFurther)
      else manLoopNoGuard recCall board r c color used currentSeq rest (allSeq, foundFurther)
    else manLoopNoGuard recCall board r c color used currentSeq rest (allSeq, foundFurther)

/-- The scan of the king branch of `searchCaptures` along one direction with
`wasUsed(...)` replaced by `false`. -/
def kingScanNoGuard (recCall : SearchCall) (board : Board) (r c color : Int)
    (used : List (Int × Int)) (currentSeq : MoveSequence) (dr dc : Int) :
    Nat → Int → Int → Bool → Int → Int → List MoveSequence × Bool →
      Option (List MoveSequence × Bool)
  | 0, _, _, _, _, _, state => some state
  | n + 1, stepR, stepC, foeFound, foeR, foeC, (allSeq, foundFurther) =>
    if onBoard stepR stepC then
      if !foeFound then
        if board stepR stepC = '.' then
          kingScanNoGuard recCall board r c color used currentSeq dr dc n
            (stepR + dr) (stepC + dc) foeFound foeR foeC (allSeq, foundFurther)
        else if decide (pieceColor (board stepR stepC) = -color) && !false then
          kingScanNoGuard recCall board r c color used currentSeq dr dc n
            (stepR + dr) (stepC + dc) true stepR stepC (allSeq, foundFurther)
        else some (allSeq, foundFurther)
      else
        if board stepR stepC = '.' then
          let st : MoveStep := ⟨r, c, stepR, stepC⟩
          let copyB := makeOneStep board st true
          let used2 := used ++ [(foeR, foeC)]
          let newSeq := extendSeq currentSeq st
          match recCall copyB stepR stepC used2 newSeq with
          | none => none
          | some found =>
            kingScanNoGuard recCall board r c color used currentSeq dr dc n
              (stepR + dr) (stepC + dc) foeFound foeR foeC (allSeq ++ found, true)
        else some (allSeq, foundFurther)
    else some (allSeq, foundFurther)

/-- The king branch of `searchCaptures` with `wasUsed(...)` replaced by `false`:
the loop over the directions. -/
def kingLoopNoGuard (recCall : SearchCall) (board : Board) (r c color : Int)
    (used : List (Int × Int)) (currentSeq : MoveSequence) :
    List (Int × Int) → List MoveSequence × Bool → Option (List MoveSequence × Bool)
  | [], state => some state
  | (dr, dc) :: rest, state =>
    match kingScanNoGuard recCall board r c color used currentSeq dr dc (BOARD_SIZE.toNat + 1)
        (r + dr) (c + dc) false (-1) (-1) state with
    | none => none
    | some state2 => kingLoopNoGuard recCall board r c color used currentSeq rest state2

/-- Function `searchCaptures` with `wasUsed(...)` replaced by `false`.  The first
argument bounds the recursion depth; `none` means the bound was hit. -/
def searchCapturesNoGuard : Nat → Board → Int → Int → Int → List (Int × Int) →
    MoveSequence → SearchResult
  | 0, _, _, _, _, _, _ => none
  | fuel + 1, board, r, c, color, used, currentSeq =>
    let man := !isKing (board r c)
    let recCall : SearchCall :=
      fun b r2 c2 u s => searchCapturesNoGuard fuel b r2 c2 color u s
    let looped :=
      if man then manLoopNoGuard recCall board r c color used currentSeq directions ([], false)
      else kingLoopNoGuard recCall board r c color used currentSeq directions ([], false)
    match looped with
    | none => none
    | some (allSeq, foundFurther) =>
      if !foundFurther && decide (currentSeq.capturesCount > 0) then
        some (allSeq ++ [currentSeq])
      else some allSeq

/-- Function `getAllCapturesForPiece` over the search without the guard; `none`
means that the recursion bound was hit. -/
def getAllCapturesForPieceNoGuard (board : Board) (rr cc : Int) :
    Option (List MoveSequence) :=
  if pieceColor (board rr cc) = 0 then some []
  else
    searchCapturesNoGuard searchBudget board rr cc (pieceColor (board rr cc)) []
      { steps := [], capturesCount := 0 }

/-- Recursive calls of `searchCaptures` nested inside one another: every
element is a capture found on the board left by the previous ones, so the call
for the last element is made at depth `chain.length` below the first call. -/
def CallChain (color : Int) : Board → Int → Int → List (Int × Int) → List Target → Prop
  | _, _, _, _, [] => True
  | b, r, c, used, t :: rest =>
    t ∈ captureTargets b r c color used
      ∧ CallChain color (makeOneStep b t.1 true) t.1.endRow t.1.endCol (used ++ [t.2]) rest

/-! ## Basic facts -/

theorem onBoard_iff (r c : Int) :
    onBoard r c = true ↔ 0 ≤ r ∧ r < 8 ∧ 0 ≤ c ∧ c < 8 := by
  simp [onBoard, BOARD_SIZE, and_assoc]

theorem set_same (b : Board) (r c : Int) (v : Char) : (b.set r c v) r c = v := by
  simp [Board.set]

theorem set_other (b : Board) (r c i j : Int) (v : Char) (h : ¬(i = r ∧ j = c)) :
    (b.set r c v) i j = b i j := by
  simp only [Board.set, if_neg h]

theorem pieceColor_dot : pieceColor '.' = 0 := by decide

theorem pieceColor_eq_one (p : Char) : pieceColor p = 1 ↔ p = 'w' ∨ p = 'W' := by
  unfold pieceColor
  split_ifs with h1 h2 <;> simp_all

theorem pieceColor_eq_neg_one (p : Char) : pieceColor p = -1 ↔ p = 'b' ∨ p = 'B' := by
  unfold pieceColor
  split_ifs with h1 h2
  · rcases h1 with rfl | rfl <;> decide
  · simp_all
  · simp_all

theorem wasUsed_iff (used : List (Int × Int)) (rr cc : Int) :
    wasUsed used rr cc = true ↔ (rr, cc) ∈ used := by
  simp only [wasUsed, List.any_eq_true, Bool.and_eq_true, decide_eq_true_eq]
  constructor
  · rintro ⟨u, hu, h1, h2⟩
    obtain ⟨a, b⟩ := u
    simp only at h1 h2
    subst h1; subst h2
    exact hu
  · intro h
    exact ⟨(rr, cc), h, rfl, rfl⟩

/-! ## Promotion -/

theorem promoteIfNeeded_apply (b : Board) (r c i j : Int) :
    promoteIfNeeded b r c i j =
      if i = r ∧ j = c then
        (if b r c = 'w' ∧ r = 0 then 'W'
         else if b r c = 'b' ∧ r = 7 then 'B' else b r c)
      else b i j := by
  have h7 : BOARD_SIZE - 1 = 7 := by decide
  unfold promoteIfNeeded
  rw [h7]
  by_cases h1 : b r c = 'w' ∧ r = 0
  · rw [if_pos h1, if_pos h1]
    rfl
  · rw [if_neg h1, if_neg h1]
    by_cases h2 : b r c = 'b' ∧ r = 7
    · rw [if_pos h2, if_pos h2]
      rfl
    · rw [if_neg h2, if_neg h2]
      by_cases h : i = r ∧ j = c
      · rw [if_pos h, h.1, h.2]
      · rw [if_neg h]

theorem promoteIfNeeded_other (b : Board) (r c i j : Int) (h : ¬(i = r ∧ j = c)) :
    promoteIfNeeded b r c i j = b i j := by
  rw [promoteIfNeeded_apply, if_neg h]

theorem promoteIfNeeded_same (b : Board) (r c : Int) :
    promoteIfNeeded b r c r c =
      if b r c = 'w' ∧ r = 0 then 'W'
      else if b r c = 'b' ∧ r = 7 then 'B' else b r c := by
  rw [promoteIfNeeded_apply, if_pos ⟨rfl, rfl⟩]

/-- C8: promotion is idempotent, and one application changes the board only
when the cell holds a white man on row 0 or a black man on row 7, in which case
only that cell changes, to the king of the same colour. -/
theorem promoteIfNeeded_idempotent_and_local (b : Board) (r c : Int) :
    promoteIfNeeded (promoteIfNeeded b r c) r c = promoteIfNeeded b r c
    ∧ (promoteIfNeeded b r c ≠ b → (b r c = 'w' ∧ r = 0) ∨ (b r c = 'b' ∧ r = 7))
    ∧ (b r c = 'w' ∧ r = 0 → promoteIfNeeded b r c = b.set r c 'W')
    ∧ (b r c = 'b' ∧ r = 7 → promoteIfNeeded b r c = b.set r c 'B')
    ∧ (∀ i j, ¬(i = r ∧ j = c) → promoteIfNeeded b r c i j = b i j) := by
  have hwb : ¬ ('W' = 'w') := by decide
  have hwb2 : ¬ ('W' = 'b') := by decide
  have hbw : ¬ ('B' = 'w') := by decide
  have hbb : ¬ ('B' = 'b') := by decide
  have hbw2 : ¬ ('b' = 'w') := by decide
  refine ⟨?_, ?_, ?_, ?_, ?_⟩
  · funext i j
    by_cases h : i = r ∧ j = c
    · obtain ⟨rfl, rfl⟩ := h
      rw [promoteIfNeeded_same, promoteIfNeeded_same]
      by_cases h1 : b i j = 'w' ∧ i = 0
      · rw [if_pos h1, if_neg (fun h => hwb h.1), if_neg (fun h => hwb2 h.1)]
      · rw [if_neg h1]
        by_cases h2 : b i j = 'b' ∧ i = 7
        · rw [if_pos h2, if_neg (fun h => hbw h.1), if_neg (fun h => hbb h.1)]
        · rw [if_neg h2, if_neg h1, if_neg h2]
    · rw [promoteIfNeeded_other _ _ _ _ _ h]
  · intro hne
    by_contra hcon
    apply hne
    have hc1 : ¬ (b r c = 'w' ∧ r = 0) := fun h => hcon (Or.inl h)
    have hc2 : ¬ (b r c = 'b' ∧ r = 7) := fun h => hcon (Or.inr h)
    funext i j
    by_cases h : i = r ∧ j = c
    · obtain ⟨rfl, rfl⟩ := h
      rw [promoteIfNeeded_same, if_neg hc1, if_neg hc2]
    · rw [promoteIfNeeded_other _ _ _ _ _ h]
  · intro h
    unfold promoteIfNeeded
    rw [if_pos h]
  · intro h
    have h1 : ¬ (b r c = 'w' ∧ r = 0) := by
      rintro ⟨h1, -⟩
      rw [h.1] at h1
      exact hbw2 h1
    have h7 : BOARD_SIZE - 1 = 7 := by decide
    unfold promoteIfNeeded
    rw [if_neg h1, h7, if_pos h]
  · intro i j h
    exact promoteIfNeeded_other _ _ _ _ _ h

/-! ## Applying a sequence -/

theorem applySteps_eq_foldl (capture : Bool) (steps : List MoveStep) (b : Board) :
    applySteps capture b steps = steps.foldl (fun bd st => makeOneStep bd st capture) b := by
  induction steps generalizing b with
  | nil => rfl
  | cons st rest ih => simp only [applySteps, List.foldl_cons, ih]

/-! ## The loops of searchCaptures list their captures first -/

theorem manLoop_eq_runTargets (recCall : SearchCall) (b : Board) (r c color : Int)
    (used : List (Int × Int)) (cur : MoveSequence) (dirs : List (Int × Int))
    (state : List MoveSequence × Bool) :
    manLoop recCall b r c color used cur dirs state
      = runTargets recCall b used cur (manTargets b r c color used dirs) state := by
  induction dirs generalizing state with
  | nil => rfl
  | cons d rest ih =>
    obtain ⟨dr, dc⟩ := d
    obtain ⟨allSeq, ff⟩ := state
    simp only [manLoop, manTargets]
    by_cases h1 : (onBoard (r + dr) (c + dc) && onBoard (r + 2 * dr) (c + 2 * dc)) = true
    · by_cases h2 : (decide (pieceColor (b (r + dr) (c + dc)) = -color)
          && !wasUsed used (r + dr) (c + dc)) = true
      · by_cases h3 : b (r + 2 * dr) (c + 2 * dc) = '.'
        · rw [if_pos h1, if_pos h2, if_pos h3, if_pos (by simp [h1, h2, h3])]
          simp only [runTargets]
          cases hrec : recCall (makeOneStep b ⟨r, c, r + 2 * dr, c + 2 * dc⟩ true)
              (r + 2 * dr) (c + 2 * dc) (used ++ [(r + dr, c + dc)])
              (extendSeq cur ⟨r, c, r + 2 * dr, c + 2 * dc⟩) with
          | none => rfl
          | some found => exact ih _
        · rw [if_pos h1, if_pos h2, if_neg h3, if_neg (by simp [h3])]
          exact ih _
      · rw [if_pos h1, if_neg h2, if_neg (by simp [h2])]
        exact ih _
    · rw [if_neg h1, if_neg (by simp [h1])]
      exact ih _

theorem kingScan_eq_runTargets (recCall : SearchCall) (b : Board) (r c color : Int)
    (used : List (Int × Int)) (cur : MoveSequence) (dr dc : Int) (n : Nat)
    (stepR stepC : Int) (foeFound : Bool) (foeR foeC : Int)
    (state : List MoveSequence × Bool) :
    kingScan recCall b r c color used cur dr dc n stepR stepC foeFound foeR foeC state
      = runTargets recCall b used cur
          (kingScanTargets b r c color used dr dc n stepR stepC foeFound foeR foeC)
          state := by
  induction n generalizing stepR stepC foeFound foeR foeC state with
  | zero => rfl
  | succ n ih =>
    obtain ⟨allSeq, ff⟩ := state
    simp only [kingScan, kingScanTargets]
    split_ifs with h1 h2 h3 h4 h5
    · exact ih _ _ _ _ _ _
    · exact ih _ _ _ _ _ _
    · rfl
    · simp only [runTargets]
      cases hrec : recCall (makeOneStep b ⟨r, c, stepR, stepC⟩ true)
          stepR stepC (used ++ [(foeR, foeC)]) (extendSeq cur ⟨r, c, stepR, stepC⟩) with
      | none => rfl
      | some found => exact ih _ _ _ _ _ _
    · rfl
    · rfl

theorem runTargets_append (recCall : SearchCall) (b : Board)
    (used : List (Int × Int)) (cur : MoveSequence) (l1 l2 : List Target)
    (state : List MoveSequence × Bool) :
    runTargets recCall b used cur (l1 ++ l2) state
      = match runTargets recCall b used cur l1 state with
        | none => none
        | some state2 => runTargets recCall b used cur l2 state2 := by
  induction l1 generalizing state with
  | nil => rfl
  | cons t rest ih =>
    obtain ⟨allSeq, ff⟩ := state
    simp only [List.cons_append, runTargets]
    cases hrec : recCall (makeOneStep b t.1 true) t.1.endRow t.1.endCol (used ++ [t.2])
        (extendSeq cur t.1) with
    | none => rfl
    | some found => exact ih _

theorem kingLoop_eq_runTargets (recCall : SearchCall) (b : Board) (r c color : Int)
    (used : List (Int × Int)) (cur : MoveSequence) (dirs : List (Int × Int))
    (state : List MoveSequence × Bool) :
    kingLoop recCall b r c color used cur dirs state
      = runTargets recCall b used cur (kingTargets b r c color used dirs) state := by
  induction dirs generalizing state with
  | nil => rfl
  | cons d rest ih =>
    obtain ⟨dr, dc⟩ := d
    simp only [kingLoop, kingTargets, runTargets_append, kingScan_eq_runTargets]
    cases hrun : runTargets recCall b used cur
        (kingScanTargets b r c color used dr dc (BOARD_SIZE.toNat + 1) (r + dr) (c + dc)
          false (-1) (-1)) state with
    | none => rfl
    | some state2 => exact ih _

/-- One level of `searchCaptures`: run the recursive calls over the captures
found at `(r, c)`, then push `currentSeq` if there were none and it has
captured something. -/
theorem searchCaptures_succ (fuel : Nat) (b : Board) (r c color : Int)
    (used : List (Int × Int)) (cur : MoveSequence) :
    searchCaptures (fuel + 1) b r c color used cur
      = match runTargets (fun b2 r2 c2 u s => searchCaptures fuel b2 r2 c2 color u s)
            b used cur (captureTargets b r c color used) ([], false) with
        | none => none
        | some (allSeq, foundFurther) =>
          if !foundFurther && decide (cur.capturesCount > 0) then some (allSeq ++ [cur])
          else some allSeq := by
  simp only [searchCaptures, captureTargets]
  split_ifs with h
  · rw [manLoop_eq_runTargets]
  · rw [kingLoop_eq_runTargets]

/-! ## What one level of the search returns -/

theorem runTargets_some (recCall : SearchCall) (b : Board) (used : List (Int × Int))
    (cur : MoveSequence) (ts : List Target) (acc out : List MoveSequence) (f g : Bool)
    (h : runTargets recCall b used cur ts (acc, f) = some (out, g)) :
    g = (f || !ts.isEmpty)
    ∧ (∀ s ∈ out, s ∈ acc ∨ ∃ t ∈ ts, ∃ res,
        recCall (makeOneStep b t.1 true) t.1.endRow t.1.endCol (used ++ [t.2])
          (extendSeq cur t.1) = some res ∧ s ∈ res)
    ∧ (∀ s ∈ acc, s ∈ out)
    ∧ (∀ t ∈ ts, ∃ res,
        recCall (makeOneStep b t.1 true) t.1.endRow t.1.endCol (used ++ [t.2])
          (extendSeq cur t.1) = some res ∧ ∀ s ∈ res, s ∈ out) := by
  induction ts generalizing acc f with
  | nil =>
    simp only [runTargets, Option.some.injEq, Prod.mk.injEq] at h
    obtain ⟨rfl, rfl⟩ := h
    simp
  | cons t rest ih =>
    simp only [runTargets] at h
    cases hrec : recCall (makeOneStep b t.1 true) t.1.endRow t.1.endCol (used ++ [t.2])
        (extendSeq cur t.1) with
    | none => rw [hrec] at h; exact absurd h (by simp)
    | some found =>
      rw [hrec] at h
      obtain ⟨hg, hout, hacc, hts⟩ := ih _ _ h
      refine ⟨?_, ?_, ?_, ?_⟩
      · simp [hg]
      · intro s hs
        rcases hout s hs with h1 | ⟨t2, ht2, res, hres, hsres⟩
        · rcases List.mem_append.mp h1 with h2 | h2
          · exact Or.inl h2
          · exact Or.inr ⟨t, List.mem_cons_self _ _, found, hrec, h2⟩
        · exact Or.inr ⟨t2, List.mem_cons_of_mem _ ht2, res, hres, hsres⟩
      · intro s hs
        exact hacc s (List.mem_append_left _ hs)
      · intro t2 ht2
        rcases List.mem_cons.mp ht2 with rfl | ht2
        · exact ⟨found, hrec, fun s hs => hacc s (List.mem_append_right _ hs)⟩
        · exact hts t2 ht2

theorem runTargets_isSome (recCall : SearchCall) (b : Board) (used : List (Int × Int))
    (cur : MoveSequence) (ts : List Target) (state : List MoveSequence × Bool)
    (h : ∀ t ∈ ts, ∃ res,
        recCall (makeOneStep b t.1 true) t.1.endRow t.1.endCol (used ++ [t.2])
          (extendSeq cur t.1) = some res) :
    ∃ out, runTargets recCall b used cur ts state = some out := by
  induction ts generalizing state with
  | nil => exact ⟨state, rfl⟩
  | cons t rest ih =>
    obtain ⟨allSeq, ff⟩ := state
    obtain ⟨res, hres⟩ := h t (List.mem_cons_self _ _)
    simp only [runTargets, hres]
    exact ih _ (fun t2 ht2 => h t2 (List.mem_cons_of_mem _ ht2))

/-- With no capture available the search pushes `currentSeq` when it has
captured something, and nothing otherwise. -/
theorem searchCaptures_leaf (fuel : Nat) (b : Board) (r c color : Int)
    (used : List (Int × Int)) (cur : MoveSequence)
    (h : captureTargets b r c color used = []) :
    searchCaptures (fuel + 1) b r c color used cur
      = some (if cur.capturesCount > 0 then [cur] else []) := by
  rw [searchCaptures_succ, h]
  simp only [runTargets]
  by_cases hc : cur.capturesCount > 0 <;> simp [hc]

/-- Every returned sequence is `currentSeq` itself (when no capture is
available) or comes from the recursive call for one of the captures. -/
theorem searchCaptures_mem (fuel : Nat) (b : Board) (r c color : Int)
    (used : List (Int × Int)) (cur : MoveSequence) (res : List MoveSequence)
    (h : searchCaptures (fuel + 1) b r c color used cur = some res)
    (s : MoveSequence) (hs : s ∈ res) :
    (captureTargets b r c color used = [] ∧ cur.capturesCount > 0 ∧ s = cur)
    ∨ ∃ t ∈ captureTargets b r c color used, ∃ res2,
        searchCaptures fuel (makeOneStep b t.1 true) t.1.endRow t.1.endCol color
          (used ++ [t.2]) (extendSeq cur t.1) = some res2 ∧ s ∈ res2 := by
  rw [searchCaptures_succ] at h
  cases hrun : runTargets (fun b2 r2 c2 u s => searchCaptures fuel b2 r2 c2 color u s)
      b used cur (captureTargets b r c color used) ([], false) with
  | none => rw [hrun] at h; exact absurd h (by simp)
  | some state =>
    obtain ⟨allSeq, ff⟩ := state
    rw [hrun] at h
    obtain ⟨hg, hout, -, -⟩ := runTargets_some _ _ _ _ _ _ _ _ _ hrun
    simp only at h
    by_cases hcond : (!ff && decide (cur.capturesCount > 0)) = true
    · rw [if_pos hcond] at h
      simp only [Option.some.injEq] at h
      subst h
      simp only [Bool.and_eq_true, Bool.not_eq_true', decide_eq_true_eq] at hcond
      obtain ⟨hff, hcc⟩ := hcond
      rcases List.mem_append.mp hs with h1 | h1
      · rcases hout s h1 with h2 | h2
        · exact absurd h2 (List.not_mem_nil _)
        · exact Or.inr h2
      · left
        rw [hff] at hg
        simp only [Bool.false_or] at hg
        refine ⟨?_, hcc, List.mem_singleton.mp h1⟩
        cases hts : captureTargets b r c color used with
        | nil => rfl
        | cons t rest => rw [hts] at hg; simp at hg
    · rw [if_neg hcond] at h
      simp only [Option.some.injEq] at h
      subst h
      rcases hout s hs with h2 | h2
      · exact absurd h2 (List.not_mem_nil _)
      · exact Or.inr h2

/-- Every capture found at `(r, c)` is followed: its recursive call returns,
and everything it returns is in the result. -/
theorem searchCaptures_child (fuel : Nat) (b : Board) (r c color : Int)
    (used : List (Int × Int)) (cur : MoveSequence) (res : List MoveSequence)
    (h : searchCaptures (fuel + 1) b r c color used cur = some res)
    (t : Target) (ht : t ∈ captureTargets b r c color used) :
    ∃ res2, searchCaptures fuel (makeOneStep b t.1 true) t.1.endRow t.1.endCol color
          (used ++ [t.2]) (extendSeq cur t.1) = some res2 ∧ ∀ s ∈ res2, s ∈ res := by
  rw [searchCaptures_succ] at h
  cases hrun : runTargets (fun b2 r2 c2 u s => searchCaptures fuel b2 r2 c2 color u s)
      b used cur (captureTargets b r c color used) ([], false) with
  | none => rw [hrun] at h; exact absurd h (by simp)
  | some state =>
    obtain ⟨allSeq, ff⟩ := state
    rw [hrun] at h
    obtain ⟨-, -, -, hts⟩ := runTargets_some _ _ _ _ _ _ _ _ _ hrun
    obtain ⟨res2, hres2, hsub⟩ := hts t ht
    refine ⟨res2, hres2, fun s hs => ?_⟩
    simp only at h
    split_ifs at h with hcond
    · simp only [Option.some.injEq] at h
      subst h
      exact List.mem_append_left _ (hsub s hs)
    · simp only [Option.some.injEq] at h
      subst h
      exact hsub s hs

theorem extendPath_nil (cur : MoveSequence) : extendPath cur [] = cur := by
  simp [extendPath]

theorem extendPath_cons (cur : MoveSequence) (t : Target) (path : List Target) :
    extendPath cur (t :: path) = extendPath (extendSeq cur t.1) path := by
  simp only [extendPath, extendSeq, List.map_cons, List.length_cons, List.append_assoc,
    List.singleton_append, MoveSequence.mk.injEq, true_and]
  push_cast
  ring

/-- Soundness of the search: every returned sequence is `currentSeq` extended
by a complete run of captures, and `currentSeq` itself is returned only when
it has captured something. -/
theorem searchCaptures_sound (color : Int) (fuel : Nat) :
    ∀ (b : Board) (r c : Int) (used : List (Int × Int)) (cur : MoveSequence)
      (res : List MoveSequence),
      searchCaptures fuel b r c color used cur = some res → ∀ s ∈ res,
      ∃ path, CapPath color b r c used path ∧ s = extendPath cur path
        ∧ (path = [] → cur.capturesCount > 0) := by
  induction fuel with
  | zero => intro b r c used cur res h; simp [searchCaptures] at h
  | succ n ih =>
    intro b r c used cur res h s hs
    rcases searchCaptures_mem n b r c color used cur res h s hs with
      ⟨hnil, hcc, rfl⟩ | ⟨t, ht, res2, hres2, hs2⟩
    · exact ⟨[], hnil, (extendPath_nil _).symm, fun _ => hcc⟩
    · obtain ⟨path, hpath, hseq, -⟩ := ih _ _ _ _ _ _ hres2 s hs2
      refine ⟨t :: path, ⟨ht, hpath⟩, ?_, fun hnil => absurd hnil (List.cons_ne_nil _ _)⟩
      rw [extendPath_cons]
      exact hseq

/-- A search started with a sequence that has already captured returns at
least one sequence. -/
theorem searchCaptures_nonempty (color : Int) (fuel : Nat) :
    ∀ (b : Board) (r c : Int) (used : List (Int × Int)) (cur : MoveSequence)
      (res : List MoveSequence),
      searchCaptures fuel b r c color used cur = some res → cur.capturesCount > 0 →
      res ≠ [] := by
  induction fuel with
  | zero => intro b r c used cur res h; simp [searchCaptures] at h
  | succ n ih =>
    intro b r c used cur res h hcc
    cases hts : captureTargets b r c color used with
    | nil =>
      rw [searchCaptures_leaf n b r c color used cur hts, if_pos hcc] at h
      simp only [Option.some.injEq] at h
      subst h
      exact List.cons_ne_nil _ _
    | cons t rest =>
      have ht : t ∈ captureTargets b r c color used := by rw [hts]; exact List.mem_cons_self _ _
      obtain ⟨res2, hres2, hsub⟩ := searchCaptures_child n b r c color used cur res h t ht
      have hne : res2 ≠ [] := ih _ _ _ _ _ _ hres2 (by simp only [extendSeq]; omega)
      obtain ⟨s, hs⟩ := List.exists_mem_of_ne_nil _ hne
      exact List.ne_nil_of_mem (hsub s hs)

/-! ## The captures found by the loops -/

theorem mem_directions (dr dc : Int) :
    (dr, dc) ∈ directions ↔ (dr = 1 ∨ dr = -1) ∧ (dc = 1 ∨ dc = -1) := by
  simp only [directions, List.mem_cons, Prod.mk.injEq, List.mem_singleton, List.not_mem_nil,
    or_false]
  constructor
  · rintro (⟨rfl, rfl⟩ | ⟨rfl, rfl⟩ | ⟨rfl, rfl⟩ | ⟨rfl, rfl⟩) <;> simp
  · rintro ⟨rfl | rfl, rfl | rfl⟩ <;> simp

theorem mem_manTargets (b : Board) (r c color : Int) (used : List (Int × Int))
    (dirs : List (Int × Int)) (t : Target) :
    t ∈ manTargets b r c color used dirs ↔
      ∃ dr dc, (dr, dc) ∈ dirs
        ∧ onBoard (r + dr) (c + dc) = true ∧ onBoard (r + 2 * dr) (c + 2 * dc) = true
        ∧ pieceColor (b (r + dr) (c + dc)) = -color
        ∧ wasUsed used (r + dr) (c + dc) = false
        ∧ b (r + 2 * dr) (c + 2 * dc) = '.'
        ∧ t = (⟨r, c, r + 2 * dr, c + 2 * dc⟩, (r + dr, c + dc)) := by
  induction dirs with
  | nil => simp [manTargets]
  | cons d rest ih =>
    obtain ⟨dr, dc⟩ := d
    simp only [manTargets]
    split_ifs with h
    · simp only [Bool.and_eq_true, decide_eq_true_eq, Bool.not_eq_true'] at h
      obtain ⟨⟨⟨h1, h2⟩, h3, h4⟩, h5⟩ := h
      rw [List.mem_cons, ih]
      constructor
      · rintro (rfl | ⟨dr2, dc2, hmem, hrest⟩)
        · exact ⟨dr, dc, List.mem_cons_self _ _, h1, h2, h3, h4, h5, rfl⟩
        · exact ⟨dr2, dc2, List.mem_cons_of_mem _ hmem, hrest⟩
      · rintro ⟨dr2, dc2, hmem, hrest⟩
        rcases List.mem_cons.mp hmem with heq | hmem
        · simp only [Prod.mk.injEq] at heq
          obtain ⟨rfl, rfl⟩ := heq
          exact Or.inl hrest.2.2.2.2.2
        · exact Or.inr ⟨dr2, dc2, hmem, hrest⟩
    · rw [ih]
      constructor
      · rintro ⟨dr2, dc2, hmem, hrest⟩
        exact ⟨dr2, dc2, List.mem_cons_of_mem _ hmem, hrest⟩
      · rintro ⟨dr2, dc2, hmem, hrest⟩
        rcases List.mem_cons.mp hmem with heq | hmem
        · simp only [Prod.mk.injEq] at heq
          obtain ⟨rfl, rfl⟩ := heq
          exfalso
          apply h
          obtain ⟨h1, h2, h3, h4, h5, -⟩ := hrest
          simp [h1, h2, h3, h4, h5]
        · exact ⟨dr2, dc2, hmem, hrest⟩

/-- Captures found by the scan of the king once the foe has been passed: every
further empty cell reached within the bound is a landing cell. -/
theorem mem_kingScanTargets_found (b : Board) (r c color : Int) (used : List (Int × Int))
    (dr dc fR fC : Int) (t : Target) (n : Nat) :
    ∀ sR sC, t ∈ kingScanTargets b r c color used dr dc n sR sC true fR fC ↔
      ∃ m : Int, 0 ≤ m ∧ m < n
        ∧ (∀ i, 0 ≤ i → i ≤ m →
            onBoard (sR + i * dr) (sC + i * dc) = true ∧ b (sR + i * dr) (sC + i * dc) = '.')
        ∧ t = (⟨r, c, sR + m * dr, sC + m * dc⟩, (fR, fC)) := by
  induction n with
  | zero =>
    intro sR sC
    simp only [kingScanTargets, List.not_mem_nil, false_iff, not_exists, not_and]
    intro m h0 hm
    simp only [Nat.cast_zero] at hm
    omega
  | succ n ih =>
    intro sR sC
    constructor
    · intro ht
      simp only [kingScanTargets, Bool.not_true, Bool.false_eq_true, if_false] at ht
      split_ifs at ht with hob hdot
      · rcases List.mem_cons.mp ht with rfl | ht
        · refine ⟨0, le_refl _, by push_cast; omega, ?_, by simp⟩
          intro i hi0 hi1
          have : i = 0 := by omega
          subst this
          simp [hob, hdot]
        · obtain ⟨m, hm0, hmn, hcells, rfl⟩ := (ih _ _).mp ht
          refine ⟨m + 1, by omega, by push_cast; omega, ?_, ?_⟩
          · intro i hi0 hi1
            rcases eq_or_lt_of_le hi0 with rfl | hpos
            · simp [hob, hdot]
            · have := hcells (i - 1) (by omega) (by omega)
              have e1 : sR + dr + (i - 1) * dr = sR + i * dr := by ring
              have e2 : sC + dc + (i - 1) * dc = sC + i * dc := by ring
              rw [e1, e2] at this
              exact this
          · have e1 : sR + dr + m * dr = sR + (m + 1) * dr := by ring
            have e2 : sC + dc + m * dc = sC + (m + 1) * dc := by ring
            rw [e1, e2]
      · exact absurd ht (List.not_mem_nil _)
      · exact absurd ht (List.not_mem_nil _)
    · rintro ⟨m, hm0, hmn, hcells, rfl⟩
      have h0 := hcells 0 (le_refl _) hm0
      simp only [zero_mul, add_zero] at h0
      simp only [kingScanTargets, Bool.not_true, Bool.false_eq_true, if_false, h0.1, h0.2,
        if_true]
      rcases eq_or_lt_of_le hm0 with rfl | hpos
      · simp
      · refine List.mem_cons_of_mem _ ((ih _ _).mpr ⟨m - 1, by omega, ?_, ?_, ?_⟩)
        · push_cast at hmn; omega
        · intro i hi0 hi1
          have := hcells (i + 1) (by omega) (by omega)
          have e1 : sR + (i + 1) * dr = sR + dr + i * dr := by ring
          have e2 : sC + (i + 1) * dc = sC + dc + i * dc := by ring
          rw [e1, e2] at this
          exact this
        · have e1 : sR + dr + (m - 1) * dr = sR + m * dr := by ring
          have e2 : sC + dc + (m - 1) * dc = sC + m * dc := by ring
          rw [e1, e2]
/-- Captures found by the scan of the king before the foe is met: it walks over
empty cells to the first occupied one, which must hold colour `-color` and be
unused, and then every further empty cell is a landing cell. -/
theorem mem_kingScanTargets_scan (b : Board) (r c color : Int) (used : List (Int × Int))
    (dr dc : Int) (t : Target) (n : Nat) :
    ∀ sR sC fR fC, t ∈ kingScanTargets b r c color used dr dc n sR sC false fR fC ↔
      ∃ p m : Int, 0 ≤ p ∧ p < m ∧ m < n
        ∧ (∀ i, 0 ≤ i → i ≤ m → onBoard (sR + i * dr) (sC + i * dc) = true)
        ∧ (∀ i, 0 ≤ i → i ≤ m → i ≠ p → b (sR + i * dr) (sC + i * dc) = '.')
        ∧ b (sR + p * dr) (sC + p * dc) ≠ '.'
        ∧ pieceColor (b (sR + p * dr) (sC + p * dc)) = -color
        ∧ wasUsed used (sR + p * dr) (sC + p * dc) = false
        ∧ t = (⟨r, c, sR + m * dr, sC + m * dc⟩, (sR + p * dr, sC + p * dc)) := by
  induction n with
  | zero =>
    intro sR sC fR fC
    simp only [kingScanTargets, List.not_mem_nil, false_iff, not_exists, not_and]
    intro p m h0 hpm hm
    simp only [Nat.cast_zero] at hm
    omega
  | succ n ih =>
    intro sR sC fR fC
    constructor
    · intro ht
      simp only [kingScanTargets, Bool.not_false, if_true] at ht
      split_ifs at ht with hob hdot hfoe
      · -- empty cell: keep scanning
        obtain ⟨p, m, hp0, hpm, hmn, hon, hemp, hne, hcol, hus, rfl⟩ := (ih _ _ _ _).mp ht
        have e1 : ∀ i : Int, sR + dr + i * dr = sR + (i + 1) * dr := fun i => by ring
        have e2 : ∀ i : Int, sC + dc + i * dc = sC + (i + 1) * dc := fun i => by ring
        simp only [e1, e2] at hon hemp hne hcol hus ⊢
        refine ⟨p + 1, m + 1, by omega, by omega, by push_cast; omega, ?_, ?_, hne, hcol, hus,
          rfl⟩
        · intro i hi0 hi1
          rcases eq_or_lt_of_le hi0 with rfl | hpos
          · simpa using hob
          · have := hon (i - 1) (by omega) (by omega)
            simpa using this
        · intro i hi0 hi1 hip
          rcases eq_or_lt_of_le hi0 with rfl | hpos
          · simpa using hdot
          · have := hemp (i - 1) (by omega) (by omega) (by omega)
            simpa using this
      · -- the foe
        simp only [Bool.and_eq_true, decide_eq_true_eq, Bool.not_eq_true'] at hfoe
        obtain ⟨m, hm0, hmn, hcells, rfl⟩ :=
          (mem_kingScanTargets_found b r c color used dr dc sR sC _ n _ _).mp ht
        have e1 : ∀ i : Int, sR + dr + i * dr = sR + (i + 1) * dr := fun i => by ring
        have e2 : ∀ i : Int, sC + dc + i * dc = sC + (i + 1) * dc := fun i => by ring
        simp only [e1, e2] at hcells ⊢
        refine ⟨0, m + 1, le_refl _, by omega, by push_cast; omega, ?_, ?_, ?_, ?_, ?_, ?_⟩
        · intro i hi0 hi1
          rcases eq_or_lt_of_le hi0 with rfl | hpos
          · simpa using hob
          · have := (hcells (i - 1) (by omega) (by omega)).1
            simpa using this
        · intro i hi0 hi1 hip
          have := (hcells (i - 1) (by omega) (by omega)).2
          simpa using this
        · simpa using hdot
        · simpa using hfoe.1
        · simpa using hfoe.2
        · simp
      · exact absurd ht (List.not_mem_nil _)
      · exact absurd ht (List.not_mem_nil _)
    · rintro ⟨p, m, hp0, hpm, hmn, hon, hemp, hne, hcol, hus, rfl⟩
      have hob := hon 0 (le_refl _) (by omega)
      simp only [zero_mul, add_zero] at hob
      simp only [kingScanTargets, Bool.not_false, if_true, hob]
      have e1 : ∀ i : Int, sR + dr + i * dr = sR + (i + 1) * dr := fun i => by ring
      have e2 : ∀ i : Int, sC + dc + i * dc = sC + (i + 1) * dc := fun i => by ring
      rcases eq_or_lt_of_le hp0 with rfl | hpos
      · -- the foe is here
        simp only [zero_mul, add_zero] at hne hcol hus ⊢
        rw [if_neg hne, if_pos (by simp [hcol, hus])]
        refine (mem_kingScanTargets_found b r c color used dr dc sR sC _ n _ _).mpr
          ⟨m - 1, by omega, by push_cast at hmn; omega, ?_, ?_⟩
        · intro i hi0 hi1
          have h1 := hon (i + 1) (by omega) (by omega)
          have h2 := hemp (i + 1) (by omega) (by omega) (by omega)
          rw [e1, e2]
          exact ⟨h1, h2⟩
        · rw [e1, e2]
          simp
      · have hdot := hemp 0 (le_refl _) (by omega) (by omega)
        simp only [zero_mul, add_zero] at hdot
        rw [if_pos hdot]
        refine (ih _ _ _ _).mpr ⟨p - 1, m - 1, by omega, by omega, by push_cast at hmn; omega,
          ?_, ?_, ?_, ?_, ?_, ?_⟩
        · intro i hi0 hi1
          rw [e1, e2]
          exact hon (i + 1) (by omega) (by omega)
        · intro i hi0 hi1 hip
          rw [e1, e2]
          exact hemp (i + 1) (by omega) (by omega) (by omega)
        · rw [e1, e2]; simpa using hne
        · rw [e1, e2]; simpa using hcol
        · rw [e1, e2]; simpa using hus
        · simp only [e1, e2, sub_add_cancel]
theorem mem_kingTargets (b : Board) (r c color : Int) (used : List (Int × Int))
    (dirs : List (Int × Int)) (t : Target) :
    t ∈ kingTargets b r c color used dirs ↔
      ∃ dr dc, (dr, dc) ∈ dirs
        ∧ t ∈ kingScanTargets b r c color used dr dc (BOARD_SIZE.toNat + 1)
            (r + dr) (c + dc) false (-1) (-1) := by
  induction dirs with
  | nil => simp [kingTargets]
  | cons d rest ih =>
    obtain ⟨dr, dc⟩ := d
    simp only [kingTargets, List.mem_append, ih, List.mem_cons, Prod.mk.injEq]
    constructor
    · rintro (h | ⟨dr2, dc2, hmem, h⟩)
      · exact ⟨dr, dc, Or.inl ⟨rfl, rfl⟩, h⟩
      · exact ⟨dr2, dc2, Or.inr hmem, h⟩
    · rintro ⟨dr2, dc2, (⟨rfl, rfl⟩ | hmem), h⟩
      · exact Or.inl h
      · exact Or.inr ⟨dr2, dc2, hmem, h⟩

/-- A diagonal run of `k` cells that stays on the board has `k <= 8`. -/
theorem run_le_of_onBoard (r c dr dc k : Int) (hdr : dr = 1 ∨ dr = -1) (hk : 1 ≤ k)
    (hon : ∀ i, 1 ≤ i → i ≤ k → onBoard (r + i * dr) (c + i * dc) = true) : k ≤ 8 := by
  have h1 := (onBoard_iff _ _).mp (hon 1 (le_refl _) hk)
  have hk2 := (onBoard_iff _ _).mp (hon k hk (le_refl _))
  rcases hdr with rfl | rfl
  · simp only [mul_one, one_mul] at h1 hk2
    omega
  · simp only [mul_neg, mul_one, one_mul] at h1 hk2
    omega

/-- The captures of a king: along one of the four diagonals, over empty cells
to the first occupied cell, which holds colour `-color` and is not marked
used, landing on any of the empty cells that follow it directly. -/
theorem mem_kingTargets_directions (b : Board) (r c color : Int) (used : List (Int × Int))
    (t : Target) :
    t ∈ kingTargets b r c color used directions ↔
      ∃ dr dc j k : Int, (dr = 1 ∨ dr = -1) ∧ (dc = 1 ∨ dc = -1) ∧ 1 ≤ j ∧ j < k
        ∧ (∀ i, 1 ≤ i → i ≤ k → onBoard (r + i * dr) (c + i * dc) = true)
        ∧ (∀ i, 1 ≤ i → i ≤ k → i ≠ j → b (r + i * dr) (c + i * dc) = '.')
        ∧ b (r + j * dr) (c + j * dc) ≠ '.'
        ∧ pieceColor (b (r + j * dr) (c + j * dc)) = -color
        ∧ wasUsed used (r + j * dr) (c + j * dc) = false
        ∧ t = (⟨r, c, r + k * dr, c + k * dc⟩, (r + j * dr, c + j * dc)) := by
  have hfuel : ((BOARD_SIZE.toNat + 1 : Nat) : Int) = 9 := by decide
  rw [mem_kingTargets]
  constructor
  · rintro ⟨dr, dc, hdir, ht⟩
    obtain ⟨p, m, hp0, hpm, hmn, hon, hemp, hne, hcol, hus, rfl⟩ :=
      (mem_kingScanTargets_scan b r c color used dr dc t _ _ _ _ _).mp ht
    have e1 : ∀ i : Int, r + dr + i * dr = r + (i + 1) * dr := fun i => by ring
    have e2 : ∀ i : Int, c + dc + i * dc = c + (i + 1) * dc := fun i => by ring
    simp only [e1, e2] at hon hemp hne hcol hus ⊢
    obtain ⟨hdr, hdc⟩ := (mem_directions dr dc).mp hdir
    refine ⟨dr, dc, p + 1, m + 1, hdr, hdc, by omega, by omega, ?_, ?_, hne, hcol, hus, rfl⟩
    · intro i hi1 hik
      have := hon (i - 1) (by omega) (by omega)
      simpa using this
    · intro i hi1 hik hij
      have := hemp (i - 1) (by omega) (by omega) (by omega)
      simpa using this
  · rintro ⟨dr, dc, j, k, hdr, hdc, hj, hjk, hon, hemp, hne, hcol, hus, rfl⟩
    refine ⟨dr, dc, (mem_directions dr dc).mpr ⟨hdr, hdc⟩, ?_⟩
    have hk8 := run_le_of_onBoard r c dr dc k hdr (by omega) hon
    have e1 : ∀ i : Int, r + dr + i * dr = r + (i + 1) * dr := fun i => by ring
    have e2 : ∀ i : Int, c + dc + i * dc = c + (i + 1) * dc := fun i => by ring
    refine (mem_kingScanTargets_scan b r c color used dr dc _ _ _ _ _ _).mpr
      ⟨j - 1, k - 1, by omega, by omega, by rw [hfuel]; omega, ?_, ?_, ?_, ?_, ?_, ?_⟩
    · intro i hi0 hi1
      rw [e1, e2]
      exact hon (i + 1) (by omega) (by omega)
    · intro i hi0 hi1 hip
      rw [e1, e2]
      exact hemp (i + 1) (by omega) (by omega) (by omega)
    · simpa only [e1, e2, sub_add_cancel] using hne
    · simpa only [e1, e2, sub_add_cancel] using hcol
    · simpa only [e1, e2, sub_add_cancel] using hus
    · simp only [e1, e2, sub_add_cancel]

/-- The captures of a man: over the adjacent cell of one of the four diagonals,
which holds colour `-color` and is not marked used, onto the empty cell behind it. -/
theorem mem_manTargets_directions (b : Board) (r c color : Int) (used : List (Int × Int))
    (t : Target) :
    t ∈ manTargets b r c color used directions ↔
      ∃ dr dc : Int, (dr = 1 ∨ dr = -1) ∧ (dc = 1 ∨ dc = -1)
        ∧ onBoard (r + dr) (c + dc) = true ∧ onBoard (r + 2 * dr) (c + 2 * dc) = true
        ∧ pieceColor (b (r + dr) (c + dc)) = -color
        ∧ wasUsed used (r + dr) (c + dc) = false
        ∧ b (r + 2 * dr) (c + 2 * dc) = '.'
        ∧ t = (⟨r, c, r + 2 * dr, c + 2 * dc⟩, (r + dr, c + dc)) := by
  rw [mem_manTargets]
  constructor
  · rintro ⟨dr, dc, hdir, h⟩
    obtain ⟨hdr, hdc⟩ := (mem_directions dr dc).mp hdir
    exact ⟨dr, dc, hdr, hdc, h⟩
  · rintro ⟨dr, dc, hdr, hdc, h⟩
    exact ⟨dr, dc, (mem_directions dr dc).mpr ⟨hdr, hdc⟩, h⟩

/-- Every capture found by the search has the geometry `IsTarget`. -/
theorem isTarget_of_mem (b : Board) (r c color : Int) (used : List (Int × Int))
    (t : Target) (ht : t ∈ captureTargets b r c color used) :
    IsTarget b r c color used t := by
  unfold captureTargets at ht
  split_ifs at ht with hman
  · obtain ⟨dr, dc, hdr, hdc, h1, h2, h3, h4, h5, rfl⟩ :=
      (mem_manTargets_directions b r c color used t).mp ht
    refine ⟨dr, dc, 1, 2, hdr, hdc, le_refl _, by omega, by simp, by simp, ?_, ?_, ?_, ?_⟩
    · intro i hi1 hi2
      have : i = 1 ∨ i = 2 := by omega
      rcases this with rfl | rfl
      · simpa using h1
      · exact h2
    · intro i hi1 hi2 hne
      have : i = 2 := by omega
      subst this
      exact h5
    · simpa using h3
    · simpa using h4
  · obtain ⟨dr, dc, j, k, hdr, hdc, hj, hjk, hon, hemp, -, hcol, hus, rfl⟩ :=
      (mem_kingTargets_directions b r c color used t).mp ht
    exact ⟨dr, dc, j, k, hdr, hdc, hj, hjk, rfl, rfl, hon, hemp, hcol, hus⟩
/-! ## The recursion budget is never exhausted -/

theorem mem_intRange (lo hi x : Int) : x ∈ intRange lo hi ↔ lo ≤ x ∧ x < hi := by
  simp only [intRange, List.mem_map, List.mem_range]
  constructor
  · rintro ⟨k, hk, rfl⟩
    have := Int.lt_toNat.mp hk
    omega
  · rintro ⟨h1, h2⟩
    have hx : ((x - lo).toNat : Int) = x - lo := Int.toNat_of_nonneg (by omega)
    refine ⟨(x - lo).toNat, Int.lt_toNat.mpr (by omega), by omega⟩

theorem mem_allCells (r c : Int) : (r, c) ∈ allCells ↔ onBoard r c = true := by
  simp only [allCells, List.mem_flatMap, List.mem_map, Prod.mk.injEq, mem_intRange,
    onBoard_iff, BOARD_SIZE]
  constructor
  · rintro ⟨r2, hr, c2, hc, rfl, rfl⟩
    omega
  · rintro h
    exact ⟨r, by omega, c, by omega, rfl, rfl⟩

theorem countP_lt_of_witness {α : Type} (p q : α → Bool) (l : List α)
    (hpq : ∀ x ∈ l, q x = true → p x = true)
    (hw : ∃ x ∈ l, p x = true ∧ q x = false) :
    l.countP q < l.countP p := by
  induction l with
  | nil => obtain ⟨x, hx, -⟩ := hw; exact absurd hx (List.not_mem_nil _)
  | cons a rest ih =>
    have hmono : rest.countP q ≤ rest.countP p :=
      List.countP_mono_left (fun x hx => hpq x (List.mem_cons_of_mem _ hx))
    obtain ⟨x, hx, hpx, hqx⟩ := hw
    rcases List.mem_cons.mp hx with rfl | hx
    · rw [List.countP_cons_of_pos _ _ hpx, List.countP_cons_of_neg _ _ (by simp [hqx])]
      omega
    · have hlt := ih (fun y hy => hpq y (List.mem_cons_of_mem _ hy)) ⟨x, hx, hpx, hqx⟩
      by_cases hqa : q a = true
      · rw [List.countP_cons_of_pos _ _ hqa,
          List.countP_cons_of_pos _ _ (hpq a (List.mem_cons_self _ _) hqa)]
        omega
      · rw [List.countP_cons_of_neg _ _ hqa]
        by_cases hpa : p a = true
        · rw [List.countP_cons_of_pos _ _ hpa]; omega
        · rw [List.countP_cons_of_neg _ _ hpa]; exact hlt

theorem wasUsed_append (used : List (Int × Int)) (f : Int × Int) (rr cc : Int) :
    wasUsed (used ++ [f]) rr cc = (wasUsed used rr cc || decide (f = (rr, cc))) := by
  rw [Bool.eq_iff_iff]
  simp only [wasUsed_iff, List.mem_append, List.mem_singleton, Bool.or_eq_true,
    decide_eq_true_eq]
  constructor
  · rintro (h | h)
    · exact Or.inl h
    · exact Or.inr h.symm
  · rintro (h | h)
    · exact Or.inl h
    · exact Or.inr h.symm

/-- Marking a fresh cell of the board as used lowers the number of unused cells. -/
theorem unusedCount_append_lt (used : List (Int × Int)) (fr fc : Int)
    (hon : onBoard fr fc = true) (hus : wasUsed used fr fc = false) :
    unusedCount (used ++ [(fr, fc)]) < unusedCount used := by
  unfold unusedCount
  apply countP_lt_of_witness
  · intro x _ hx
    rw [wasUsed_append] at hx
    simp only [Bool.not_eq_true', Bool.or_eq_false_iff] at hx ⊢
    exact hx.1
  · refine ⟨(fr, fc), (mem_allCells fr fc).mpr hon, ?_, ?_⟩
    · simp [hus]
    · rw [wasUsed_append]
      simp

theorem unusedCount_le (used : List (Int × Int)) : unusedCount used ≤ 64 := by
  unfold unusedCount
  refine le_trans (List.countP_le_length _) ?_
  decide

/-- Termination of the search: a budget above the number of unused cells is
never exhausted. -/
theorem searchCaptures_total (color : Int) (fuel : Nat) :
    ∀ (b : Board) (r c : Int) (used : List (Int × Int)) (cur : MoveSequence),
      unusedCount used < fuel →
      ∃ res, searchCaptures fuel b r c color used cur = some res := by
  induction fuel with
  | zero => intro b r c used cur h; omega
  | succ n ih =>
    intro b r c used cur h
    rw [searchCaptures_succ]
    obtain ⟨out, hout⟩ := runTargets_isSome
      (fun b2 r2 c2 u s => searchCaptures n b2 r2 c2 color u s) b used cur
      (captureTargets b r c color used) ([], false) (by
        intro t ht
        obtain ⟨dr, dc, j, k, hdr, hdc, hj, hjk, -, hfoe, hon, -, -, hus⟩ :=
          isTarget_of_mem b r c color used t ht
        have hlt := unusedCount_append_lt used _ _ (hon j hj (le_of_lt hjk)) hus
        rw [← hfoe] at hlt
        exact ih _ _ _ _ _ (by omega))
    rw [hout]
    obtain ⟨allSeq, ff⟩ := out
    simp only
    split_ifs
    · exact ⟨_, rfl⟩
    · exact ⟨_, rfl⟩

/-- The search run by `getAllCapturesForPiece` returns, and its result is what
`getAllCapturesForPiece` returns. -/
theorem getAllCapturesForPiece_eq (b : Board) (rr cc : Int)
    (h : pieceColor (b rr cc) ≠ 0) :
    searchCaptures searchBudget b rr cc (pieceColor (b rr cc)) []
        { steps := [], capturesCount := 0 }
      = some (getAllCapturesForPiece b rr cc) := by
  obtain ⟨res, hres⟩ := searchCaptures_total (pieceColor (b rr cc)) searchBudget b rr cc []
    { steps := [], capturesCount := 0 }
    (lt_of_le_of_lt (unusedCount_le []) (by decide))
  unfold getAllCapturesForPiece
  rw [if_neg h, hres]

theorem getAllCapturesForPiece_empty (b : Board) (rr cc : Int)
    (h : pieceColor (b rr cc) = 0) : getAllCapturesForPiece b rr cc = [] := by
  unfold getAllCapturesForPiece
  rw [if_pos h]
/-! ## The board after a capture step -/

theorem cell_ne (r dr i k : Int) (hdr : dr = 1 ∨ dr = -1) (h : i ≠ k) :
    r + i * dr ≠ r + k * dr := by
  rcases hdr with rfl | rfl <;> omega

theorem promoteIfNeeded_same_promoted (b : Board) (r c : Int) :
    promoteIfNeeded b r c r c = promoted (b r c) r := by
  rw [promoteIfNeeded_same]
  rfl

theorem pieceColor_promoted (p : Char) (row : Int) :
    pieceColor (promoted p row) = pieceColor p := by
  unfold promoted
  split_ifs with h1 h2
  · rw [h1.1]; decide
  · rw [h2.1]; decide
  · rfl

theorem isKing_promoted (p : Char) (row : Int) :
    isKing (promoted p row) = true ↔
      isKing p = true ∨ (p = 'w' ∧ row = 0) ∨ (p = 'b' ∧ row = 7) := by
  unfold promoted
  split_ifs with h1 h2
  · simp only [h1, and_self, true_or, or_true, iff_true]; decide
  · simp only [h2, and_self, or_true, iff_true]; decide
  · simp only [h1, h2, or_false]

/-- The loop of `makeOneStep` clears the first cell of the diagonal that holds a
piece, when that cell lies before the end cell and within the bound. -/
theorem clearCaptured_finds (b1 : Board) (r c dr dc j k : Int) (hdr : dr = 1 ∨ dr = -1)
    (hjk : j < k) (hfoe : pieceColor (b1 (r + j * dr) (c + j * dc)) ≠ 0) (n : Nat) :
    ∀ i : Int, i ≤ j → j - i < n →
      (∀ x, i ≤ x → x < j → pieceColor (b1 (r + x * dr) (c + x * dc)) = 0) →
      clearCaptured n b1 (r + i * dr) (c + i * dc) dr dc (r + k * dr) (c + k * dc)
          = b1.set (r + j * dr) (c + j * dc) '.'
        ∧ capturedAt n b1 (r + i * dr) (c + i * dc) dr dc (r + k * dr) (c + k * dc)
          = some (r + j * dr, c + j * dc) := by
  induction n with
  | zero => intro i hij hn; simp only [Nat.cast_zero] at hn; omega
  | succ n ih =>
    intro i hij hn hemp
    have hne : r + i * dr ≠ r + k * dr := cell_ne r dr i k hdr (by omega)
    simp only [clearCaptured, capturedAt]
    rw [if_pos (Or.inl hne), if_pos (Or.inl hne)]
    by_cases heq : i = j
    · subst heq
      rw [if_pos hfoe, if_pos hfoe]
      exact ⟨rfl, rfl⟩
    · have h0 := hemp i (le_refl _) (by omega)
      rw [if_neg (not_not.mpr h0), if_neg (not_not.mpr h0)]
      have e1 : r + i * dr + dr = r + (i + 1) * dr := by ring
      have e2 : c + i * dc + dc = c + (i + 1) * dc := by ring
      rw [e1, e2]
      exact ih (i + 1) (by omega) (by push_cast at hn; omega)
        (fun x hx1 hx2 => hemp x (by omega) hx2)

/-- The cell reported by `capturedAt` is the cell cleared by `clearCaptured`. -/
theorem clearCaptured_eq_capturedAt (n : Nat) :
    ∀ (b : Board) (checkR checkC dirR dirC endRow endCol : Int),
      clearCaptured n b checkR checkC dirR dirC endRow endCol
        = match capturedAt n b checkR checkC dirR dirC endRow endCol with
          | some p => b.set p.1 p.2 '.'
          | none => b := by
  induction n with
  | zero => intro b checkR checkC dirR dirC endRow endCol; rfl
  | succ n ih =>
    intro b checkR checkC dirR dirC endRow endCol
    simp only [clearCaptured, capturedAt]
    split_ifs with h1 h2
    · rfl
    · exact ih _ _ _ _ _ _ _
    · rfl

/-- On a capture found by the search, `makeOneStep` moves the piece, clears the
jumped cell and promotes the end cell. -/
theorem makeOneStep_target (b : Board) (r c color : Int) (used : List (Int × Int))
    (t : Target) (ht : IsTarget b r c color used t) (hc : color ≠ 0) :
    makeOneStep b t.1 true = afterCapture b r c t.1.endRow t.1.endCol t.2.1 t.2.2
      ∧ capturedCell b t.1 = some t.2 := by
  obtain ⟨dr, dc, j, k, hdr, hdc, hj, hjk, hst, hfoe, hon, hemp, hcol, -⟩ := ht
  obtain ⟨st, foe⟩ := t
  simp only at hst hfoe
  subst hst hfoe
  have hk8 := run_le_of_onBoard r c dr dc k hdr (by omega) hon
  have hdirR : (if r + k * dr - r > 0 then (1 : Int) else -1) = dr := by
    rcases hdr with rfl | rfl
    · rw [if_pos (by omega)]
    · rw [if_neg (by omega)]
  have hdirC : (if c + k * dc - c > 0 then (1 : Int) else -1) = dc := by
    rcases hdc with rfl | rfl
    · rw [if_pos (by omega)]
    · rw [if_neg (by omega)]
  have h8 : BOARD_SIZE.toNat = 8 := by decide
  have hb1 : ∀ x : Int, 1 ≤ x → x < k →
      ((b.set r c '.').set (r + k * dr) (c + k * dc) (b r c)) (r + x * dr) (c + x * dc)
        = b (r + x * dr) (c + x * dc) := by
    intro x hx1 hxk
    rw [set_other _ _ _ _ _ _ (fun h => cell_ne r dr x k hdr (by omega) h.1),
      set_other _ _ _ _ _ _ (fun h => cell_ne r dr x 0 hdr (by omega) (by simpa using h.1))]
  have hfind := clearCaptured_finds ((b.set r c '.').set (r + k * dr) (c + k * dc) (b r c))
    r c dr dc j k hdr hjk (by rw [hb1 j hj hjk, hcol]; omega) 8 1 hj (by omega)
    (by
      intro x hx1 hxj
      rw [hb1 x hx1 (by omega), hemp x hx1 (by omega) (by omega)]
      exact pieceColor_dot)
  simp only [one_mul] at hfind
  constructor
  · simp only [makeOneStep, afterCapture, if_true, hdirR, hdirC, h8]
    rw [hfind.1]
  · simp only [capturedCell, hdirR, hdirC, h8]
    rw [hfind.2]

/-- The cells of the board after a capture step, when the jumped cell is
neither the start nor the end cell and the step moves. -/
theorem afterCapture_apply (b : Board) (r c er ec fr fc x y : Int)
    (hfe : ¬(fr = er ∧ fc = ec)) :
    afterCapture b r c er ec fr fc x y =
      if x = er ∧ y = ec then promoted (b r c) er
      else if x = fr ∧ y = fc then '.'
      else if x = r ∧ y = c then '.'
      else b x y := by
  unfold afterCapture
  by_cases h1 : x = er ∧ y = ec
  · obtain ⟨rfl, rfl⟩ := h1
    rw [if_pos ⟨rfl, rfl⟩, promoteIfNeeded_same_promoted,
      set_other _ _ _ _ _ _ (fun h => hfe ⟨h.1.symm, h.2.symm⟩), set_same]
  · rw [if_neg h1, promoteIfNeeded_other _ _ _ _ _ h1]
    by_cases h2 : x = fr ∧ y = fc
    · obtain ⟨rfl, rfl⟩ := h2
      rw [if_pos ⟨rfl, rfl⟩, set_same]
    · rw [if_neg h2, set_other _ _ _ _ _ _ h2, set_other _ _ _ _ _ _ h1]
      by_cases h3 : x = r ∧ y = c
      · obtain ⟨rfl, rfl⟩ := h3
        rw [if_pos ⟨rfl, rfl⟩, set_same]
      · rw [if_neg h3, set_other _ _ _ _ _ _ h3]

/-! ## Invariants along a run of captures -/

theorem searchInv_init (b : Board) (r c : Int) (h : pieceColor (b r c) ≠ 0) :
    SearchInv (pieceColor (b r c)) b r c [] :=
  ⟨h, rfl, fun _ hu => absurd hu (List.not_mem_nil _)⟩

/-- The distinct cells of a capture: start, jumped cell and end. -/
theorem isTarget_distinct (b : Board) (r c color : Int) (used : List (Int × Int))
    (t : Target) (ht : IsTarget b r c color used t) :
    t.1.startRow = r ∧ t.1.startCol = c
    ∧ ¬(t.2.1 = t.1.endRow ∧ t.2.2 = t.1.endCol)
    ∧ ¬(r = t.1.endRow ∧ c = t.1.endCol)
    ∧ ¬(r = t.2.1 ∧ c = t.2.2)
    ∧ onBoard t.1.endRow t.1.endCol = true
    ∧ onBoard t.2.1 t.2.2 = true
    ∧ wasUsed used t.2.1 t.2.2 = false
    ∧ pieceColor (b t.2.1 t.2.2) = -color
    ∧ b t.1.endRow t.1.endCol = '.' := by
  obtain ⟨dr, dc, j, k, hdr, hdc, hj, hjk, hst, hfoe, hon, hemp, hcol, hus⟩ := ht
  rw [hst, hfoe]
  refine ⟨rfl, rfl, ?_, ?_, ?_, hon k (by omega) (le_refl _), hon j hj (le_of_lt hjk), hus,
    hcol, hemp k (by omega) (le_refl _) (by omega)⟩
  · exact fun h => cell_ne r dr j k hdr (by omega) h.1
  · exact fun h => cell_ne r dr 0 k hdr (by omega) (by simpa using h.1)
  · exact fun h => cell_ne r dr 0 j hdr (by omega) (by simpa using h.1)

/-- The invariant of the search is passed on to every recursive call. -/
theorem searchInv_step (color : Int) (b : Board) (r c : Int) (used : List (Int × Int))
    (t : Target) (hinv : SearchInv color b r c used)
    (ht : t ∈ captureTargets b r c color used) :
    SearchInv color (makeOneStep b t.1 true) t.1.endRow t.1.endCol (used ++ [t.2]) := by
  obtain ⟨hc, hpc, hused⟩ := hinv
  have hT := isTarget_of_mem b r c color used t ht
  obtain ⟨-, -, hfe, hse, hsf, -, -, -, -, -⟩ := isTarget_distinct b r c color used t hT
  rw [(makeOneStep_target b r c color used t hT hc).1]
  refine ⟨hc, ?_, ?_⟩
  · rw [afterCapture_apply _ _ _ _ _ _ _ _ _ hfe, if_pos ⟨rfl, rfl⟩, pieceColor_promoted, hpc]
  · intro u hu
    rw [afterCapture_apply _ _ _ _ _ _ _ _ _ hfe]
    split_ifs with h1 h2 h3
    · rw [pieceColor_promoted, hpc]; omega
    · rw [pieceColor_dot]; omega
    · rw [pieceColor_dot]; omega
    · rcases List.mem_append.mp hu with hu | hu
      · exact hused u hu
      · rw [List.mem_singleton] at hu
        subst hu
        exact absurd ⟨rfl, rfl⟩ h2

/-- A run of captures can be cut anywhere: after the first part the rest is a
run of captures from the cell reached, on the board left behind, and the
invariant of the search holds there. -/
theorem capPath_split (color : Int) (p1 p2 : List Target) :
    ∀ (b : Board) (r c : Int) (used : List (Int × Int)),
      CapPath color b r c used (p1 ++ p2) → SearchInv color b r c used →
      CapPath color (applySteps true b (p1.map Prod.fst))
          (pathEnd (r, c) p1).1 (pathEnd (r, c) p1).2 (used ++ p1.map Prod.snd) p2
        ∧ SearchInv color (applySteps true b (p1.map Prod.fst))
          (pathEnd (r, c) p1).1 (pathEnd (r, c) p1).2 (used ++ p1.map Prod.snd) := by
  induction p1 with
  | nil =>
    intro b r c used hp hinv
    simpa [applySteps, pathEnd] using And.intro hp hinv
  | cons t rest ih =>
    intro b r c used hp hinv
    obtain ⟨ht, hrest⟩ := hp
    have hinv2 := searchInv_step color b r c used t hinv ht
    have := ih _ _ _ _ hrest hinv2
    simpa [applySteps, pathEnd, List.append_assoc] using this

/-- The steps of a run of captures are chained, and the first starts at `(r, c)`. -/
theorem capPath_chain (color : Int) (path : List Target) :
    ∀ (b : Board) (r c : Int) (used : List (Int × Int)),
      CapPath color b r c used path →
      stepsChain (path.map Prod.fst)
        ∧ ∀ t, path.head? = some t → t.1.startRow = r ∧ t.1.startCol = c := by
  induction path with
  | nil =>
    intro b r c used _
    exact ⟨List.chain'_nil, fun t ht => by simp at ht⟩
  | cons t rest ih =>
    intro b r c used hp
    obtain ⟨ht, hrest⟩ := hp
    obtain ⟨hs1, hs2, -⟩ := isTarget_distinct b r c color used t
      (isTarget_of_mem b r c color used t ht)
    obtain ⟨hchain, hhead⟩ := ih _ _ _ _ hrest
    refine ⟨?_, ?_⟩
    · unfold stepsChain
      rw [List.map_cons, List.chain'_cons']
      refine ⟨?_, hchain⟩
      intro y hy
      cases rest with
      | nil => simp at hy
      | cons t2 rest2 =>
        simp only [List.map_cons, List.head?_cons, Option.mem_def, Option.some.injEq] at hy
        subst hy
        obtain ⟨h1, h2⟩ := hhead t2 rfl
        exact ⟨h1.symm, h2.symm⟩
    · intro t2 ht2
      simp only [List.head?_cons, Option.some.injEq] at ht2
      subst ht2
      exact ⟨hs1, hs2⟩

/-- The jumped cells of a run of captures are pairwise distinct and none of
them was marked used before. -/
theorem capPath_foes (color : Int) (path : List Target) :
    ∀ (b : Board) (r c : Int) (used : List (Int × Int)),
      CapPath color b r c used path →
      (∀ f ∈ path.map Prod.snd, f ∉ used) ∧ (path.map Prod.snd).Nodup := by
  induction path with
  | nil =>
    intro b r c used _
    exact ⟨fun f hf => by simp at hf, List.nodup_nil⟩
  | cons t rest ih =>
    intro b r c used hp
    obtain ⟨ht, hrest⟩ := hp
    obtain ⟨-, -, -, -, -, -, -, hus, -, -⟩ := isTarget_distinct b r c color used t
      (isTarget_of_mem b r c color used t ht)
    obtain ⟨hnot, hnodup⟩ := ih _ _ _ _ hrest
    refine ⟨?_, ?_⟩
    · intro f hf
      rw [List.map_cons, List.mem_cons] at hf
      rcases hf with rfl | hf
      · intro hmem
        have := (wasUsed_iff used t.2.1 t.2.2).mpr hmem
        rw [hus] at this
        exact absurd this (by simp)
      · exact fun hmem => hnot f hf (List.mem_append_left _ hmem)
    · rw [List.map_cons, List.nodup_cons]
      exact ⟨fun hmem => hnot _ hmem (List.mem_append_right _ (List.mem_singleton_self _)),
        hnodup⟩

/-- The cells cleared while a run of captures is applied are its jumped cells. -/
theorem capPath_capturedCells (color : Int) (path : List Target) :
    ∀ (b : Board) (r c : Int) (used : List (Int × Int)),
      CapPath color b r c used path → SearchInv color b r c used →
      capturedCells b (path.map Prod.fst) = path.map Prod.snd := by
  induction path with
  | nil => intro b r c used _ _; rfl
  | cons t rest ih =>
    intro b r c used hp hinv
    obtain ⟨ht, hrest⟩ := hp
    have hT := isTarget_of_mem b r c color used t ht
    have hcell := (makeOneStep_target b r c color used t hT hinv.1).2
    simp only [List.map_cons, capturedCells, hcell, Option.toList_some, List.singleton_append,
      List.cons.injEq, true_and]
    exact ih _ _ _ _ hrest (searchInv_step color b r c used t hinv ht)
/-- Every sequence returned by `getAllCapturesForPiece` is a non-empty complete
run of captures from the origin, which holds a piece. -/
theorem getAllCapturesForPiece_path (b : Board) (r c : Int) (s : MoveSequence)
    (hs : s ∈ getAllCapturesForPiece b r c) :
    pieceColor (b r c) ≠ 0 ∧ ∃ path, path ≠ []
      ∧ CapPath (pieceColor (b r c)) b r c [] path
      ∧ s.steps = path.map Prod.fst ∧ s.capturesCount = (path.length : Int) := by
  have hpc : pieceColor (b r c) ≠ 0 := by
    intro h0
    rw [getAllCapturesForPiece_empty b r c h0] at hs
    exact absurd hs (List.not_mem_nil _)
  refine ⟨hpc, ?_⟩
  obtain ⟨path, hpath, hseq, hne⟩ := searchCaptures_sound _ _ _ _ _ _ _ _
    (getAllCapturesForPiece_eq b r c hpc) s hs
  refine ⟨path, ?_, hpath, ?_, ?_⟩
  · intro hnil
    have := hne hnil
    simp at this
  · rw [hseq]; simp [extendPath]
  · rw [hseq]; simp [extendPath]

theorem pathEnd_of_getLast (path : List Target) :
    ∀ (p : Int × Int) (last : MoveStep), (path.map Prod.fst).getLast? = some last →
      pathEnd p path = (last.endRow, last.endCol) := by
  induction path with
  | nil => intro p last h; simp at h
  | cons t rest ih =>
    intro p last h
    cases rest with
    | nil =>
      simp only [List.map_cons, List.map_nil, List.getLast?_singleton, Option.some.injEq] at h
      subst h
      rfl
    | cons t2 rest2 =>
      simp only [List.map_cons, List.getLast?_cons_cons] at h
      simp only [pathEnd]
      have := ih (t.1.endRow, t.1.endCol) last (by simpa using h)
      simpa [pathEnd] using this

/-- The guard `wasUsed` does not change the captures found when no cell of
colour `-color` is marked used. -/
theorem manTargets_used_irrelevant (b : Board) (r c color : Int) (used : List (Int × Int))
    (h : ∀ x y, pieceColor (b x y) = -color → wasUsed used x y = false)
    (dirs : List (Int × Int)) :
    manTargets b r c color used dirs = manTargets b r c color [] dirs := by
  induction dirs with
  | nil => rfl
  | cons d rest ih =>
    obtain ⟨dr, dc⟩ := d
    simp only [manTargets, ih]
    by_cases hcol : pieceColor (b (r + dr) (c + dc)) = -color
    · rw [h _ _ hcol]
      rfl
    · simp [hcol]

theorem kingScanTargets_used_irrelevant (b : Board) (r c color : Int)
    (used : List (Int × Int))
    (h : ∀ x y, pieceColor (b x y) = -color → wasUsed used x y = false)
    (dr dc : Int) (n : Nat) :
    ∀ sR sC foeFound fR fC,
      kingScanTargets b r c color used dr dc n sR sC foeFound fR fC
        = kingScanTargets b r c color [] dr dc n sR sC foeFound fR fC := by
  induction n with
  | zero => intro sR sC foeFound fR fC; rfl
  | succ n ih =>
    intro sR sC foeFound fR fC
    simp only [kingScanTargets, ih]
    by_cases hcol : pieceColor (b sR sC) = -color
    · rw [h _ _ hcol]
      rfl
    · simp [hcol]

theorem kingTargets_used_irrelevant (b : Board) (r c color : Int) (used : List (Int × Int))
    (h : ∀ x y, pieceColor (b x y) = -color → wasUsed used x y = false)
    (dirs : List (Int × Int)) :
    kingTargets b r c color used dirs = kingTargets b r c color [] dirs := by
  induction dirs with
  | nil => rfl
  | cons d rest ih =>
    obtain ⟨dr, dc⟩ := d
    simp only [kingTargets, ih, kingScanTargets_used_irrelevant b r c color used h]

theorem captureTargets_used_irrelevant (color : Int) (b : Board) (r c : Int)
    (used : List (Int × Int)) (hinv : SearchInv color b r c used) :
    captureTargets b r c color used = captureTargets b r c color [] := by
  have h : ∀ x y, pieceColor (b x y) = -color → wasUsed used x y = false := by
    intro x y hxy
    by_contra hu
    rw [Bool.not_eq_false, wasUsed_iff] at hu
    exact hinv.2.2 (x, y) hu hxy
  unfold captureTargets
  rw [manTargets_used_irrelevant b r c color used h,
    kingTargets_used_irrelevant b r c color used h]

/-- The board and cell reached by a complete run of captures: the invariant of
the search holds there and no capture is available, with or without the guard
`wasUsed`. -/
theorem capPath_end (color : Int) (path : List Target) (b : Board) (r c : Int)
    (used : List (Int × Int)) (hp : CapPath color b r c used path)
    (hinv : SearchInv color b r c used) :
    SearchInv color (applySteps true b (path.map Prod.fst))
        (pathEnd (r, c) path).1 (pathEnd (r, c) path).2 (used ++ path.map Prod.snd)
      ∧ captureTargets (applySteps true b (path.map Prod.fst))
        (pathEnd (r, c) path).1 (pathEnd (r, c) path).2 color [] = [] := by
  have hp2 : CapPath color b r c used (path ++ []) := by simpa using hp
  obtain ⟨hleaf, hinv2⟩ := capPath_split color path [] b r c used hp2 hinv
  refine ⟨hinv2, ?_⟩
  rw [← captureTargets_used_irrelevant color _ _ _ _ hinv2]
  exact hleaf
/-! ## Scanning the board -/

theorem mem_foldl_step {α β : Type} (s : β) (F : List β → α → List β) (Q : α → Prop)
    (hF : ∀ acc x, s ∈ F acc x ↔ s ∈ acc ∨ Q x) (l : List α) :
    ∀ init, s ∈ l.foldl F init ↔ s ∈ init ∨ ∃ x ∈ l, Q x := by
  induction l with
  | nil => intro init; simp
  | cons a rest ih =>
    intro init
    rw [List.foldl_cons, ih, hF]
    constructor
    · rintro ((h | h) | ⟨x, hx, hq⟩)
      · exact Or.inl h
      · exact Or.inr ⟨a, List.mem_cons_self _ _, h⟩
      · exact Or.inr ⟨x, List.mem_cons_of_mem _ hx, hq⟩
    · rintro (h | ⟨x, hx, hq⟩)
      · exact Or.inl (Or.inl h)
      · rcases List.mem_cons.mp hx with rfl | hx
        · exact Or.inl (Or.inr hq)
        · exact Or.inr ⟨x, hx, hq⟩

/-- One task returns what `perPiece` returns for the pieces of colour `color`
on its rows. -/
theorem mem_scanChunk (b : Board) (color : Int) (perPiece : Int → Int → List MoveSequence)
    (rowSt rowEnd : Int) (s : MoveSequence) :
    s ∈ scanChunk b color perPiece rowSt rowEnd ↔
      ∃ rr cc, rowSt ≤ rr ∧ rr < rowEnd ∧ 0 ≤ cc ∧ cc < 8
        ∧ pieceColor (b rr cc) = color ∧ s ∈ perPiece rr cc := by
  unfold scanChunk
  rw [mem_foldl_step s _ (fun rr => ∃ cc, 0 ≤ cc ∧ cc < 8
        ∧ pieceColor (b rr cc) = color ∧ s ∈ perPiece rr cc)]
  · simp only [List.not_mem_nil, false_or, mem_intRange]
    constructor
    · rintro ⟨rr, ⟨h1, h2⟩, cc, h⟩
      exact ⟨rr, cc, h1, h2, h⟩
    · rintro ⟨rr, cc, h1, h2, h⟩
      exact ⟨rr, ⟨h1, h2⟩, cc, h⟩
  · intro acc rr
    rw [mem_foldl_step s _ (fun cc => pieceColor (b rr cc) = color ∧ s ∈ perPiece rr cc)]
    · simp only [mem_intRange, BOARD_SIZE]
      constructor
      · rintro (h | ⟨cc, ⟨h1, h2⟩, h⟩)
        · exact Or.inl h
        · exact Or.inr ⟨cc, h1, h2, h⟩
      · rintro (h | ⟨cc, h1, h2, h⟩)
        · exact Or.inl h
        · exact Or.inr ⟨cc, ⟨h1, h2⟩, h⟩
    · intro acc2 cc
      split_ifs with hc
      · simp [hc]
      · simp [hc]

theorem rowChunks_bounds (chunkSize : Int) (hcs : 0 ≤ chunkSize) (n : Nat) :
    ∀ rowSt ch, ch ∈ rowChunks chunkSize n rowSt → rowSt ≤ ch.1 ∧ ch.2 ≤ 8 := by
  induction n with
  | zero => intro rowSt ch h; simp [rowChunks] at h
  | succ n ih =>
    intro rowSt ch h
    simp only [rowChunks] at h
    split_ifs at h with hlt
    · rcases List.mem_cons.mp h with rfl | h
      · simp only [BOARD_SIZE]
        exact ⟨le_refl _, min_le_right _ _⟩
      · obtain ⟨h1, h2⟩ := ih _ _ h
        exact ⟨by omega, h2⟩
    · exact absurd h (List.not_mem_nil _)

theorem chunkSizeOf_pos (hw : Nat) : 1 ≤ chunkSizeOf hw := by
  unfold chunkSizeOf
  simp only
  split_ifs <;> omega

theorem mem_foldl_append {β : Type} (s : β) (parts : List (List β)) :
    ∀ init, s ∈ parts.foldl (fun finalMoves part => finalMoves ++ part) init ↔
      s ∈ init ∨ ∃ part ∈ parts, s ∈ part := by
  intro init
  exact mem_foldl_step s _ (fun part => s ∈ part) (fun acc x => List.mem_append) parts init

/-- Everything the row-chunked enumeration returns was returned by `perPiece`
for a piece of colour `color` on a cell of the board. -/
theorem mem_enumeration (hw : Nat) (b : Board) (color : Int)
    (perPiece : Int → Int → List MoveSequence) (s : MoveSequence)
    (hs : s ∈ ((rowChunks (chunkSizeOf hw) BOARD_SIZE.toNat 0).map (fun ch =>
        scanChunk b color perPiece ch.1 ch.2)).foldl
          (fun finalMoves part => finalMoves ++ part) []) :
    ∃ rr cc, onBoard rr cc = true ∧ pieceColor (b rr cc) = color ∧ s ∈ perPiece rr cc := by
  rw [mem_foldl_append] at hs
  rcases hs with hs | ⟨part, hpart, hs⟩
  · exact absurd hs (List.not_mem_nil _)
  · rw [List.mem_map] at hpart
    obtain ⟨ch, hch, rfl⟩ := hpart
    obtain ⟨h1, h2⟩ := rowChunks_bounds _ (by have := chunkSizeOf_pos hw; omega) _ _ _ hch
    obtain ⟨rr, cc, hr1, hr2, hc1, hc2, hcol, hmem⟩ := (mem_scanChunk _ _ _ _ _ _).mp hs
    exact ⟨rr, cc, (onBoard_iff rr cc).mpr ⟨by omega, by omega, hc1, hc2⟩, hcol, hmem⟩

theorem mem_findAllCaptures (hw : Nat) (b : Board) (whiteTurn : Bool) (s : MoveSequence)
    (hs : s ∈ findAllCaptures hw b whiteTurn) :
    ∃ rr cc, onBoard rr cc = true
      ∧ pieceColor (b rr cc) = (if whiteTurn then 1 else -1)
      ∧ s ∈ getAllCapturesForPiece b rr cc :=
  mem_enumeration hw b _ _ s hs

theorem mem_findAllNormalMoves (hw : Nat) (b : Board) (whiteTurn : Bool) (s : MoveSequence)
    (hs : s ∈ findAllNormalMoves hw b whiteTurn) :
    ∃ rr cc, onBoard rr cc = true
      ∧ pieceColor (b rr cc) = (if whiteTurn then 1 else -1)
      ∧ ((isKing (b rr cc) = false
            ∧ s ∈ getManSimpleMoves b rr cc (if whiteTurn then 1 else -1))
          ∨ (isKing (b rr cc) = true ∧ s ∈ getKingSimpleMoves b rr cc)) := by
  obtain ⟨rr, cc, hon, hcol, hmem⟩ := mem_enumeration hw b _ _ s hs
  refine ⟨rr, cc, hon, hcol, ?_⟩
  cases hk : isKing (b rr cc) with
  | false =>
    rw [hk] at hmem
    exact Or.inl ⟨rfl, hmem⟩
  | true =>
    rw [hk] at hmem
    exact Or.inr ⟨rfl, hmem⟩
/-! ## Simple moves -/

theorem mem_kingSimpleScan (b : Board) (r c dr dc : Int) (s : MoveSequence) (n : Nat) :
    ∀ nr nc result, s ∈ kingSimpleScan b r c dr dc n nr nc result →
      s ∈ result ∨ ∃ er ec, onBoard er ec = true ∧ b er ec = '.'
        ∧ s = { steps := [⟨r, c, er, ec⟩], capturesCount := 0 } := by
  induction n with
  | zero => intro nr nc result h; exact Or.inl h
  | succ n ih =>
    intro nr nc result h
    simp only [kingSimpleScan] at h
    split_ifs at h with hc
    · simp only [Bool.and_eq_true, decide_eq_true_eq] at hc
      rcases ih _ _ _ h with h1 | h1
      · rcases List.mem_append.mp h1 with h2 | h2
        · exact Or.inl h2
        · exact Or.inr ⟨nr, nc, hc.1, hc.2, List.mem_singleton.mp h2⟩
      · exact Or.inr h1
    · exact Or.inl h

/-- Every simple move is one step from the origin to an empty cell of the
board, with `capturesCount = 0`. -/
theorem simpleMove_shape (b : Board) (r c color : Int) (s : MoveSequence)
    (hs : s ∈ getManSimpleMoves b r c color ∨ s ∈ getKingSimpleMoves b r c) :
    ∃ er ec, onBoard er ec = true ∧ b er ec = '.'
      ∧ s = { steps := [⟨r, c, er, ec⟩], capturesCount := 0 } := by
  rcases hs with hs | hs
  · unfold getManSimpleMoves at hs
    simp only [List.foldl_cons, List.foldl_nil] at hs
    generalize (if color = 1 then (-1 : Int) else 1) = dr at hs
    have key : ∀ (dc : Int) (acc : List MoveSequence),
        s ∈ (if (onBoard (r + dr) (c + dc) && decide (b (r + dr) (c + dc) = '.')) = true then
              acc ++ [{ steps := [⟨r, c, r + dr, c + dc⟩], capturesCount := 0 }]
            else acc) →
        s ∈ acc ∨ ∃ er ec, onBoard er ec = true ∧ b er ec = '.'
          ∧ s = { steps := [⟨r, c, er, ec⟩], capturesCount := 0 } := by
      intro dc acc h
      split_ifs at h with hc
      · simp only [Bool.and_eq_true, decide_eq_true_eq] at hc
        rcases List.mem_append.mp h with h2 | h2
        · exact Or.inl h2
        · exact Or.inr ⟨_, _, hc.1, hc.2, List.mem_singleton.mp h2⟩
      · exact Or.inl h
    rcases key _ _ hs with h | h
    · rcases key _ _ h with h | h
      · exact absurd h (List.not_mem_nil _)
      · exact h
    · exact h
  · simp only [getKingSimpleMoves, directions, List.foldl_cons, List.foldl_nil] at hs
    rcases mem_kingSimpleScan _ _ _ _ _ _ _ _ _ _ hs with h | h
    · rcases mem_kingSimpleScan _ _ _ _ _ _ _ _ _ _ h with h | h
      · rcases mem_kingSimpleScan _ _ _ _ _ _ _ _ _ _ h with h | h
        · rcases mem_kingSimpleScan _ _ _ _ _ _ _ _ _ _ h with h | h
          · exact absurd h (List.not_mem_nil _)
          · exact h
        · exact h
      · exact h
    · exact h

/-- The board after a step that is not a capture. -/
theorem makeOneStep_simple_apply (b : Board) (r c er ec x y : Int)
    (hne : ¬(r = er ∧ c = ec)) :
    makeOneStep b ⟨r, c, er, ec⟩ false x y =
      if x = er ∧ y = ec then promoted (b r c) er
      else if x = r ∧ y = c then '.'
      else b x y := by
  simp only [makeOneStep, Bool.false_eq_true, if_false]
  by_cases h1 : x = er ∧ y = ec
  · obtain ⟨rfl, rfl⟩ := h1
    rw [if_pos ⟨rfl, rfl⟩, promoteIfNeeded_same_promoted, set_same]
  · rw [if_neg h1, promoteIfNeeded_other _ _ _ _ _ h1, set_other _ _ _ _ _ _ h1]
    by_cases h2 : x = r ∧ y = c
    · obtain ⟨rfl, rfl⟩ := h2
      rw [if_pos ⟨rfl, rfl⟩, set_same]
    · rw [if_neg h2, set_other _ _ _ _ _ _ h2]

theorem pieceColor_cases (p : Char) (color : Int) (h : pieceColor p = color) (hc : color ≠ 0) :
    (color = 1 ∧ (p = 'w' ∨ p = 'W')) ∨ (color = -1 ∧ (p = 'b' ∨ p = 'B')) := by
  unfold pieceColor at h
  split_ifs at h with h1 h2
  · exact Or.inl ⟨h.symm, h1⟩
  · exact Or.inr ⟨h.symm, h2⟩
  · exact absurd h.symm hc

/-- Promotion of a piece of colour `color`: it is a king afterwards iff it was
one before or the row is the promotion row of its colour. -/
theorem isKing_promoted_of_color (p : Char) (color row : Int) (h : pieceColor p = color)
    (hc : color ≠ 0) :
    isKing (promoted p row) = true ↔ isKing p = true ∨ row = promotionRow color := by
  rw [isKing_promoted]
  have e1 : promotionRow 1 = 0 := by decide
  have e2 : promotionRow (-1) = 7 := by decide
  have k1 : isKing 'w' = false := by decide
  have k2 : isKing 'W' = true := by decide
  have k3 : isKing 'b' = false := by decide
  have k4 : isKing 'B' = true := by decide
  have n1 : ¬ ('w' = 'b') := by decide
  have n2 : ¬ ('b' = 'w') := by decide
  rcases pieceColor_cases p color h hc with ⟨rfl, rfl | rfl⟩ | ⟨rfl, rfl | rfl⟩
  · simp only [e1, k1, n1, true_and, false_and, or_false, Bool.false_eq_true, false_or]
  · simp only [e1, k2, true_or]
  · simp only [e2, k3, n2, true_and, false_and, or_false, Bool.false_eq_true, false_or]
  · simp only [e2, k4, true_or]
/-! ## Destination and origin of a run of captures -/

/-- The board right after one capture of the search, cell by cell. -/
theorem makeOneStep_capture_apply (color : Int) (b : Board) (r c : Int)
    (used : List (Int × Int)) (t : Target) (hc : color ≠ 0)
    (ht : t ∈ captureTargets b r c color used) (x y : Int) :
    makeOneStep b t.1 true x y =
      if x = t.1.endRow ∧ y = t.1.endCol then promoted (b r c) t.1.endRow
      else if x = t.2.1 ∧ y = t.2.2 then '.'
      else if x = r ∧ y = c then '.'
      else b x y := by
  have hT := isTarget_of_mem b r c color used t ht
  obtain ⟨-, -, hfe, -⟩ := isTarget_distinct b r c color used t hT
  rw [(makeOneStep_target b r c color used t hT hc).1, afterCapture_apply _ _ _ _ _ _ _ _ _ hfe]

/-- After a run of captures the capturing piece is a king iff it was one at
the start or one of the steps ended on the promotion row of its colour. -/
theorem capPath_king (color : Int) (path : List Target) :
    ∀ (b : Board) (r c : Int) (used : List (Int × Int)),
      CapPath color b r c used path → SearchInv color b r c used →
      (isKing (applySteps true b (path.map Prod.fst)
          (pathEnd (r, c) path).1 (pathEnd (r, c) path).2) = true
        ↔ isKing (b r c) = true ∨ ∃ t ∈ path, t.1.endRow = promotionRow color) := by
  induction path with
  | nil =>
    intro b r c used _ _
    simp [applySteps, pathEnd]
  | cons t rest ih =>
    intro b r c used hp hinv
    obtain ⟨ht, hrest⟩ := hp
    have hinv2 := searchInv_step color b r c used t hinv ht
    have h1 := ih _ _ _ _ hrest hinv2
    simp only [List.map_cons, applySteps, pathEnd]
    rw [h1, makeOneStep_capture_apply color b r c used t hinv.1 ht, if_pos ⟨rfl, rfl⟩,
      isKing_promoted_of_color _ color _ hinv.2.1 hinv.1]
    simp only [List.mem_cons, exists_eq_or_imp]
    tauto

/-- A cell that is empty, or is the cell of the capturing piece, is empty after
a run of captures unless the piece ends on it. -/
theorem capPath_origin (color : Int) (path : List Target) (o : Int × Int) :
    ∀ (b : Board) (r c : Int) (used : List (Int × Int)),
      CapPath color b r c used path → SearchInv color b r c used →
      (b o.1 o.2 = '.' ∨ o = (r, c)) →
      (applySteps true b (path.map Prod.fst) o.1 o.2 = '.' ∨ o = pathEnd (r, c) path) := by
  induction path with
  | nil =>
    intro b r c used _ _ h
    simpa [applySteps, pathEnd] using h
  | cons t rest ih =>
    intro b r c used hp hinv ho
    obtain ⟨ht, hrest⟩ := hp
    have hinv2 := searchInv_step color b r c used t hinv ht
    simp only [List.map_cons, applySteps, pathEnd]
    apply ih _ _ _ _ hrest hinv2
    by_cases h1 : o.1 = t.1.endRow ∧ o.2 = t.1.endCol
    · right
      exact Prod.ext h1.1 h1.2
    · left
      rw [makeOneStep_capture_apply color b r c used t hinv.1 ht, if_neg h1]
      split_ifs with h2 h3
      · rfl
      · rfl
      · rcases ho with ho | ho
        · exact ho
        · rw [ho] at h3
          exact absurd ⟨rfl, rfl⟩ h3

/-- For a sequence returned by the capture search `makeMoveSequence` applies
every step as a capture. -/
theorem makeMoveSequence_capture (b : Board) (s : MoveSequence) (path : List Target)
    (hne : path ≠ []) (hsteps : s.steps = path.map Prod.fst)
    (hcount : s.capturesCount = (path.length : Int)) :
    makeMoveSequence b s = (true, applySteps true b (path.map Prod.fst)) := by
  unfold makeMoveSequence
  have hpos : 0 < path.length := List.length_pos.mpr hne
  have h1 : s.steps.isEmpty = false := by
    rw [hsteps]
    cases path with
    | nil => exact absurd rfl hne
    | cons t rest => rfl
  have h2 : decide (s.capturesCount > 0) = true := by
    rw [hcount]
    simp only [gt_iff_lt, Nat.cast_pos, decide_eq_true_eq]
    exact hpos
  rw [if_neg (by rw [h1]; exact Bool.false_ne_true)]
  simp only [h2, hsteps]
/-! ## The loop bounds are not reached

Each bounded loop of the embedding returns the same result for every bound
large enough, and the bound used in the embedding is large enough. -/

/-- Among nine consecutive cells of a diagonal one is off the board. -/
theorem exists_offBoard (r c dr dc : Int) (hdr : dr = 1 ∨ dr = -1) :
    ∃ i : Int, 0 ≤ i ∧ i < 9 ∧ onBoard (r + i * dr) (c + i * dc) = false := by
  by_contra hcon
  push_neg at hcon
  have h0 := hcon 0 (le_refl _) (by omega)
  have h8 := hcon 8 (by omega) (by omega)
  rw [ne_eq, Bool.not_eq_false, onBoard_iff] at h0 h8
  rcases hdr with rfl | rfl <;> omega

theorem kingSimpleScan_bound (b : Board) (r c dr dc : Int) (n : Nat) :
    ∀ (m : Nat) (nr nc : Int) (result : List MoveSequence),
      (∃ i : Int, 0 ≤ i ∧ i < n ∧ onBoard (nr + i * dr) (nc + i * dc) = false) →
      (∃ i : Int, 0 ≤ i ∧ i < m ∧ onBoard (nr + i * dr) (nc + i * dc) = false) →
      kingSimpleScan b r c dr dc n nr nc result = kingSimpleScan b r c dr dc m nr nc result := by
  induction n with
  | zero =>
    rintro m nr nc result ⟨i, h0, hn, -⟩ -
    simp only [Nat.cast_zero] at hn
    omega
  | succ n ih =>
    rintro m nr nc result ⟨i, hi0, hin, hi⟩ ⟨j, hj0, hjm, hj⟩
    cases m with
    | zero => simp only [Nat.cast_zero] at hjm; omega
    | succ m =>
      simp only [kingSimpleScan]
      by_cases hc : (onBoard nr nc && decide (b nr nc = '.')) = true
      · rw [if_pos hc, if_pos hc]
        have hon : onBoard nr nc = true := by
          simp only [Bool.and_eq_true] at hc
          exact hc.1
        have e1 : ∀ x : Int, nr + dr + (x - 1) * dr = nr + x * dr := fun x => by ring
        have e2 : ∀ x : Int, nc + dc + (x - 1) * dc = nc + x * dc := fun x => by ring
        have hi1 : 1 ≤ i := by
          rcases eq_or_lt_of_le hi0 with rfl | h
          · simp only [zero_mul, add_zero, hon] at hi
            exact absurd hi (by simp)
          · omega
        have hj1 : 1 ≤ j := by
          rcases eq_or_lt_of_le hj0 with rfl | h
          · simp only [zero_mul, add_zero, hon] at hj
            exact absurd hj (by simp)
          · omega
        exact ih m _ _ _ ⟨i - 1, by omega, by push_cast at hin; omega, by rw [e1, e2]; exact hi⟩
          ⟨j - 1, by omega, by push_cast at hjm; omega, by rw [e1, e2]; exact hj⟩
      · rw [if_neg hc, if_neg hc]

/-- The scan of `getKingSimpleMoves` does not depend on its bound once the
bound is at least `BOARD_SIZE + 1`. -/
theorem kingSimpleScan_bound_irrelevant (b : Board) (r c dr dc : Int)
    (hdr : dr = 1 ∨ dr = -1) (n : Nat) (hn : 9 ≤ n) (nr nc : Int)
    (result : List MoveSequence) :
    kingSimpleScan b r c dr dc n nr nc result
      = kingSimpleScan b r c dr dc (BOARD_SIZE.toNat + 1) nr nc result := by
  obtain ⟨i, h0, h9, hoff⟩ := exists_offBoard nr nc dr dc hdr
  have hfuel : ((BOARD_SIZE.toNat + 1 : Nat) : Int) = 9 := by decide
  exact kingSimpleScan_bound b r c dr dc n _ nr nc result
    ⟨i, h0, by have : (9 : Int) ≤ n := by exact_mod_cast hn
               omega, hoff⟩
    ⟨i, h0, by rw [hfuel]; exact h9, hoff⟩

theorem kingScanTargets_bound (b : Board) (r c color : Int) (used : List (Int × Int))
    (dr dc : Int) (n : Nat) :
    ∀ (m : Nat) (sR sC : Int) (foeFound : Bool) (fR fC : Int),
      (∃ i : Int, 0 ≤ i ∧ i < n ∧ onBoard (sR + i * dr) (sC + i * dc) = false) →
      (∃ i : Int, 0 ≤ i ∧ i < m ∧ onBoard (sR + i * dr) (sC + i * dc) = false) →
      kingScanTargets b r c color used dr dc n sR sC foeFound fR fC
        = kingScanTargets b r c color used dr dc m sR sC foeFound fR fC := by
  induction n with
  | zero =>
    rintro m sR sC foeFound fR fC ⟨i, h0, hn, -⟩ -
    simp only [Nat.cast_zero] at hn
    omega
  | succ n ih =>
    rintro m sR sC foeFound fR fC ⟨i, hi0, hin, hi⟩ ⟨j, hj0, hjm, hj⟩
    cases m with
    | zero => simp only [Nat.cast_zero] at hjm; omega
    | succ m =>
      simp only [kingScanTargets]
      by_cases hon : onBoard sR sC = true
      · have e1 : ∀ x : Int, sR + dr + (x - 1) * dr = sR + x * dr := fun x => by ring
        have e2 : ∀ x : Int, sC + dc + (x - 1) * dc = sC + x * dc := fun x => by ring
        have hi1 : 1 ≤ i := by
          rcases eq_or_lt_of_le hi0 with rfl | h
          · simp only [zero_mul, add_zero, hon] at hi
            exact absurd hi (by simp)
          · omega
        have hj1 : 1 ≤ j := by
          rcases eq_or_lt_of_le hj0 with rfl | h
          · simp only [zero_mul, add_zero, hon] at hj
            exact absurd hj (by simp)
          · omega
        have hrec : ∀ (ff : Bool) (x y : Int),
            kingScanTargets b r c color used dr dc n (sR + dr) (sC + dc) ff x y
              = kingScanTargets b r c color used dr dc m (sR + dr) (sC + dc) ff x y :=
          fun ff x y => ih m _ _ ff x y
            ⟨i - 1, by omega, by push_cast at hin; omega, by rw [e1, e2]; exact hi⟩
            ⟨j - 1, by omega, by push_cast at hjm; omega, by rw [e1, e2]; exact hj⟩
        simp only [hrec]
      · rw [if_neg hon, if_neg hon]

/-- The scan of the king branch of `searchCaptures` does not depend on its
bound once the bound is at least `BOARD_SIZE + 1`. -/
theorem kingScan_bound_irrelevant (recCall : SearchCall) (b : Board) (r c color : Int)
    (used : List (Int × Int)) (cur : MoveSequence) (dr dc : Int) (hdr : dr = 1 ∨ dr = -1)
    (n : Nat) (hn : 9 ≤ n) (sR sC : Int) (foeFound : Bool) (fR fC : Int)
    (state : List MoveSequence × Bool) :
    kingScan recCall b r c color used cur dr dc n sR sC foeFound fR fC state
      = kingScan recCall b r c color used cur dr dc (BOARD_SIZE.toNat + 1)
          sR sC foeFound fR fC state := by
  obtain ⟨i, h0, h9, hoff⟩ := exists_offBoard sR sC dr dc hdr
  have hfuel : ((BOARD_SIZE.toNat + 1 : Nat) : Int) = 9 := by decide
  rw [kingScan_eq_runTargets, kingScan_eq_runTargets,
    kingScanTargets_bound b r c color used dr dc n (BOARD_SIZE.toNat + 1) sR sC foeFound fR fC
      ⟨i, h0, by have : (9 : Int) ≤ n := by exact_mod_cast hn
                 omega, hoff⟩
      ⟨i, h0, by rw [hfuel]; exact h9, hoff⟩]

theorem rowChunks_bound (chunkSize : Int) (hcs : 1 ≤ chunkSize) (n : Nat) :
    ∀ (m : Nat) (rowSt : Int), 8 - rowSt ≤ n → 8 - rowSt ≤ m →
      rowChunks chunkSize n rowSt = rowChunks chunkSize m rowSt := by
  induction n with
  | zero =>
    intro m rowSt hn _
    simp only [Nat.cast_zero] at hn
    cases m with
    | zero => rfl
    | succ m =>
      simp only [rowChunks, BOARD_SIZE]
      rw [if_neg (by omega)]
  | succ n ih =>
    intro m rowSt hn hm
    cases m with
    | zero =>
      simp only [Nat.cast_zero] at hm
      simp only [rowChunks, BOARD_SIZE]
      rw [if_neg (by omega)]
    | succ m =>
      simp only [rowChunks]
      by_cases hlt : rowSt < BOARD_SIZE
      · rw [if_pos hlt, if_pos hlt, ih m (rowSt + chunkSize) (by push_cast at hn; omega)
          (by push_cast at hm; omega)]
      · rw [if_neg hlt, if_neg hlt]

/-- The loop over the row chunks does not depend on its bound once the bound
is at least `BOARD_SIZE`. -/
theorem rowChunks_bound_irrelevant (hw n : Nat) (hn : 8 ≤ n) :
    rowChunks (chunkSizeOf hw) n 0 = rowChunks (chunkSizeOf hw) BOARD_SIZE.toNat 0 := by
  have h8 : ((BOARD_SIZE.toNat : Nat) : Int) = 8 := by decide
  exact rowChunks_bound _ (chunkSizeOf_pos hw) n _ 0
    (by have : (8 : Int) ≤ n := by exact_mod_cast hn
        omega)
    (by rw [h8]; omega)

theorem clearCaptured_bound (b : Board) (dirR dirC endRow endCol : Int) (n : Nat) :
    ∀ (m : Nat) (checkR checkC : Int),
      (∃ i : Int, 0 ≤ i ∧ i < n ∧ endRow = checkR + i * dirR ∧ endCol = checkC + i * dirC) →
      (∃ i : Int, 0 ≤ i ∧ i < m ∧ endRow = checkR + i * dirR ∧ endCol = checkC + i * dirC) →
      clearCaptured n b checkR checkC dirR dirC endRow endCol
        = clearCaptured m b checkR checkC dirR dirC endRow endCol := by
  induction n with
  | zero =>
    rintro m checkR checkC ⟨i, h0, hn, -⟩ -
    simp only [Nat.cast_zero] at hn
    omega
  | succ n ih =>
    rintro m checkR checkC ⟨i, hi0, hin, hiR, hiC⟩ ⟨j, hj0, hjm, hjR, hjC⟩
    cases m with
    | zero => simp only [Nat.cast_zero] at hjm; omega
    | succ m =>
      simp only [clearCaptured]
      by_cases hne : checkR ≠ endRow ∨ checkC ≠ endCol
      · rw [if_pos hne, if_pos hne]
        by_cases hp : pieceColor (b checkR checkC) ≠ 0
        · rw [if_pos hp, if_pos hp]
        · rw [if_neg hp, if_neg hp]
          have hi1 : 1 ≤ i := by
            rcases eq_or_lt_of_le hi0 with rfl | h
            · simp only [zero_mul, add_zero] at hiR hiC
              exact absurd hne (by rw [hiR, hiC]; simp)
            · omega
          have hj1 : 1 ≤ j := by
            rcases eq_or_lt_of_le hj0 with rfl | h
            · simp only [zero_mul, add_zero] at hjR hjC
              exact absurd hne (by rw [hjR, hjC]; simp)
            · omega
          exact ih m _ _
            ⟨i - 1, by omega, by push_cast at hin; omega, by rw [hiR]; ring, by rw [hiC]; ring⟩
            ⟨j - 1, by omega, by push_cast at hjm; omega, by rw [hjR]; ring, by rw [hjC]; ring⟩
      · rw [if_neg hne, if_neg hne]

/-- For a step along a diagonal between two cells of the board the loop of
`makeOneStep` does not depend on its bound once the bound is at least
`BOARD_SIZE`. -/
theorem clearCaptured_bound_irrelevant (b : Board) (r c dr dc k : Int)
    (hdr : dr = 1 ∨ dr = -1) (hk : 1 ≤ k) (hon : onBoard r c = true)
    (hend : onBoard (r + k * dr) (c + k * dc) = true) (n : Nat) (hn : 8 ≤ n) :
    clearCaptured n b (r + dr) (c + dc) dr dc (r + k * dr) (c + k * dc)
      = clearCaptured BOARD_SIZE.toNat b (r + dr) (c + dc) dr dc (r + k * dr) (c + k * dc) := by
  have h8 : ((BOARD_SIZE.toNat : Nat) : Int) = 8 := by decide
  have hk7 : k ≤ 7 := by
    rw [onBoard_iff] at hon hend
    rcases hdr with rfl | rfl <;> omega
  exact clearCaptured_bound b dr dc _ _ n _ (r + dr) (c + dc)
    ⟨k - 1, by omega, by have : (8 : Int) ≤ n := by exact_mod_cast hn
                         omega, by ring, by ring⟩
    ⟨k - 1, by omega, by rw [h8]; omega, by ring, by ring⟩

/-! ## The claims on capture sequences -/

/-- C1: every sequence returned by findAllCaptures has capturesCount >= 1, and
its steps chain: each step ends on the cell where the next one starts. -/
theorem findAllCaptures_count_and_chain (hw : Nat) (b : Board) (whiteTurn : Bool)
    (s : MoveSequence) (hs : s ∈ findAllCaptures hw b whiteTurn) :
    s.capturesCount ≥ 1
      ∧ List.Chain' (fun st next => st.endRow = next.startRow ∧ st.endCol = next.startCol)
          s.steps := by
  obtain ⟨rr, cc, -, -, hmem⟩ := mem_findAllCaptures hw b whiteTurn s hs
  obtain ⟨-, path, hne, hpath, hsteps, hcount⟩ := getAllCapturesForPiece_path b rr cc s hmem
  refine ⟨?_, ?_⟩
  · have hpos : 0 < path.length := List.length_pos.mpr hne
    rw [hcount]
    omega
  · rw [hsteps]
    exact (capPath_chain _ path b rr cc [] hpath).1

/-- Witness for C1 on the board with a four-capture loop. -/
theorem findAllCaptures_count_and_chain_witness :
    (⟨[⟨4, 1, 6, 3⟩, ⟨6, 3, 4, 5⟩, ⟨4, 5, 2, 3⟩, ⟨2, 3, 4, 1⟩], 4⟩ : MoveSequence)
        ∈ findAllCaptures 4 loopBoard true
      ∧ ((4 : Int) ≥ 1
        ∧ List.Chain' (fun st next => st.endRow = next.startRow ∧ st.endCol = next.startCol)
          [(⟨4, 1, 6, 3⟩ : MoveStep), ⟨6, 3, 4, 5⟩, ⟨4, 5, 2, 3⟩, ⟨2, 3, 4, 1⟩]) :=
  ⟨by decide,
    findAllCaptures_count_and_chain 4 loopBoard true
      ⟨[⟨4, 1, 6, 3⟩, ⟨6, 3, 4, 5⟩, ⟨4, 5, 2, 3⟩, ⟨2, 3, 4, 1⟩], 4⟩ (by decide)⟩

/-- C2: every sequence returned by getAllCapturesForPiece is maximal: it has
at least one step, and on the board left by makeMoveSequence the capturing
piece, standing on the end cell of the last step, has no capture left. -/
theorem getAllCapturesForPiece_maximal (b : Board) (r c : Int) (s : MoveSequence)
    (hs : s ∈ getAllCapturesForPiece b r c) :
    s.steps ≠ []
      ∧ ∀ last, s.steps.getLast? = some last →
          getAllCapturesForPiece (makeMoveSequence b s).2 last.endRow last.endCol = [] := by
  obtain ⟨hpc, path, hne, hpath, hsteps, hcount⟩ := getAllCapturesForPiece_path b r c s hs
  refine ⟨?_, ?_⟩
  · rw [hsteps]
    intro h
    exact hne (List.map_eq_nil_iff.mp h)
  · intro last hlast
    rw [makeMoveSequence_capture b s path hne hsteps hcount]
    rw [hsteps] at hlast
    have hend := pathEnd_of_getLast path (r, c) last hlast
    obtain ⟨hinv, hleaf⟩ := capPath_end _ path b r c [] hpath (searchInv_init b r c hpc)
    rw [hend] at hinv hleaf
    simp only at hinv hleaf ⊢
    have hpc2 : pieceColor (applySteps true b (path.map Prod.fst) last.endRow last.endCol) ≠ 0 := by
      rw [hinv.2.1]; exact hpc
    have heq := getAllCapturesForPiece_eq _ last.endRow last.endCol hpc2
    rw [hinv.2.1] at heq
    have hb : searchBudget = 64 + 1 := by decide
    rw [hb, searchCaptures_leaf 64 _ _ _ _ _ _ hleaf] at heq
    simp only [gt_iff_lt, lt_self_iff_false, if_false, Option.some.injEq] at heq
    exact heq.symm

/-- Witness for C2: scenario 2 of the specification. -/
theorem getAllCapturesForPiece_maximal_witness :
    (⟨[⟨3, 4, 1, 2⟩], 1⟩ : MoveSequence) ∈ getAllCapturesForPiece scenario2 3 4
      ∧ getAllCapturesForPiece (makeMoveSequence scenario2 ⟨[⟨3, 4, 1, 2⟩], 1⟩).2 1 2 = [] :=
  ⟨by decide,
    (getAllCapturesForPiece_maximal scenario2 3 4 ⟨[⟨3, 4, 1, 2⟩], 1⟩ (by decide)).2
      ⟨3, 4, 1, 2⟩ rfl⟩

/-- C3: when a sequence returned by getAllCapturesForPiece, or by
findAllCaptures, is applied step by step with makeOneStep (isCapture = true),
every step clears exactly one cell as captured and these cells are pairwise
distinct. -/
theorem captured_cells_distinct :
    (∀ (b : Board) (r c : Int) (s : MoveSequence), s ∈ getAllCapturesForPiece b r c →
      (capturedCells b s.steps).Nodup
        ∧ (capturedCells b s.steps).length = s.steps.length)
    ∧ (∀ (hw : Nat) (b : Board) (whiteTurn : Bool) (s : MoveSequence),
      s ∈ findAllCaptures hw b whiteTurn →
      (capturedCells b s.steps).Nodup
        ∧ (capturedCells b s.steps).length = s.steps.length) := by
  have key : ∀ (b : Board) (r c : Int) (s : MoveSequence), s ∈ getAllCapturesForPiece b r c →
      (capturedCells b s.steps).Nodup
        ∧ (capturedCells b s.steps).length = s.steps.length := by
    intro b r c s hs
    obtain ⟨hpc, path, -, hpath, hsteps, -⟩ := getAllCapturesForPiece_path b r c s hs
    rw [hsteps, capPath_capturedCells _ path b r c [] hpath (searchInv_init b r c hpc)]
    exact ⟨(capPath_foes _ path b r c [] hpath).2, by simp⟩
  refine ⟨key, ?_⟩
  intro hw b whiteTurn s hs
  obtain ⟨rr, cc, -, -, hmem⟩ := mem_findAllCaptures hw b whiteTurn s hs
  exact key b rr cc s hmem

/-- Witness for C3: the four captures of the loop clear four different cells. -/
theorem captured_cells_distinct_witness :
    (⟨[⟨4, 1, 6, 3⟩, ⟨6, 3, 4, 5⟩, ⟨4, 5, 2, 3⟩, ⟨2, 3, 4, 1⟩], 4⟩ : MoveSequence)
        ∈ getAllCapturesForPiece loopBoard 4 1
      ∧ capturedCells loopBoard [⟨4, 1, 6, 3⟩, ⟨6, 3, 4, 5⟩, ⟨4, 5, 2, 3⟩, ⟨2, 3, 4, 1⟩]
          = [(5, 2), (5, 4), (3, 4), (3, 2)]
      ∧ (capturedCells loopBoard
          [⟨4, 1, 6, 3⟩, ⟨6, 3, 4, 5⟩, ⟨4, 5, 2, 3⟩, ⟨2, 3, 4, 1⟩]).Nodup :=
  ⟨by decide, by decide,
    (captured_cells_distinct.1 loopBoard 4 1
      ⟨[⟨4, 1, 6, 3⟩, ⟨6, 3, 4, 5⟩, ⟨4, 5, 2, 3⟩, ⟨2, 3, 4, 1⟩], 4⟩ (by decide)).1⟩
/-! ## Round trip: destination and origin -/

theorem promotionRow_of_turn (whiteTurn : Bool) :
    promotionRow (if whiteTurn then 1 else -1) = (if whiteTurn then 0 else 7) := by
  cases whiteTurn <;> decide

theorem turn_color_ne_zero (whiteTurn : Bool) : (if whiteTurn then (1 : Int) else -1) ≠ 0 := by
  cases whiteTurn <;> decide

/-- What a sequence of findAllCaptures does to the board: first and last step,
colour and rank of the piece on the end cell, and the origin cell. -/
theorem capture_round_trip (b : Board) (r c : Int) (s : MoveSequence)
    (hs : s ∈ getAllCapturesForPiece b r c) :
    ∃ first last, s.steps.head? = some first ∧ s.steps.getLast? = some last
      ∧ first.startRow = r ∧ first.startCol = c
      ∧ pieceColor ((makeMoveSequence b s).2 last.endRow last.endCol) = pieceColor (b r c)
      ∧ (isKing ((makeMoveSequence b s).2 last.endRow last.endCol) = true ↔
          isKing (b r c) = true
            ∨ ∃ st ∈ s.steps, st.endRow = promotionRow (pieceColor (b r c)))
      ∧ ((makeMoveSequence b s).2 r c = '.' ∨ (r, c) = (last.endRow, last.endCol)) := by
  obtain ⟨hpc, path, hne, hpath, hsteps, hcount⟩ := getAllCapturesForPiece_path b r c s hs
  have hinv := searchInv_init b r c hpc
  cases hp : path with
  | nil => exact absurd hp hne
  | cons t rest =>
    have hsome : ∃ last, (path.map Prod.fst).getLast? = some last := by
      have hne2 : path.map Prod.fst ≠ [] := fun h => hne (List.map_eq_nil_iff.mp h)
      exact ⟨_, List.getLast?_eq_getLast _ hne2⟩
    obtain ⟨last, hlast⟩ := hsome
    have hend := pathEnd_of_getLast path (r, c) last hlast
    obtain ⟨hinv2, -⟩ := capPath_end _ path b r c [] hpath hinv
    have hking := capPath_king _ path b r c [] hpath hinv
    have horig := capPath_origin _ path (r, c) b r c [] hpath hinv (Or.inr rfl)
    have hstart := (capPath_chain _ path b r c [] hpath).2 t (by rw [hp]; rfl)
    rw [hend] at hinv2 hking horig
    simp only at hinv2 hking horig
    refine ⟨t.1, last, ?_, ?_, hstart.1, hstart.2, ?_, ?_, ?_⟩
    · rw [hsteps, hp]; rfl
    · rw [hsteps]; exact hlast
    · rw [makeMoveSequence_capture b s path hne hsteps hcount]
      exact hinv2.2.1
    · rw [makeMoveSequence_capture b s path hne hsteps hcount, hking, hsteps]
      simp only [List.mem_map, exists_exists_and_eq_and]
    · rw [makeMoveSequence_capture b s path hne hsteps hcount]
      exact horig

/-- What a simple move does to the board. -/
theorem simple_round_trip (b : Board) (r c color : Int) (s : MoveSequence)
    (hpc : pieceColor (b r c) = color) (hc : color ≠ 0)
    (hs : s ∈ getManSimpleMoves b r c color ∨ s ∈ getKingSimpleMoves b r c) :
    ∃ first, s.steps = [first]
      ∧ first.startRow = r ∧ first.startCol = c
      ∧ pieceColor ((makeMoveSequence b s).2 first.endRow first.endCol) = color
      ∧ (isKing ((makeMoveSequence b s).2 first.endRow first.endCol) = true ↔
          isKing (b r c) = true ∨ first.endRow = promotionRow color)
      ∧ (makeMoveSequence b s).2 r c = '.'
      ∧ (r, c) ≠ (first.endRow, first.endCol) := by
  obtain ⟨er, ec, -, hdot, rfl⟩ := simpleMove_shape b r c color s hs
  have hne : ¬(r = er ∧ c = ec) := by
    rintro ⟨rfl, rfl⟩
    rw [hdot, pieceColor_dot] at hpc
    exact hc hpc.symm
  have hmm : (makeMoveSequence b ⟨[⟨r, c, er, ec⟩], 0⟩).2 = makeOneStep b ⟨r, c, er, ec⟩ false := by
    simp [makeMoveSequence, applySteps]
  refine ⟨⟨r, c, er, ec⟩, rfl, rfl, rfl, ?_, ?_, ?_, ?_⟩
  · rw [hmm, makeOneStep_simple_apply b r c er ec _ _ hne, if_pos ⟨rfl, rfl⟩,
      pieceColor_promoted, hpc]
  · rw [hmm, makeOneStep_simple_apply b r c er ec _ _ hne, if_pos ⟨rfl, rfl⟩,
      isKing_promoted_of_color _ color _ hpc hc]
  · rw [hmm, makeOneStep_simple_apply b r c er ec _ _ hne, if_neg hne, if_pos ⟨rfl, rfl⟩]
  · intro h
    simp only [Prod.mk.injEq] at h
    exact hne h

/-- C4: after makeMoveSequence with a sequence of findAllCaptures or
findAllNormalMoves, the end cell of the last step holds a piece of the moving
colour, and it is a king iff the piece on the start cell of the first step was
a king before the move or some step ends on the promotion row of the mover
(row 0 for white, row 7 for black). -/
theorem moveSequence_destination (hw : Nat) (b : Board) (whiteTurn : Bool) (s : MoveSequence)
    (hs : s ∈ findAllCaptures hw b whiteTurn ∨ s ∈ findAllNormalMoves hw b whiteTurn) :
    ∃ first last, s.steps.head? = some first ∧ s.steps.getLast? = some last
      ∧ pieceColor ((makeMoveSequence b s).2 last.endRow last.endCol)
          = (if whiteTurn then 1 else -1)
      ∧ (isKing ((makeMoveSequence b s).2 last.endRow last.endCol) = true ↔
          isKing (b first.startRow first.startCol) = true
            ∨ ∃ st ∈ s.steps, st.endRow = (if whiteTurn then 0 else 7)) := by
  rcases hs with hs | hs
  · obtain ⟨rr, cc, -, hcol, hmem⟩ := mem_findAllCaptures hw b whiteTurn s hs
    obtain ⟨first, last, h1, h2, h3, h4, h5, h6, -⟩ := capture_round_trip b rr cc s hmem
    refine ⟨first, last, h1, h2, ?_, ?_⟩
    · rw [h5, hcol]
    · rw [h6, h3, h4, hcol, promotionRow_of_turn]
  · obtain ⟨rr, cc, -, hcol, hmem⟩ := mem_findAllNormalMoves hw b whiteTurn s hs
    have hmem2 : s ∈ getManSimpleMoves b rr cc (if whiteTurn then 1 else -1)
        ∨ s ∈ getKingSimpleMoves b rr cc := hmem.imp And.right And.right
    obtain ⟨first, h1, h2, h3, h4, h5, -, -⟩ :=
      simple_round_trip b rr cc _ s hcol (turn_color_ne_zero whiteTurn) hmem2
    refine ⟨first, first, by rw [h1]; rfl, by rw [h1]; rfl, h4, ?_⟩
    rw [h5, h2, h3, promotionRow_of_turn, h1]
    simp only [List.mem_singleton, exists_eq_left]

/-- Witness for C4: the man of scenario 2 captures and stays a man. -/
theorem moveSequence_destination_witness :
    (⟨[⟨3, 4, 1, 2⟩], 1⟩ : MoveSequence) ∈ findAllCaptures 4 scenario2 true
      ∧ ∃ first last,
        (⟨[⟨3, 4, 1, 2⟩], 1⟩ : MoveSequence).steps.head? = some first
        ∧ (⟨[⟨3, 4, 1, 2⟩], 1⟩ : MoveSequence).steps.getLast? = some last
        ∧ pieceColor ((makeMoveSequence scenario2 ⟨[⟨3, 4, 1, 2⟩], 1⟩).2
            last.endRow last.endCol) = (if true then 1 else -1)
        ∧ (isKing ((makeMoveSequence scenario2 ⟨[⟨3, 4, 1, 2⟩], 1⟩).2
            last.endRow last.endCol) = true ↔
            isKing (scenario2 first.startRow first.startCol) = true
              ∨ ∃ st ∈ (⟨[⟨3, 4, 1, 2⟩], 1⟩ : MoveSequence).steps,
                  st.endRow = (if true then 0 else 7)) :=
  ⟨by decide,
    moveSequence_destination 4 scenario2 true ⟨[⟨3, 4, 1, 2⟩], 1⟩ (Or.inl (by decide))⟩

/-- C5, counterexample: on the board with the four-capture loop the returned
sequence brings the man back to its origin (4,1), which is not empty after
makeMoveSequence. -/
theorem origin_occupied_after_loop :
    (⟨[⟨4, 1, 6, 3⟩, ⟨6, 3, 4, 5⟩, ⟨4, 5, 2, 3⟩, ⟨2, 3, 4, 1⟩], 4⟩ : MoveSequence)
        ∈ findAllCaptures 4 loopBoard true
      ∧ (makeMoveSequence loopBoard
          ⟨[⟨4, 1, 6, 3⟩, ⟨6, 3, 4, 5⟩, ⟨4, 5, 2, 3⟩, ⟨2, 3, 4, 1⟩], 4⟩).2 4 1 = 'w'
      ∧ 'w' ≠ '.' := by
  decide

/-- C5, amended: after makeMoveSequence with a sequence of findAllCaptures or
findAllNormalMoves the start cell of the first step is empty unless the last
step ends on that cell, in which case it holds a piece of the moving colour;
a sequence of findAllNormalMoves never ends on its start cell. -/
theorem moveSequence_origin (hw : Nat) (b : Board) (whiteTurn : Bool) (s : MoveSequence)
    (hs : s ∈ findAllCaptures hw b whiteTurn ∨ s ∈ findAllNormalMoves hw b whiteTurn) :
    ∃ first last, s.steps.head? = some first ∧ s.steps.getLast? = some last
      ∧ ((first.startRow, first.startCol) ≠ (last.endRow, last.endCol) →
          (makeMoveSequence b s).2 first.startRow first.startCol = '.')
      ∧ ((first.startRow, first.startCol) = (last.endRow, last.endCol) →
          pieceColor ((makeMoveSequence b s).2 first.startRow first.startCol)
            = (if whiteTurn then 1 else -1))
      ∧ (s ∈ findAllNormalMoves hw b whiteTurn →
          (first.startRow, first.startCol) ≠ (last.endRow, last.endCol)) := by
  have hdisj : ∀ s, s ∈ findAllCaptures hw b whiteTurn →
      s ∈ findAllNormalMoves hw b whiteTurn → False := by
    intro s h1 h2
    obtain ⟨rr, cc, -, -, hmem⟩ := mem_findAllCaptures hw b whiteTurn s h1
    obtain ⟨-, path, hne, -, -, hcount⟩ := getAllCapturesForPiece_path b rr cc s hmem
    obtain ⟨rr2, cc2, -, -, hmem2⟩ := mem_findAllNormalMoves hw b whiteTurn s h2
    have hmem3 : s ∈ getManSimpleMoves b rr2 cc2 (if whiteTurn then 1 else -1)
        ∨ s ∈ getKingSimpleMoves b rr2 cc2 := hmem2.imp And.right And.right
    obtain ⟨er, ec, -, -, rfl⟩ := simpleMove_shape b rr2 cc2 _ s hmem3
    have hpos : 0 < path.length := List.length_pos.mpr hne
    simp only at hcount
    omega
  rcases hs with hs | hs
  · obtain ⟨rr, cc, -, hcol, hmem⟩ := mem_findAllCaptures hw b whiteTurn s hs
    obtain ⟨first, last, h1, h2, h3, h4, h5, -, h7⟩ := capture_round_trip b rr cc s hmem
    refine ⟨first, last, h1, h2, ?_, ?_, fun hn => absurd hn (fun hn => hdisj s hs hn)⟩
    · intro hne
      rw [h3, h4] at hne ⊢
      rcases h7 with h7 | h7
      · exact h7
      · exact absurd h7 hne
    · intro heq
      rw [h3, h4] at heq ⊢
      simp only [Prod.mk.injEq] at heq
      rw [heq.1, heq.2, h5, hcol]
  · obtain ⟨rr, cc, -, hcol, hmem⟩ := mem_findAllNormalMoves hw b whiteTurn s hs
    have hmem2 : s ∈ getManSimpleMoves b rr cc (if whiteTurn then 1 else -1)
        ∨ s ∈ getKingSimpleMoves b rr cc := hmem.imp And.right And.right
    obtain ⟨first, h1, h2, h3, -, -, h6, h7⟩ :=
      simple_round_trip b rr cc _ s hcol (turn_color_ne_zero whiteTurn) hmem2
    rw [← h2, ← h3] at h6 h7
    exact ⟨first, first, by rw [h1]; rfl, by rw [h1]; rfl, fun _ => h6,
      fun heq => absurd heq h7, fun _ => h7⟩

/-- Witness for C5 (amended): scenario 2, where the origin (3,4) is left empty. -/
theorem moveSequence_origin_witness :
    (⟨[⟨3, 4, 1, 2⟩], 1⟩ : MoveSequence) ∈ findAllCaptures 4 scenario2 true
      ∧ (makeMoveSequence scenario2 ⟨[⟨3, 4, 1, 2⟩], 1⟩).2 3 4 = '.'
      ∧ ∃ first last,
        (⟨[⟨3, 4, 1, 2⟩], 1⟩ : MoveSequence).steps.head? = some first
        ∧ (⟨[⟨3, 4, 1, 2⟩], 1⟩ : MoveSequence).steps.getLast? = some last
        ∧ ((first.startRow, first.startCol) ≠ (last.endRow, last.endCol) →
            (makeMoveSequence scenario2 ⟨[⟨3, 4, 1, 2⟩], 1⟩).2
              first.startRow first.startCol = '.')
        ∧ ((first.startRow, first.startCol) = (last.endRow, last.endCol) →
            pieceColor ((makeMoveSequence scenario2 ⟨[⟨3, 4, 1, 2⟩], 1⟩).2
              first.startRow first.startCol) = (if true then 1 else -1))
        ∧ ((⟨[⟨3, 4, 1, 2⟩], 1⟩ : MoveSequence) ∈ findAllNormalMoves 4 scenario2 true →
            (first.startRow, first.startCol) ≠ (last.endRow, last.endCol)) :=
  ⟨by decide, by decide,
    moveSequence_origin 4 scenario2 true ⟨[⟨3, 4, 1, 2⟩], 1⟩ (Or.inl (by decide))⟩
/-! ## The line of a capture step -/

/-- C6: for every step of every sequence returned by getAllCapturesForPiece,
on the board left by the steps before it: the step runs along a diagonal,
exactly one cell strictly between its start and end is occupied, that cell
holds a piece of the colour opposite to the moving piece, and right after
makeOneStep (isCapture = true) every cell strictly between start and end is
empty. -/
theorem capture_step_line (b : Board) (r c : Int) (s : MoveSequence)
    (hs : s ∈ getAllCapturesForPiece b r c)
    (pre post : List MoveStep) (st : MoveStep) (hsplit : s.steps = pre ++ st :: post) :
    ∃ dr dc j k : Int, (dr = 1 ∨ dr = -1) ∧ (dc = 1 ∨ dc = -1) ∧ 1 ≤ j ∧ j < k
      ∧ st.endRow = st.startRow + k * dr ∧ st.endCol = st.startCol + k * dc
      ∧ pieceColor (applySteps true b pre st.startRow st.startCol) ≠ 0
      ∧ applySteps true b pre (st.startRow + j * dr) (st.startCol + j * dc) ≠ '.'
      ∧ pieceColor (applySteps true b pre (st.startRow + j * dr) (st.startCol + j * dc))
          = -pieceColor (applySteps true b pre st.startRow st.startCol)
      ∧ (∀ i, 1 ≤ i → i < k → i ≠ j →
          applySteps true b pre (st.startRow + i * dr) (st.startCol + i * dc) = '.')
      ∧ (∀ i, 1 ≤ i → i < k →
          makeOneStep (applySteps true b pre) st true
            (st.startRow + i * dr) (st.startCol + i * dc) = '.') := by
  obtain ⟨hpc, path, -, hpath, hsteps, -⟩ := getAllCapturesForPiece_path b r c s hs
  rw [hsteps] at hsplit
  obtain ⟨p1, p2, rfl, hp1, hp2⟩ := List.map_eq_append_iff.mp hsplit
  obtain ⟨t, p3, rfl, ht1, -⟩ := List.map_eq_cons_iff.mp hp2
  obtain ⟨hcap, hinv⟩ := capPath_split _ p1 (t :: p3) b r c [] hpath (searchInv_init b r c hpc)
  rw [hp1] at hcap hinv
  obtain ⟨htmem, -⟩ := hcap
  have hT := isTarget_of_mem _ _ _ _ _ t htmem
  have happ := makeOneStep_capture_apply _ _ _ _ _ t hinv.1 htmem
  obtain ⟨dr, dc, j, k, hdr, hdc, hj, hjk, hst, hfoe, -, hemp, hcol, -⟩ := hT
  rw [ht1] at hst happ
  rw [hfoe] at happ
  simp only at happ
  have hsr : st.startRow = (pathEnd (r, c) p1).1 := by rw [hst]
  have hsc : st.startCol = (pathEnd (r, c) p1).2 := by rw [hst]
  have her : st.endRow = (pathEnd (r, c) p1).1 + k * dr := by rw [hst]
  have hec : st.endCol = (pathEnd (r, c) p1).2 + k * dc := by rw [hst]
  rw [hsr, hsc]
  refine ⟨dr, dc, j, k, hdr, hdc, hj, hjk, her, hec, ?_, ?_, ?_, ?_, ?_⟩
  · rw [hinv.2.1]; exact hinv.1
  · intro hdot
    rw [hdot, pieceColor_dot] at hcol
    have := hinv.1
    omega
  · rw [hcol, hinv.2.1]
  · intro i hi1 hik hij
    exact hemp i hi1 (le_of_lt hik) hij
  · intro i hi1 hik
    rw [happ, her, if_neg (fun h => cell_ne _ dr i k hdr (by omega) h.1)]
    by_cases hij : i = j
    · subst hij
      rw [if_pos ⟨rfl, rfl⟩]
    · have h0 : ¬((pathEnd (r, c) p1).1 + i * dr = (pathEnd (r, c) p1).1
          ∧ (pathEnd (r, c) p1).2 + i * dc = (pathEnd (r, c) p1).2) :=
        fun h => cell_ne _ dr i 0 hdr (by omega) (by rw [zero_mul, add_zero]; exact h.1)
      rw [if_neg (fun h => cell_ne _ dr i j hdr hij h.1), if_neg h0]
      exact hemp i hi1 (le_of_lt hik) hij

/-- Witness for C6: the king of scenario 3 landing on (0,0) over (2,2). -/
theorem capture_step_line_witness :
    (⟨[⟨4, 4, 0, 0⟩], 1⟩ : MoveSequence) ∈ getAllCapturesForPiece scenario3 4 4
      ∧ ∃ dr dc j k : Int, (dr = 1 ∨ dr = -1) ∧ (dc = 1 ∨ dc = -1) ∧ 1 ≤ j ∧ j < k
        ∧ (0 : Int) = 4 + k * dr ∧ (0 : Int) = 4 + k * dc
        ∧ pieceColor (applySteps true scenario3 [] 4 4) ≠ 0
        ∧ applySteps true scenario3 [] (4 + j * dr) (4 + j * dc) ≠ '.'
        ∧ pieceColor (applySteps true scenario3 [] (4 + j * dr) (4 + j * dc))
            = -pieceColor (applySteps true scenario3 [] 4 4)
        ∧ (∀ i, 1 ≤ i → i < k → i ≠ j →
            applySteps true scenario3 [] (4 + i * dr) (4 + i * dc) = '.')
        ∧ (∀ i, 1 ≤ i → i < k →
            makeOneStep (applySteps true scenario3 []) ⟨4, 4, 0, 0⟩ true
              (4 + i * dr) (4 + i * dc) = '.') :=
  ⟨by decide,
    capture_step_line scenario3 4 4 ⟨[⟨4, 4, 0, 0⟩], 1⟩ (by decide) [] [] ⟨4, 4, 0, 0⟩ rfl⟩

/-! ## First steps of the returned sequences -/

/-- The first steps of the sequences returned by `getAllCapturesForPiece` are
exactly the captures found at the origin. -/
theorem first_step_iff (b : Board) (r c : Int) (hpc : pieceColor (b r c) ≠ 0)
    (st : MoveStep) :
    (∃ s ∈ getAllCapturesForPiece b r c, s.steps.head? = some st)
      ↔ ∃ foe, (st, foe) ∈ captureTargets b r c (pieceColor (b r c)) [] := by
  have heq := getAllCapturesForPiece_eq b r c hpc
  constructor
  · rintro ⟨s, hs, hhead⟩
    obtain ⟨path, hpath, hseq, hne⟩ := searchCaptures_sound _ _ _ _ _ _ _ _ heq s hs
    cases path with
    | nil =>
      have := hne rfl
      simp at this
    | cons t rest =>
      rw [hseq] at hhead
      simp only [extendPath, List.nil_append, List.map_cons, List.head?_cons,
        Option.some.injEq] at hhead
      refine ⟨t.2, ?_⟩
      rw [← hhead]
      exact hpath.1
  · rintro ⟨foe, ht⟩
    have hb : searchBudget = 64 + 1 := by decide
    rw [hb] at heq
    obtain ⟨res2, hres2, hsub⟩ := searchCaptures_child 64 b r c _ [] _ _ heq (st, foe) ht
    have hne := searchCaptures_nonempty _ _ _ _ _ _ _ _ hres2 (by simp [extendSeq])
    obtain ⟨s, hs⟩ := List.exists_mem_of_ne_nil _ hne
    obtain ⟨path, -, hseq, -⟩ := searchCaptures_sound _ _ _ _ _ _ _ _ hres2 s hs
    refine ⟨s, hsub s hs, ?_⟩
    rw [hseq]
    simp [extendPath, extendSeq]
/-- C9: for a man at (r,c) and each diagonal direction (dr,dc), some returned
sequence starts with the step (r,c) -> (r+2dr, c+2dc) iff (r+dr, c+dc) is on
the board and holds a piece of the opposite colour and (r+2dr, c+2dc) is on
the board and empty, forward and backward alike; every returned sequence
starts with such a step; and in scenario 2 exactly the single capture
(3,4) -> (1,2) with capturesCount = 1 is returned. -/
theorem man_first_steps :
    (∀ (b : Board) (r c : Int), pieceColor (b r c) ≠ 0 → isKing (b r c) = false →
      (∀ dr dc : Int, (dr = 1 ∨ dr = -1) → (dc = 1 ∨ dc = -1) →
        ((∃ s ∈ getAllCapturesForPiece b r c,
            s.steps.head? = some ⟨r, c, r + 2 * dr, c + 2 * dc⟩)
          ↔ (onBoard (r + dr) (c + dc) = true
              ∧ pieceColor (b (r + dr) (c + dc)) = -pieceColor (b r c)
              ∧ onBoard (r + 2 * dr) (c + 2 * dc) = true
              ∧ b (r + 2 * dr) (c + 2 * dc) = '.')))
      ∧ (∀ s ∈ getAllCapturesForPiece b r c, ∃ dr dc : Int,
          (dr = 1 ∨ dr = -1) ∧ (dc = 1 ∨ dc = -1)
            ∧ s.steps.head? = some ⟨r, c, r + 2 * dr, c + 2 * dc⟩))
    ∧ getAllCapturesForPiece scenario2 3 4 = [⟨[⟨3, 4, 1, 2⟩], 1⟩] := by
  refine ⟨?_, by decide⟩
  intro b r c hpc hman
  have hct : captureTargets b r c (pieceColor (b r c)) []
      = manTargets b r c (pieceColor (b r c)) [] directions := by
    simp [captureTargets, hman]
  refine ⟨?_, ?_⟩
  · intro dr dc hdr hdc
    rw [first_step_iff b r c hpc, hct]
    constructor
    · rintro ⟨foe, hmem⟩
      obtain ⟨dr2, dc2, -, -, h1, h2, h3, -, h5, heq⟩ :=
        (mem_manTargets_directions b r c _ [] _).mp hmem
      simp only [Prod.mk.injEq, MoveStep.mk.injEq, true_and] at heq
      have e1 : dr2 = dr := by omega
      have e2 : dc2 = dc := by omega
      subst e1 e2
      exact ⟨h1, h3, h2, h5⟩
    · rintro ⟨h1, h3, h2, h5⟩
      exact ⟨(r + dr, c + dc), (mem_manTargets_directions b r c _ [] _).mpr
        ⟨dr, dc, hdr, hdc, h1, h2, h3, rfl, h5, rfl⟩⟩
  · intro s hs
    obtain ⟨-, path, hne, hpath, hsteps, -⟩ := getAllCapturesForPiece_path b r c s hs
    cases path with
    | nil => exact absurd rfl hne
    | cons t rest =>
      have hmem := hpath.1
      rw [hct] at hmem
      obtain ⟨dr, dc, hdr, hdc, -, -, -, -, -, heq⟩ :=
        (mem_manTargets_directions b r c _ [] _).mp hmem
      refine ⟨dr, dc, hdr, hdc, ?_⟩
      rw [hsteps, heq]
      rfl

/-- Witness for C9: the man of scenario 2 and the direction (-1,-1). -/
theorem man_first_steps_witness :
    ((∃ s ∈ getAllCapturesForPiece scenario2 3 4,
        s.steps.head? = some ⟨3, 4, 3 + 2 * (-1), 4 + 2 * (-1)⟩)
      ↔ (onBoard (3 + -1) (4 + -1) = true
          ∧ pieceColor (scenario2 (3 + -1) (4 + -1)) = -pieceColor (scenario2 3 4)
          ∧ onBoard (3 + 2 * (-1)) (4 + 2 * (-1)) = true
          ∧ scenario2 (3 + 2 * (-1)) (4 + 2 * (-1)) = '.'))
      ∧ (onBoard (3 + -1) (4 + -1) = true
          ∧ pieceColor (scenario2 (3 + -1) (4 + -1)) = -pieceColor (scenario2 3 4)
          ∧ onBoard (3 + 2 * (-1)) (4 + 2 * (-1)) = true
          ∧ scenario2 (3 + 2 * (-1)) (4 + 2 * (-1)) = '.') :=
  ⟨(man_first_steps.1 scenario2 3 4 (by decide) (by decide)).1 (-1) (-1)
      (Or.inr rfl) (Or.inr rfl),
    by decide⟩

/-- A diagonal run between two cells of the board stays on the board. -/
theorem onBoard_between (r c dr dc k i : Int) (hdr : dr = 1 ∨ dr = -1) (hdc : dc = 1 ∨ dc = -1)
    (h0 : onBoard r c = true) (hk : onBoard (r + k * dr) (c + k * dc) = true)
    (hi0 : 0 ≤ i) (hik : i ≤ k) : onBoard (r + i * dr) (c + i * dc) = true := by
  rw [onBoard_iff] at h0 hk ⊢
  rcases hdr with rfl | rfl <;> rcases hdc with rfl | rfl <;> omega

/-- C10: for a king at a cell (r,c) of the board, some returned sequence
starts with the step (r,c) -> L iff L = (r + k dr, c + k dc) is on the board
for a diagonal direction (dr,dc) and some k >= 2, and for some j with
1 <= j < k the cell at distance j holds a piece of the opposite colour while
the cells at distances 1..j-1 and j+1..k are empty; and in scenario 3 exactly
the two captures landing on (1,1) and (0,0), each with capturesCount = 1, are
returned. -/
theorem king_first_steps :
    (∀ (b : Board) (r c : Int), onBoard r c = true → pieceColor (b r c) ≠ 0 →
      isKing (b r c) = true → ∀ lr lc : Int,
        ((∃ s ∈ getAllCapturesForPiece b r c, s.steps.head? = some ⟨r, c, lr, lc⟩)
          ↔ ∃ dr dc k j : Int, (dr = 1 ∨ dr = -1) ∧ (dc = 1 ∨ dc = -1) ∧ 2 ≤ k
              ∧ lr = r + k * dr ∧ lc = c + k * dc ∧ onBoard lr lc = true
              ∧ 1 ≤ j ∧ j < k
              ∧ pieceColor (b (r + j * dr) (c + j * dc)) = -pieceColor (b r c)
              ∧ (∀ i, 1 ≤ i → i < j → b (r + i * dr) (c + i * dc) = '.')
              ∧ (∀ i, j < i → i ≤ k → b (r + i * dr) (c + i * dc) = '.')))
    ∧ getAllCapturesForPiece scenario3 4 4
        = [⟨[⟨4, 4, 1, 1⟩], 1⟩, ⟨[⟨4, 4, 0, 0⟩], 1⟩] := by
  refine ⟨?_, by decide⟩
  intro b r c hon hpc hking lr lc
  have hct : captureTargets b r c (pieceColor (b r c)) []
      = kingTargets b r c (pieceColor (b r c)) [] directions := by
    simp [captureTargets, hking]
  rw [first_step_iff b r c hpc, hct]
  constructor
  · rintro ⟨foe, hmem⟩
    obtain ⟨dr, dc, j, k, hdr, hdc, hj, hjk, hcells, hemp, -, hcol, -, heq⟩ :=
      (mem_kingTargets_directions b r c _ [] _).mp hmem
    simp only [Prod.mk.injEq, MoveStep.mk.injEq, true_and] at heq
    obtain ⟨⟨rfl, rfl⟩, -⟩ := heq
    exact ⟨dr, dc, k, j, hdr, hdc, by omega, rfl, rfl, hcells k (by omega) (le_refl _), hj,
      hjk, hcol, fun i h1 h2 => hemp i h1 (by omega) (by omega),
      fun i h1 h2 => hemp i (by omega) h2 (by omega)⟩
  · rintro ⟨dr, dc, k, j, hdr, hdc, hk, rfl, rfl, hland, hj, hjk, hcol, hbefore, hafter⟩
    refine ⟨(r + j * dr, c + j * dc), (mem_kingTargets_directions b r c _ [] _).mpr
      ⟨dr, dc, j, k, hdr, hdc, hj, hjk, ?_, ?_, ?_, hcol, rfl, rfl⟩⟩
    · intro i hi1 hik
      exact onBoard_between r c dr dc k i hdr hdc hon hland (by omega) hik
    · intro i hi1 hik hij
      rcases lt_or_gt_of_ne hij with h | h
      · exact hbefore i hi1 h
      · exact hafter i h hik
    · intro hdot
      rw [hdot, pieceColor_dot] at hcol
      omega

/-- Witness for C10: the king of scenario 3 landing on (0,0). -/
theorem king_first_steps_witness :
    ((∃ s ∈ getAllCapturesForPiece scenario3 4 4, s.steps.head? = some ⟨4, 4, 0, 0⟩)
      ↔ ∃ dr dc k j : Int, (dr = 1 ∨ dr = -1) ∧ (dc = 1 ∨ dc = -1) ∧ 2 ≤ k
          ∧ (0 : Int) = 4 + k * dr ∧ (0 : Int) = 4 + k * dc ∧ onBoard 0 0 = true
          ∧ 1 ≤ j ∧ j < k
          ∧ pieceColor (scenario3 (4 + j * dr) (4 + j * dc)) = -pieceColor (scenario3 4 4)
          ∧ (∀ i, 1 ≤ i → i < j → scenario3 (4 + i * dr) (4 + i * dc) = '.')
          ∧ (∀ i, j < i → i ≤ k → scenario3 (4 + i * dr) (4 + i * dc) = '.'))
      ∧ ∃ s ∈ getAllCapturesForPiece scenario3 4 4, s.steps.head? = some ⟨4, 4, 0, 0⟩ :=
  ⟨king_first_steps.1 scenario3 4 4 (by decide) (by decide) (by decide) 0 0,
    ⟨⟨[⟨4, 4, 0, 0⟩], 1⟩, by decide, rfl⟩⟩

/-! ## A concrete instance of promotion -/

/-- Witness for C8: a white man on row 0 becomes a white king. -/
theorem promoteIfNeeded_idempotent_and_local_witness :
    (emptyBoard.set 0 1 'w' 0 1 = 'w' ∧ (0 : Int) = 0)
      ∧ promoteIfNeeded (emptyBoard.set 0 1 'w') 0 1 = (emptyBoard.set 0 1 'w').set 0 1 'W' :=
  ⟨by decide,
    (promoteIfNeeded_idempotent_and_local (emptyBoard.set 0 1 'w') 0 1).2.2.1 (by decide)⟩

/-! ## Simple moves of a man -/

theorem getManSimpleMoves_eq (b : Board) (r c color : Int) :
    getManSimpleMoves b r c color =
      (if (onBoard (r + (if color = 1 then -1 else 1)) (c + -1)
            && decide (b (r + (if color = 1 then -1 else 1)) (c + -1) = '.')) = true then
          [{ steps := [⟨r, c, r + (if color = 1 then -1 else 1), c + -1⟩], capturesCount := 0 }]
        else [])
      ++ (if (onBoard (r + (if color = 1 then -1 else 1)) (c + 1)
            && decide (b (r + (if color = 1 then -1 else 1)) (c + 1) = '.')) = true then
          [{ steps := [⟨r, c, r + (if color = 1 then -1 else 1), c + 1⟩], capturesCount := 0 }]
        else []) := by
  unfold getManSimpleMoves
  simp only [List.foldl_cons, List.foldl_nil]
  generalize (if color = 1 then (-1 : Int) else 1) = dr
  by_cases h1 : (onBoard (r + dr) (c + -1) && decide (b (r + dr) (c + -1) = '.')) = true <;>
    by_cases h2 : (onBoard (r + dr) (c + 1) && decide (b (r + dr) (c + 1) = '.')) = true <;>
    simp [h1, h2]

/-- Membership in the result of `getManSimpleMoves`, with the row step as the
source computes it. -/
theorem mem_getManSimpleMoves (b : Board) (r c color : Int) (s : MoveSequence) :
    s ∈ getManSimpleMoves b r c color ↔
      ∃ dc : Int, (dc = -1 ∨ dc = 1)
        ∧ onBoard (r + (if color = 1 then -1 else 1)) (c + dc) = true
        ∧ b (r + (if color = 1 then -1 else 1)) (c + dc) = '.'
        ∧ s = { steps := [⟨r, c, r + (if color = 1 then -1 else 1), c + dc⟩],
                capturesCount := 0 } := by
  rw [getManSimpleMoves_eq, List.mem_append]
  generalize (if color = 1 then (-1 : Int) else 1) = dr
  constructor
  · rintro (h | h)
    · split_ifs at h with hc
      · simp only [Bool.and_eq_true, decide_eq_true_eq] at hc
        exact ⟨-1, Or.inl rfl, hc.1, hc.2, List.mem_singleton.mp h⟩
      · exact absurd h (List.not_mem_nil _)
    · split_ifs at h with hc
      · simp only [Bool.and_eq_true, decide_eq_true_eq] at hc
        exact ⟨1, Or.inr rfl, hc.1, hc.2, List.mem_singleton.mp h⟩
      · exact absurd h (List.not_mem_nil _)
  · rintro ⟨dc, hdc | hdc, hon, hdot, rfl⟩
    · subst hdc
      left
      rw [if_pos (by simp [hon, hdot])]
      exact List.mem_singleton_self _
    · subst hdc
      right
      rw [if_pos (by simp [hon, hdot])]
      exact List.mem_singleton_self _

/-- C11: for a colour C (white = 1 moving toward row 0, black = -1 toward row
7) getManSimpleMoves returns exactly the one-step sequences from (r,c) to
(r - C, c + dc), dc = -1 or +1, whose destination is on the board and empty,
each once; every returned sequence has one step and capturesCount = 0, its
destination is on the forward row and was empty. -/
theorem getManSimpleMoves_spec (b : Board) (r c color : Int) (hcol : color = 1 ∨ color = -1) :
    (∀ s, s ∈ getManSimpleMoves b r c color ↔
        ∃ dc : Int, (dc = -1 ∨ dc = 1) ∧ onBoard (r - color) (c + dc) = true
          ∧ b (r - color) (c + dc) = '.'
          ∧ s = { steps := [⟨r, c, r - color, c + dc⟩], capturesCount := 0 })
    ∧ (getManSimpleMoves b r c color).Nodup
    ∧ (∀ s ∈ getManSimpleMoves b r c color, s.steps.length = 1 ∧ s.capturesCount = 0
        ∧ ∀ st ∈ s.steps, st.endRow = r - color ∧ onBoard st.endRow st.endCol = true
            ∧ b st.endRow st.endCol = '.') := by
  have hdr : r + (if color = 1 then (-1 : Int) else 1) = r - color := by
    rcases hcol with rfl | rfl
    · rw [if_pos rfl]; omega
    · rw [if_neg (by decide)]; omega
  have hmem : ∀ s, s ∈ getManSimpleMoves b r c color ↔
        ∃ dc : Int, (dc = -1 ∨ dc = 1) ∧ onBoard (r - color) (c + dc) = true
          ∧ b (r - color) (c + dc) = '.'
          ∧ s = { steps := [⟨r, c, r - color, c + dc⟩], capturesCount := 0 } := by
    intro s
    rw [mem_getManSimpleMoves, hdr]
  refine ⟨hmem, ?_, ?_⟩
  · rw [getManSimpleMoves_eq, hdr]
    split_ifs
    · simp
    · simp
    · simp
    · simp
  · intro s hs
    obtain ⟨dc, -, hon, hdot, rfl⟩ := (hmem s).mp hs
    refine ⟨rfl, rfl, ?_⟩
    intro st hst
    rw [List.mem_singleton] at hst
    subst hst
    exact ⟨rfl, hon, hdot⟩

/-- Witness for C11: the man on (5,0) of the starting board. -/
theorem getManSimpleMoves_spec_witness :
    ((1 : Int) = 1 ∨ (1 : Int) = -1)
      ∧ getManSimpleMoves initBoard 5 0 1 = [{ steps := [⟨5, 0, 4, 1⟩], capturesCount := 0 }]
      ∧ (getManSimpleMoves initBoard 5 0 1).Nodup :=
  ⟨Or.inl rfl, by decide, (getManSimpleMoves_spec initBoard 5 0 1 (Or.inl rfl)).2.1⟩
/-! ## Simple moves of a king -/

theorem kingSimpleScan_append (b : Board) (r c dr dc : Int) (n : Nat) :
    ∀ (nr nc : Int) (result : List MoveSequence),
      kingSimpleScan b r c dr dc n nr nc result
        = result ++ kingSimpleScan b r c dr dc n nr nc [] := by
  induction n with
  | zero => intro nr nc result; simp [kingSimpleScan]
  | succ n ih =>
    intro nr nc result
    simp only [kingSimpleScan]
    split_ifs with hc
    · rw [ih _ _ (result ++ _), ih _ _ ([] ++ _)]
      simp
    · simp

/-- The simple moves found by the scan of a king along one direction: one for
every cell reached over empty cells of the board within the bound. -/
theorem mem_kingSimpleScan_iff (b : Board) (r c dr dc : Int) (s : MoveSequence) (n : Nat) :
    ∀ nr nc, s ∈ kingSimpleScan b r c dr dc n nr nc [] ↔
      ∃ m : Int, 0 ≤ m ∧ m < n
        ∧ (∀ i, 0 ≤ i → i ≤ m →
            onBoard (nr + i * dr) (nc + i * dc) = true ∧ b (nr + i * dr) (nc + i * dc) = '.')
        ∧ s = { steps := [⟨r, c, nr + m * dr, nc + m * dc⟩], capturesCount := 0 } := by
  induction n with
  | zero =>
    intro nr nc
    simp only [kingSimpleScan, List.not_mem_nil, false_iff, not_exists, not_and]
    intro m h0 hm
    simp only [Nat.cast_zero] at hm
    omega
  | succ n ih =>
    intro nr nc
    have e1 : ∀ i : Int, nr + dr + i * dr = nr + (i + 1) * dr := fun i => by ring
    have e2 : ∀ i : Int, nc + dc + i * dc = nc + (i + 1) * dc := fun i => by ring
    simp only [kingSimpleScan]
    constructor
    · intro hs
      split_ifs at hs with hc
      · simp only [Bool.and_eq_true, decide_eq_true_eq] at hc
        rw [kingSimpleScan_append, List.nil_append, List.mem_append, List.mem_singleton] at hs
        rcases hs with rfl | hs
        · refine ⟨0, le_refl _, by push_cast; omega, ?_, by simp⟩
          intro i hi0 hi1
          have : i = 0 := by omega
          subst this
          simpa using hc
        · obtain ⟨m, hm0, hmn, hcells, rfl⟩ := (ih _ _).mp hs
          refine ⟨m + 1, by omega, by push_cast; omega, ?_, by rw [e1, e2]⟩
          intro i hi0 hi1
          rcases eq_or_lt_of_le hi0 with rfl | hpos
          · simpa using hc
          · have := hcells (i - 1) (by omega) (by omega)
            rw [e1, e2] at this
            simpa using this
      · exact absurd hs (List.not_mem_nil _)
    · rintro ⟨m, hm0, hmn, hcells, rfl⟩
      have h0 := hcells 0 (le_refl _) hm0
      simp only [zero_mul, add_zero] at h0
      rw [if_pos (by simp [h0.1, h0.2]), kingSimpleScan_append, List.nil_append,
        List.mem_append, List.mem_singleton]
      rcases eq_or_lt_of_le hm0 with rfl | hpos
      · left; simp
      · right
        refine (ih _ _).mpr ⟨m - 1, by omega, by push_cast at hmn; omega, ?_, ?_⟩
        · intro i hi0 hi1
          rw [e1, e2]
          exact hcells (i + 1) (by omega) (by omega)
        · simp only [e1, e2, sub_add_cancel]

theorem nodup_kingSimpleScan (b : Board) (r c dr dc : Int) (hdr : dr = 1 ∨ dr = -1) (n : Nat) :
    ∀ nr nc, (kingSimpleScan b r c dr dc n nr nc []).Nodup := by
  induction n with
  | zero => intro nr nc; simp [kingSimpleScan]
  | succ n ih =>
    intro nr nc
    simp only [kingSimpleScan]
    split_ifs with hc
    · rw [kingSimpleScan_append, List.nil_append, List.singleton_append, List.nodup_cons]
      refine ⟨?_, ih _ _⟩
      intro hmem
      obtain ⟨m, hm0, -, -, heq⟩ := (mem_kingSimpleScan_iff b r c dr dc _ n _ _).mp hmem
      simp only [MoveSequence.mk.injEq, List.cons.injEq, MoveStep.mk.injEq, true_and,
        and_true] at heq
      have h1 := heq.1
      rcases hdr with rfl | rfl <;> omega
    · exact List.nodup_nil

theorem getKingSimpleMoves_eq (b : Board) (r c : Int) :
    getKingSimpleMoves b r c =
      kingSimpleScan b r c 1 1 (BOARD_SIZE.toNat + 1) (r + 1) (c + 1) []
      ++ (kingSimpleScan b r c 1 (-1) (BOARD_SIZE.toNat + 1) (r + 1) (c + -1) []
      ++ (kingSimpleScan b r c (-1) 1 (BOARD_SIZE.toNat + 1) (r + -1) (c + 1) []
      ++ kingSimpleScan b r c (-1) (-1) (BOARD_SIZE.toNat + 1) (r + -1) (c + -1) [])) := by
  simp only [getKingSimpleMoves, directions, List.foldl_cons, List.foldl_nil]
  rw [kingSimpleScan_append b r c (-1) (-1), kingSimpleScan_append b r c (-1) 1,
    kingSimpleScan_append b r c 1 (-1)]
  simp only [List.append_assoc]

/-- The simple moves of a king along one of the four diagonals. -/
theorem mem_kingRun (b : Board) (r c dr dc : Int) (hdr : dr = 1 ∨ dr = -1) (s : MoveSequence) :
    s ∈ kingSimpleScan b r c dr dc (BOARD_SIZE.toNat + 1) (r + dr) (c + dc) [] ↔
      ∃ k : Int, 1 ≤ k
        ∧ (∀ i, 1 ≤ i → i ≤ k →
            onBoard (r + i * dr) (c + i * dc) = true ∧ b (r + i * dr) (c + i * dc) = '.')
        ∧ s = { steps := [⟨r, c, r + k * dr, c + k * dc⟩], capturesCount := 0 } := by
  have hfuel : ((BOARD_SIZE.toNat + 1 : Nat) : Int) = 9 := by decide
  have e1 : ∀ i : Int, r + dr + i * dr = r + (i + 1) * dr := fun i => by ring
  have e2 : ∀ i : Int, c + dc + i * dc = c + (i + 1) * dc := fun i => by ring
  rw [mem_kingSimpleScan_iff]
  constructor
  · rintro ⟨m, hm0, -, hcells, rfl⟩
    refine ⟨m + 1, by omega, ?_, by rw [e1, e2]⟩
    intro i hi1 hik
    have := hcells (i - 1) (by omega) (by omega)
    rw [e1, e2] at this
    simpa using this
  · rintro ⟨k, hk, hcells, rfl⟩
    have hk8 := run_le_of_onBoard r c dr dc k hdr hk (fun i h1 h2 => (hcells i h1 h2).1)
    refine ⟨k - 1, by omega, by rw [hfuel]; omega, ?_, by simp only [e1, e2, sub_add_cancel]⟩
    intro i hi0 hi1
    rw [e1, e2]
    exact hcells (i + 1) (by omega) (by omega)

/-- Membership in the result of `getKingSimpleMoves`. -/
theorem mem_getKingSimpleMoves (b : Board) (r c : Int) (s : MoveSequence) :
    s ∈ getKingSimpleMoves b r c ↔
      ∃ dr dc k : Int, (dr = 1 ∨ dr = -1) ∧ (dc = 1 ∨ dc = -1) ∧ 1 ≤ k
        ∧ (∀ i, 1 ≤ i → i ≤ k →
            onBoard (r + i * dr) (c + i * dc) = true ∧ b (r + i * dr) (c + i * dc) = '.')
        ∧ s = { steps := [⟨r, c, r + k * dr, c + k * dc⟩], capturesCount := 0 } := by
  have h11 := mem_kingRun b r c 1 1 (Or.inl rfl)
  have h1m := mem_kingRun b r c 1 (-1) (Or.inl rfl)
  have hm1 := mem_kingRun b r c (-1) 1 (Or.inr rfl)
  have hmm := mem_kingRun b r c (-1) (-1) (Or.inr rfl)
  rw [getKingSimpleMoves_eq]
  simp only [List.mem_append, h11, h1m, hm1, hmm]
  constructor
  · rintro (⟨k, h⟩ | ⟨k, h⟩ | ⟨k, h⟩ | ⟨k, h⟩)
    · exact ⟨1, 1, k, Or.inl rfl, Or.inl rfl, h⟩
    · exact ⟨1, -1, k, Or.inl rfl, Or.inr rfl, h⟩
    · exact ⟨-1, 1, k, Or.inr rfl, Or.inl rfl, h⟩
    · exact ⟨-1, -1, k, Or.inr rfl, Or.inr rfl, h⟩
  · rintro ⟨dr, dc, k, rfl | rfl, rfl | rfl, h⟩
    · exact Or.inl ⟨k, h⟩
    · exact Or.inr (Or.inl ⟨k, h⟩)
    · exact Or.inr (Or.inr (Or.inl ⟨k, h⟩))
    · exact Or.inr (Or.inr (Or.inr ⟨k, h⟩))

/-- C12: getKingSimpleMoves returns the one-step sequence from (r,c) to
(r + k dr, c + k dc) with capturesCount = 0 iff (dr,dc) is a diagonal
direction, k >= 1 and every cell at distances 1..k in that direction is on
the board and empty; no sequence is returned twice. -/
theorem getKingSimpleMoves_spec (b : Board) (r c : Int) :
    (∀ s, s ∈ getKingSimpleMoves b r c ↔
        ∃ dr dc k : Int, (dr = 1 ∨ dr = -1) ∧ (dc = 1 ∨ dc = -1) ∧ 1 ≤ k
          ∧ (∀ i, 1 ≤ i → i ≤ k →
              onBoard (r + i * dr) (c + i * dc) = true ∧ b (r + i * dr) (c + i * dc) = '.')
          ∧ s = { steps := [⟨r, c, r + k * dr, c + k * dc⟩], capturesCount := 0 })
    ∧ (getKingSimpleMoves b r c).Nodup := by
  refine ⟨fun s => mem_getKingSimpleMoves b r c s, ?_⟩
  · rw [getKingSimpleMoves_eq]
    have hdisj : ∀ (dr dc dr2 dc2 : Int), (dr = 1 ∨ dr = -1) → (dc = 1 ∨ dc = -1) →
        (dr2 = 1 ∨ dr2 = -1) → (dc2 = 1 ∨ dc2 = -1) → (dr ≠ dr2 ∨ dc ≠ dc2) →
        ∀ s, s ∈ kingSimpleScan b r c dr dc (BOARD_SIZE.toNat + 1) (r + dr) (c + dc) [] →
          s ∈ kingSimpleScan b r c dr2 dc2 (BOARD_SIZE.toNat + 1) (r + dr2) (c + dc2) [] →
          False := by
      intro dr dc dr2 dc2 hdr hdc hdr2 hdc2 hne s hs1 hs2
      obtain ⟨k, hk, -, rfl⟩ := (mem_kingRun b r c dr dc hdr _).mp hs1
      obtain ⟨k2, hk2, -, heq⟩ := (mem_kingRun b r c dr2 dc2 hdr2 _).mp hs2
      simp only [MoveSequence.mk.injEq, List.cons.injEq, MoveStep.mk.injEq, true_and,
        and_true] at heq
      obtain ⟨h1, h2⟩ := heq
      rcases hdr with rfl | rfl <;> rcases hdc with rfl | rfl <;>
        rcases hdr2 with rfl | rfl <;> rcases hdc2 with rfl | rfl <;> omega
    refine List.Nodup.append (nodup_kingSimpleScan b r c 1 1 (Or.inl rfl) _ _ _)
      (List.Nodup.append (nodup_kingSimpleScan b r c 1 (-1) (Or.inl rfl) _ _ _)
        (List.Nodup.append (nodup_kingSimpleScan b r c (-1) 1 (Or.inr rfl) _ _ _)
          (nodup_kingSimpleScan b r c (-1) (-1) (Or.inr rfl) _ _ _) ?_) ?_) ?_
    · intro s hs1 hs2
      exact hdisj (-1) 1 (-1) (-1) (Or.inr rfl) (Or.inl rfl) (Or.inr rfl) (Or.inr rfl)
        (Or.inr (by decide)) s hs1 hs2
    · intro s hs1 hs2
      rcases List.mem_append.mp hs2 with h | h
      · exact hdisj 1 (-1) (-1) 1 (Or.inl rfl) (Or.inr rfl) (Or.inr rfl) (Or.inl rfl)
          (Or.inl (by decide)) s hs1 h
      · exact hdisj 1 (-1) (-1) (-1) (Or.inl rfl) (Or.inr rfl) (Or.inr rfl) (Or.inr rfl)
          (Or.inl (by decide)) s hs1 h
    · intro s hs1 hs2
      rcases List.mem_append.mp hs2 with h | h
      · exact hdisj 1 1 1 (-1) (Or.inl rfl) (Or.inl rfl) (Or.inl rfl) (Or.inr rfl)
          (Or.inr (by decide)) s hs1 h
      · rcases List.mem_append.mp h with h | h
        · exact hdisj 1 1 (-1) 1 (Or.inl rfl) (Or.inl rfl) (Or.inr rfl) (Or.inl rfl)
            (Or.inl (by decide)) s hs1 h
        · exact hdisj 1 1 (-1) (-1) (Or.inl rfl) (Or.inl rfl) (Or.inr rfl) (Or.inr rfl)
            (Or.inl (by decide)) s hs1 h
/-! ## Existence of a move -/

/-- C13: hasAnyMove is false on every board without a piece of the side to
move, whatever the pieces of the other side; and hasAnyMove is true iff
findAllCaptures is non-empty or findAllNormalMoves is non-empty. -/
theorem hasAnyMove_spec (hw : Nat) (b : Board) (whiteTurn : Bool) :
    ((∀ r c, onBoard r c = true → pieceColor (b r c) ≠ (if whiteTurn then 1 else -1)) →
        hasAnyMove hw b whiteTurn = false)
    ∧ (hasAnyMove hw b whiteTurn = true ↔
        findAllCaptures hw b whiteTurn ≠ [] ∨ findAllNormalMoves hw b whiteTurn ≠ []) := by
  have hiff : hasAnyMove hw b whiteTurn = true ↔
      findAllCaptures hw b whiteTurn ≠ [] ∨ findAllNormalMoves hw b whiteTurn ≠ [] := by
    unfold hasAnyMove
    cases hc : findAllCaptures hw b whiteTurn with
    | nil =>
      cases hn : findAllNormalMoves hw b whiteTurn with
      | nil => simp
      | cons s rest => simp
    | cons s rest => simp
  refine ⟨?_, hiff⟩
  intro hnone
  have hc : findAllCaptures hw b whiteTurn = [] := by
    apply List.eq_nil_iff_forall_not_mem.mpr
    intro s hs
    obtain ⟨rr, cc, hon, hcol, -⟩ := mem_findAllCaptures hw b whiteTurn s hs
    exact hnone rr cc hon hcol
  have hn : findAllNormalMoves hw b whiteTurn = [] := by
    apply List.eq_nil_iff_forall_not_mem.mpr
    intro s hs
    obtain ⟨rr, cc, hon, hcol, -⟩ := mem_findAllNormalMoves hw b whiteTurn s hs
    exact hnone rr cc hon hcol
  cases hval : hasAnyMove hw b whiteTurn with
  | false => rfl
  | true =>
    rcases hiff.mp hval with h | h
    · exact absurd hc h
    · exact absurd hn h

/-- Witness for C13: a board with a single dark man, light to move. -/
theorem hasAnyMove_spec_witness :
    (∀ r c, onBoard r c = true →
        pieceColor ((emptyBoard.set 2 3 'b') r c) ≠ (if true then 1 else -1))
      ∧ hasAnyMove 4 (emptyBoard.set 2 3 'b') true = false :=
  have h : ∀ r c, onBoard r c = true →
      pieceColor ((emptyBoard.set 2 3 'b') r c) ≠ (if true then 1 else -1) := by
    intro r c _
    simp only [Board.set, emptyBoard]
    split_ifs <;> decide
  ⟨h, (hasAnyMove_spec 4 (emptyBoard.set 2 3 'b') true).1 h⟩
/-! ## Row chunks and the sequential scan -/

theorem intRange_nil (lo hi : Int) (h : hi ≤ lo) : intRange lo hi = [] := by
  unfold intRange
  have : (hi - lo).toNat = 0 := by
    rw [Int.toNat_eq_zero]
    omega
  rw [this]
  rfl

theorem intRange_append (lo mid hi : Int) (h1 : lo ≤ mid) (h2 : mid ≤ hi) :
    intRange lo mid ++ intRange mid hi = intRange lo hi := by
  unfold intRange
  have e : (hi - lo).toNat = (mid - lo).toNat + (hi - mid).toNat := by omega
  rw [e, List.range_add, List.map_append, List.map_map]
  congr 1
  apply List.map_congr_left
  intro k _
  simp only [Function.comp]
  have : ((mid - lo).toNat : Int) = mid - lo := Int.toNat_of_nonneg (by omega)
  push_cast
  omega

theorem rowChunks_of_ge (chunkSize rowSt : Int) (n : Nat) (h : 8 ≤ rowSt) :
    rowChunks chunkSize n rowSt = [] := by
  cases n with
  | zero => rfl
  | succ n =>
    simp only [rowChunks, BOARD_SIZE]
    rw [if_neg (by omega)]

/-- The row chunks, one after the other, are the rows from `rowSt` to 7. -/
theorem rowChunks_cover (chunkSize : Int) (hcs : 1 ≤ chunkSize) (n : Nat) :
    ∀ rowSt : Int, rowSt ≤ 8 → 8 - rowSt ≤ n →
      (rowChunks chunkSize n rowSt).flatMap (fun ch => intRange ch.1 ch.2)
        = intRange rowSt 8 := by
  induction n with
  | zero =>
    intro rowSt h1 h2
    simp only [Nat.cast_zero] at h2
    rw [intRange_nil rowSt 8 (by omega)]
    rfl
  | succ n ih =>
    intro rowSt h1 h2
    simp only [rowChunks, BOARD_SIZE]
    by_cases hlt : rowSt < 8
    · rw [if_pos hlt, List.flatMap_cons]
      by_cases hend : rowSt + chunkSize < 8
      · rw [ih (rowSt + chunkSize) (by omega) (by push_cast at h2; omega),
          min_eq_left (by omega)]
        exact intRange_append rowSt (rowSt + chunkSize) 8 (by omega) (by omega)
      · rw [rowChunks_of_ge _ _ _ (by omega), min_eq_right (by omega)]
        simp
    · rw [if_neg hlt, intRange_nil rowSt 8 (by omega)]
      rfl

theorem foldl_append_if_eq_flatMap {α β : Type} (p : α → Prop) [DecidablePred p]
    (g : α → List β) (l : List α) :
    ∀ init : List β, l.foldl (fun acc x => if p x then acc ++ g x else acc) init
      = init ++ l.flatMap (fun x => if p x then g x else []) := by
  induction l with
  | nil => intro init; simp
  | cons a rest ih =>
    intro init
    rw [List.foldl_cons, ih, List.flatMap_cons]
    split_ifs <;> simp

theorem foldl_append_eq_flatMap {α β : Type} (g : α → List β) (l : List α) :
    ∀ init : List β, l.foldl (fun acc x => acc ++ g x) init = init ++ l.flatMap g := by
  induction l with
  | nil => intro init; simp
  | cons a rest ih =>
    intro init
    rw [List.foldl_cons, ih, List.flatMap_cons, List.append_assoc]

/-- One task returns, row by row and cell by cell, what `perPiece` returns for
the pieces of colour `color`. -/
theorem scanChunk_eq_flatMap (b : Board) (color : Int)
    (perPiece : Int → Int → List MoveSequence) (rowSt rowEnd : Int) :
    scanChunk b color perPiece rowSt rowEnd
      = (intRange rowSt rowEnd).flatMap (fun rr =>
          (intRange 0 BOARD_SIZE).flatMap (fun cc =>
            if pieceColor (b rr cc) = color then perPiece rr cc else [])) := by
  unfold scanChunk
  have hinner : ∀ (localRes : List MoveSequence) (rr : Int),
      (intRange 0 BOARD_SIZE).foldl (fun localRes cc =>
          if pieceColor (b rr cc) = color then localRes ++ perPiece rr cc else localRes)
        localRes
        = localRes ++ (intRange 0 BOARD_SIZE).flatMap (fun cc =>
            if pieceColor (b rr cc) = color then perPiece rr cc else []) :=
    fun localRes rr =>
      foldl_append_if_eq_flatMap (fun cc => pieceColor (b rr cc) = color)
        (fun cc => perPiece rr cc) _ localRes
  simp only [hinner]
  rw [foldl_append_eq_flatMap]
  simp

theorem filter_flatMap_if {α β : Type} (p : α → Bool) (f : α → List β) (l : List α) :
    (l.filter p).flatMap f = l.flatMap (fun x => if p x = true then f x else []) := by
  induction l with
  | nil => rfl
  | cons a rest ih =>
    by_cases h : p a = true
    · rw [List.filter_cons_of_pos h, List.flatMap_cons, List.flatMap_cons, ih, if_pos h]
    · rw [List.filter_cons_of_neg h, List.flatMap_cons, ih, if_neg h, List.nil_append]

/-- The row-chunked enumeration is the row-major scan of the 64 cells. -/
theorem enumeration_eq (hw : Nat) (b : Board) (color : Int)
    (perPiece : Int → Int → List MoveSequence) :
    ((rowChunks (chunkSizeOf hw) BOARD_SIZE.toNat 0).map (fun ch =>
        scanChunk b color perPiece ch.1 ch.2)).foldl
          (fun finalMoves part => finalMoves ++ part) []
      = (allCells.filter (fun p => decide (pieceColor (b p.1 p.2) = color))).flatMap
          (fun p => perPiece p.1 p.2) := by
  have h8 : ((BOARD_SIZE.toNat : Nat) : Int) = 8 := by decide
  have hcover := rowChunks_cover (chunkSizeOf hw) (chunkSizeOf_pos hw) BOARD_SIZE.toNat 0
    (by omega) (by rw [h8]; omega)
  have hid : ∀ (parts : List (List MoveSequence)),
      parts.foldl (fun finalMoves part => finalMoves ++ part) [] = parts.flatMap id := by
    intro parts
    have := foldl_append_eq_flatMap (fun part : List MoveSequence => part) parts []
    rw [this, List.nil_append]
    rfl
  rw [hid, List.flatMap_map]
  simp only [id, scanChunk_eq_flatMap]
  rw [← List.flatMap_assoc, hcover, filter_flatMap_if, allCells, List.flatMap_assoc]
  simp only [List.flatMap_map, decide_eq_true_eq, BOARD_SIZE]
theorem findAllCaptures_eq (hw : Nat) (b : Board) (whiteTurn : Bool) :
    findAllCaptures hw b whiteTurn
      = (allCells.filter (fun p =>
            decide (pieceColor (b p.1 p.2) = (if whiteTurn then 1 else -1)))).flatMap
          (fun p => getAllCapturesForPiece b p.1 p.2) :=
  enumeration_eq hw b _ (fun rr cc => getAllCapturesForPiece b rr cc)

theorem findAllNormalMoves_eq (hw : Nat) (b : Board) (whiteTurn : Bool) :
    findAllNormalMoves hw b whiteTurn
      = (allCells.filter (fun p =>
            decide (pieceColor (b p.1 p.2) = (if whiteTurn then 1 else -1)))).flatMap
          (fun p =>
            if !isKing (b p.1 p.2) then
              getManSimpleMoves b p.1 p.2 (if whiteTurn then 1 else -1)
            else getKingSimpleMoves b p.1 p.2) :=
  enumeration_eq hw b _ (fun rr cc =>
    if !isKing (b rr cc) then getManSimpleMoves b rr cc (if whiteTurn then 1 else -1)
    else getKingSimpleMoves b rr cc)

theorem rowChunks_shape (chunkSize : Int) (n : Nat) :
    ∀ rowSt ch, ch ∈ rowChunks chunkSize n rowSt → ch.2 = min (ch.1 + chunkSize) 8 := by
  induction n with
  | zero => intro rowSt ch h; simp [rowChunks] at h
  | succ n ih =>
    intro rowSt ch h
    simp only [rowChunks] at h
    split_ifs at h with hlt
    · rcases List.mem_cons.mp h with rfl | h
      · rfl
      · exact ih _ _ h
    · exact absurd h (List.not_mem_nil _)

/-- C18: for every value hw of the hardware concurrency (0 is replaced by 2)
the chunks [rowSt, min(rowSt + chunkSize, 8)) with chunkSize = max(1, 8 div hw)
list each of the rows 0..7 exactly once, in order; findAllCaptures returns the
row-major concatenation, over the cells holding a piece of the moving colour,
of getAllCapturesForPiece, and findAllNormalMoves that of getManSimpleMoves or
getKingSimpleMoves; neither result depends on hw. -/
theorem chunked_enumeration_eq_sequential (hw : Nat) (b : Board) (whiteTurn : Bool) :
    chunkSizeOf hw = max 1 (((8 / (if hw = 0 then 2 else hw) : Nat)) : Int)
    ∧ (∀ ch ∈ rowChunks (chunkSizeOf hw) BOARD_SIZE.toNat 0,
        ch.2 = min (ch.1 + chunkSizeOf hw) 8)
    ∧ (rowChunks (chunkSizeOf hw) BOARD_SIZE.toNat 0).flatMap (fun ch => intRange ch.1 ch.2)
        = [0, 1, 2, 3, 4, 5, 6, 7]
    ∧ findAllCaptures hw b whiteTurn
        = (allCells.filter (fun p =>
            decide (pieceColor (b p.1 p.2) = (if whiteTurn then 1 else -1)))).flatMap
          (fun p => getAllCapturesForPiece b p.1 p.2)
    ∧ findAllNormalMoves hw b whiteTurn
        = (allCells.filter (fun p =>
            decide (pieceColor (b p.1 p.2) = (if whiteTurn then 1 else -1)))).flatMap
          (fun p =>
            if !isKing (b p.1 p.2) then
              getManSimpleMoves b p.1 p.2 (if whiteTurn then 1 else -1)
            else getKingSimpleMoves b p.1 p.2)
    ∧ (∀ hw2 : Nat, findAllCaptures hw b whiteTurn = findAllCaptures hw2 b whiteTurn
        ∧ findAllNormalMoves hw b whiteTurn = findAllNormalMoves hw2 b whiteTurn) := by
  have h8 : ((BOARD_SIZE.toNat : Nat) : Int) = 8 := by decide
  refine ⟨?_, ?_, ?_, findAllCaptures_eq hw b whiteTurn, findAllNormalMoves_eq hw b whiteTurn,
    ?_⟩
  · unfold chunkSizeOf
    have h8n : BOARD_SIZE.toNat = 8 := by decide
    simp only [h8n]
    split_ifs with h1 h2 h2
    · rw [max_eq_left (by omega)]
    · rw [max_eq_right (by omega)]
    · rw [max_eq_left (by omega)]
    · rw [max_eq_right (by omega)]
  · intro ch hch
    exact rowChunks_shape _ _ _ _ hch
  · rw [rowChunks_cover (chunkSizeOf hw) (chunkSizeOf_pos hw) BOARD_SIZE.toNat 0
      (by omega) (by rw [h8]; omega)]
    decide
  · intro hw2
    rw [findAllCaptures_eq hw, findAllCaptures_eq hw2, findAllNormalMoves_eq hw,
      findAllNormalMoves_eq hw2]
    exact ⟨rfl, rfl⟩

/-- C19, the code at hw = 3: chunkSize is 8 div 3 = 2, so the loop over the
row chunks launches 4 tasks, more than the 3 reported by the hardware. -/
theorem workerCount_three : chunkSizeOf 3 = 2 ∧ workerCount 3 = 4 ∧ ¬(workerCount 3 ≤ 3) := by
  decide

/-- C14: on the board of initBoard (dark men on the odd cells of rows 0..2,
light men on the odd cells of rows 5..7, all other cells empty), whatever the
hardware concurrency, findAllCaptures for light is empty and
findAllNormalMoves for light contains the step (5,0) -> (4,1) with
capturesCount = 0. -/
theorem initBoard_moves (hw : Nat) :
    (∀ p ∈ allCells, initBoard p.1 p.2 =
        if (p.1 + p.2) % 2 = 1 ∧ p.1 < 3 then 'b'
        else if (p.1 + p.2) % 2 = 1 ∧ 5 ≤ p.1 then 'w'
        else '.')
    ∧ findAllCaptures hw initBoard true = []
    ∧ ({ steps := [⟨5, 0, 4, 1⟩], capturesCount := 0 } : MoveSequence)
        ∈ findAllNormalMoves hw initBoard true := by
  refine ⟨by decide, ?_, ?_⟩
  · rw [findAllCaptures_eq]
    decide
  · rw [findAllNormalMoves_eq]
    decide
/-! ## Playable squares -/

/-- Every simple move runs along a diagonal to an empty cell. -/
theorem simpleMove_diag (b : Board) (r c color : Int) (s : MoveSequence)
    (hs : s ∈ getManSimpleMoves b r c color ∨ s ∈ getKingSimpleMoves b r c) :
    ∃ dr dc k : Int, (dr = 1 ∨ dr = -1) ∧ (dc = 1 ∨ dc = -1)
      ∧ b (r + k * dr) (c + k * dc) = '.'
      ∧ s = { steps := [⟨r, c, r + k * dr, c + k * dc⟩], capturesCount := 0 } := by
  rcases hs with hs | hs
  · obtain ⟨dc, hdc, -, hdot, rfl⟩ := (mem_getManSimpleMoves b r c color s).mp hs
    refine ⟨if color = 1 then -1 else 1, dc, 1, ?_, ?_, ?_, ?_⟩
    · split_ifs
      · exact Or.inr rfl
      · exact Or.inl rfl
    · rcases hdc with h | h
      · exact Or.inr h
      · exact Or.inl h
    · simpa using hdot
    · simp
  · obtain ⟨dr, dc, k, hdr, hdc, hk, hcells, rfl⟩ := (mem_getKingSimpleMoves b r c s).mp hs
    exact ⟨dr, dc, k, hdr, hdc, (hcells k hk (le_refl _)).2, rfl⟩

theorem diag_parity (r c dr dc k : Int) (hdr : dr = 1 ∨ dr = -1) (hdc : dc = 1 ∨ dc = -1) :
    (r + k * dr + (c + k * dc)) % 2 = (r + c) % 2 := by
  rcases hdr with rfl | rfl <;> rcases hdc with rfl | rfl <;> omega

/-- One capture of the search keeps the pieces on the odd cells. -/
theorem oddOnly_capture_step (color : Int) (b : Board) (r c : Int) (used : List (Int × Int))
    (t : Target) (hodd : OddOnly b) (hinv : SearchInv color b r c used)
    (hon : onBoard r c = true) (ht : t ∈ captureTargets b r c color used) :
    OddOnly (makeOneStep b t.1 true) := by
  intro x y hxy hpc
  rw [makeOneStep_capture_apply color b r c used t hinv.1 ht] at hpc
  obtain ⟨dr, dc, j, k, hdr, hdc, -, -, hst, -, -, -, -, -⟩ :=
    isTarget_of_mem b r c color used t ht
  have hstart : (r + c) % 2 = 1 := hodd r c hon (by rw [hinv.2.1]; exact hinv.1)
  split_ifs at hpc with h1 h2 h3
  · rw [h1.1, h1.2, hst]
    simp only
    rw [diag_parity r c dr dc k hdr hdc]
    exact hstart
  · exact absurd pieceColor_dot hpc
  · exact absurd pieceColor_dot hpc
  · exact hodd x y hxy hpc

/-- A run of captures keeps the pieces on the odd cells. -/
theorem oddOnly_path (color : Int) (path : List Target) :
    ∀ (b : Board) (r c : Int) (used : List (Int × Int)),
      CapPath color b r c used path → SearchInv color b r c used → onBoard r c = true →
      OddOnly b → OddOnly (applySteps true b (path.map Prod.fst)) := by
  induction path with
  | nil => intro b r c used _ _ _ hodd; exact hodd
  | cons t rest ih =>
    intro b r c used hp hinv hon hodd
    obtain ⟨ht, hrest⟩ := hp
    have hT := isTarget_distinct b r c color used t (isTarget_of_mem b r c color used t ht)
    simp only [List.map_cons, applySteps]
    exact ih _ _ _ _ hrest (searchInv_step color b r c used t hinv ht) hT.2.2.2.2.2.1
      (oddOnly_capture_step color b r c used t hodd hinv hon ht)

/-- Every generated move keeps the pieces on the odd cells. -/
theorem oddOnly_move (hw : Nat) (b : Board) (whiteTurn : Bool) (s : MoveSequence)
    (hodd : OddOnly b)
    (hs : s ∈ findAllCaptures hw b whiteTurn ∨ s ∈ findAllNormalMoves hw b whiteTurn) :
    OddOnly (makeMoveSequence b s).2 := by
  rcases hs with hs | hs
  · obtain ⟨rr, cc, hon, -, hmem⟩ := mem_findAllCaptures hw b whiteTurn s hs
    obtain ⟨hpc, path, hne, hpath, hsteps, hcount⟩ := getAllCapturesForPiece_path b rr cc s hmem
    rw [makeMoveSequence_capture b s path hne hsteps hcount]
    exact oddOnly_path _ path b rr cc [] hpath (searchInv_init b rr cc hpc) hon hodd
  · obtain ⟨rr, cc, hon, hcol, hmem⟩ := mem_findAllNormalMoves hw b whiteTurn s hs
    have hmem2 : s ∈ getManSimpleMoves b rr cc (if whiteTurn then 1 else -1)
        ∨ s ∈ getKingSimpleMoves b rr cc := hmem.imp And.right And.right
    obtain ⟨dr, dc, k, hdr, hdc, hdot, rfl⟩ := simpleMove_diag b rr cc _ s hmem2
    have hc0 := turn_color_ne_zero whiteTurn
    have hne : ¬(rr = rr + k * dr ∧ cc = cc + k * dc) := by
      intro h
      rw [← h.1, ← h.2] at hdot
      rw [hdot, pieceColor_dot] at hcol
      exact hc0 hcol.symm
    have hmm : (makeMoveSequence b ⟨[⟨rr, cc, rr + k * dr, cc + k * dc⟩], 0⟩).2
        = makeOneStep b ⟨rr, cc, rr + k * dr, cc + k * dc⟩ false := by
      simp [makeMoveSequence, applySteps]
    rw [hmm]
    intro x y hxy hpc
    rw [makeOneStep_simple_apply b rr cc _ _ x y hne] at hpc
    split_ifs at hpc with h1 h2
    · rw [h1.1, h1.2, diag_parity rr cc dr dc k hdr hdc]
      exact hodd rr cc hon (by rw [hcol]; exact hc0)
    · exact absurd pieceColor_dot hpc
    · exact hodd x y hxy hpc

theorem oddOnly_initBoard : OddOnly initBoard := by
  have h : ∀ p ∈ allCells, pieceColor (initBoard p.1 p.2) ≠ 0 → (p.1 + p.2) % 2 = 1 := by
    decide
  intro r c hon hpc
  exact h (r, c) ((mem_allCells r c).mpr hon) hpc

/-- C15: the board of initBoard has pieces only on cells with (row + col)
odd; a board with this property keeps it under makeMoveSequence with any
sequence returned by findAllCaptures or findAllNormalMoves, for either side;
hence every board reachable from initBoard through generated moves has it. -/
theorem playable_squares :
    OddOnly initBoard
    ∧ (∀ (hw : Nat) (b : Board) (whiteTurn : Bool) (s : MoveSequence), OddOnly b →
        (s ∈ findAllCaptures hw b whiteTurn ∨ s ∈ findAllNormalMoves hw b whiteTurn) →
        OddOnly (makeMoveSequence b s).2)
    ∧ (∀ b : Board, Reachable b → OddOnly b) := by
  refine ⟨oddOnly_initBoard, fun hw b whiteTurn s hodd hs => oddOnly_move hw b whiteTurn s hodd hs,
    ?_⟩
  intro b hb
  induction hb with
  | init => exact oddOnly_initBoard
  | move b hw whiteTurn s _ hs ih => exact oddOnly_move hw b whiteTurn s ih hs

/-- Witness for C15: the starting board after the move (5,0) -> (4,1). -/
theorem playable_squares_witness :
    OddOnly initBoard
      ∧ (({ steps := [⟨5, 0, 4, 1⟩], capturesCount := 0 } : MoveSequence)
          ∈ findAllCaptures 4 initBoard true
        ∨ ({ steps := [⟨5, 0, 4, 1⟩], capturesCount := 0 } : MoveSequence)
          ∈ findAllNormalMoves 4 initBoard true)
      ∧ OddOnly (makeMoveSequence initBoard { steps := [⟨5, 0, 4, 1⟩], capturesCount := 0 }).2
      ∧ Reachable (makeMoveSequence initBoard { steps := [⟨5, 0, 4, 1⟩], capturesCount := 0 }).2 :=
  ⟨oddOnly_initBoard, Or.inr (by decide),
    playable_squares.2.1 4 initBoard true _ oddOnly_initBoard (Or.inr (by decide)),
    Reachable.move initBoard 4 true _ Reachable.init (Or.inr (by decide))⟩
/-! ## Piece accounting -/

theorem allCells_nodup : allCells.Nodup := by decide

theorem countP_update {α : Type} (l : List α) (hl : l.Nodup) (a : α) (ha : a ∈ l)
    (p q : α → Bool) (h : ∀ x, x ≠ a → q x = p x) :
    l.countP q + (if p a = true then 1 else 0) = l.countP p + (if q a = true then 1 else 0) := by
  induction l with
  | nil => exact absurd ha (List.not_mem_nil _)
  | cons x rest ih =>
    rw [List.nodup_cons] at hl
    rcases List.mem_cons.mp ha with rfl | ha
    · have hrest : rest.countP q = rest.countP p := by
        apply List.countP_congr
        intro y hy
        have hne : y ≠ a := fun hya => hl.1 (hya ▸ hy)
        rw [h y hne]
      simp only [List.countP_cons, hrest]
      omega
    · have hne : x ≠ a := fun hxa => hl.1 (hxa ▸ ha)
      have := ih hl.2 ha
      simp only [List.countP_cons, h x hne]
      omega

/-- Writing one cell of the board changes the count of a colour by the piece
that disappears and the piece that appears. -/
theorem countColor_set (b : Board) (r c : Int) (v : Char) (col : Int)
    (hon : onBoard r c = true) :
    countColor (b.set r c v) col + (if pieceColor (b r c) = col then 1 else 0)
      = countColor b col + (if pieceColor v = col then 1 else 0) := by
  have h := countP_update allCells allCells_nodup (r, c) ((mem_allCells r c).mpr hon)
    (fun p => decide (pieceColor (b p.1 p.2) = col))
    (fun p => decide (pieceColor ((b.set r c v) p.1 p.2) = col))
    (by
      intro x hx
      have hne : ¬(x.1 = r ∧ x.2 = c) := fun hh => hx (Prod.ext hh.1 hh.2)
      simp only [set_other b r c x.1 x.2 v hne])
  simp only [set_same, decide_eq_true_eq] at h
  exact h

theorem countColor_congr (b1 b2 : Board) (col : Int)
    (h : ∀ x y, pieceColor (b1 x y) = pieceColor (b2 x y)) :
    countColor b1 col = countColor b2 col := by
  unfold countColor
  apply List.countP_congr
  intro p _
  rw [h p.1 p.2]

theorem countColor_promote (b : Board) (r c col : Int) :
    countColor (promoteIfNeeded b r c) col = countColor b col := by
  apply countColor_congr
  intro x y
  by_cases h : x = r ∧ y = c
  · obtain ⟨rfl, rfl⟩ := h
    rw [promoteIfNeeded_same_promoted, pieceColor_promoted]
  · rw [promoteIfNeeded_other _ _ _ _ _ h]

/-- One capture of the search keeps the number of pieces of the capturing
colour and removes one piece of the other colour. -/
theorem countColor_capture_step (color : Int) (b : Board) (r c : Int)
    (used : List (Int × Int)) (t : Target) (hinv : SearchInv color b r c used)
    (hon : onBoard r c = true) (ht : t ∈ captureTargets b r c color used) :
    countColor (makeOneStep b t.1 true) color = countColor b color
      ∧ countColor (makeOneStep b t.1 true) (-color) + 1 = countColor b (-color) := by
  obtain ⟨hc, hpc, -⟩ := hinv
  have hT := isTarget_of_mem b r c color used t ht
  obtain ⟨-, -, hfe, hse, hsf, hone, honf, -, hfoe, hdot⟩ :=
    isTarget_distinct b r c color used t hT
  rw [(makeOneStep_target b r c color used t hT hc).1]
  unfold afterCapture
  have hb1 : (b.set r c '.') t.1.endRow t.1.endCol = '.' := by
    rw [set_other _ _ _ _ _ _ (fun h => hse ⟨h.1.symm, h.2.symm⟩), hdot]
  have hb2 : ((b.set r c '.').set t.1.endRow t.1.endCol (b r c)) t.2.1 t.2.2 = b t.2.1 t.2.2 := by
    rw [set_other _ _ _ _ _ _ hfe, set_other _ _ _ _ _ _ (fun h => hsf ⟨h.1.symm, h.2.symm⟩)]
  have key : ∀ col : Int,
      countColor (promoteIfNeeded
          (((b.set r c '.').set t.1.endRow t.1.endCol (b r c)).set t.2.1 t.2.2 '.')
          t.1.endRow t.1.endCol) col
        + (if pieceColor (b t.2.1 t.2.2) = col then 1 else 0)
        + (if pieceColor '.' = col then 1 else 0)
        + (if pieceColor (b r c) = col then 1 else 0)
      = countColor b col + (if pieceColor '.' = col then 1 else 0)
        + (if pieceColor (b r c) = col then 1 else 0)
        + (if pieceColor '.' = col then 1 else 0) := by
    intro col
    have h1 := countColor_set b r c '.' col hon
    have h2 := countColor_set (b.set r c '.') t.1.endRow t.1.endCol (b r c) col hone
    have h3 := countColor_set ((b.set r c '.').set t.1.endRow t.1.endCol (b r c))
      t.2.1 t.2.2 '.' col honf
    rw [hb1] at h2
    rw [hb2] at h3
    rw [countColor_promote]
    omega
  have k1 := key color
  have k2 := key (-color)
  rw [hfoe, hpc, pieceColor_dot] at k1 k2
  rw [if_neg (by omega), if_neg (fun h => hc h.symm), if_pos rfl] at k1
  rw [if_pos rfl, if_neg (by omega), if_neg (by omega)] at k2
  exact ⟨by omega, by omega⟩

/-- A run of captures keeps the number of pieces of the capturing colour and
removes as many pieces of the other colour as it has steps. -/
theorem countColor_path (color : Int) (path : List Target) :
    ∀ (b : Board) (r c : Int) (used : List (Int × Int)),
      CapPath color b r c used path → SearchInv color b r c used → onBoard r c = true →
      countColor (applySteps true b (path.map Prod.fst)) color = countColor b color
        ∧ countColor (applySteps true b (path.map Prod.fst)) (-color) + path.length
            = countColor b (-color) := by
  induction path with
  | nil => intro b r c used _ _ _; exact ⟨rfl, rfl⟩
  | cons t rest ih =>
    intro b r c used hp hinv hon
    obtain ⟨ht, hrest⟩ := hp
    have hT := isTarget_distinct b r c color used t (isTarget_of_mem b r c color used t ht)
    obtain ⟨h1, h2⟩ := countColor_capture_step color b r c used t hinv hon ht
    obtain ⟨h3, h4⟩ := ih _ _ _ _ hrest (searchInv_step color b r c used t hinv ht)
      hT.2.2.2.2.2.1
    simp only [List.map_cons, applySteps, List.length_cons]
    exact ⟨by omega, by omega⟩

/-- A simple move keeps the number of pieces of every colour. -/
theorem countColor_simple (b : Board) (r c er ec col : Int) (hon : onBoard r c = true)
    (hone : onBoard er ec = true) (hdot : b er ec = '.') (hne : ¬(r = er ∧ c = ec)) :
    countColor (makeOneStep b ⟨r, c, er, ec⟩ false) col = countColor b col := by
  simp only [makeOneStep, Bool.false_eq_true, if_false]
  rw [countColor_promote]
  have h1 := countColor_set b r c '.' col hon
  have h2 := countColor_set (b.set r c '.') er ec (b r c) col hone
  rw [set_other _ _ _ _ _ _ (fun h => hne ⟨h.1.symm, h.2.symm⟩), hdot] at h2
  omega

/-- C20: after makeMoveSequence with a sequence of findAllCaptures the number
of pieces of the moving colour is unchanged and the number of pieces of the
other colour has gone down by capturesCount, which is the number of steps;
after a sequence of findAllNormalMoves both numbers are unchanged. -/
theorem piece_accounting (hw : Nat) (b : Board) (whiteTurn : Bool) :
    (∀ s ∈ findAllCaptures hw b whiteTurn,
        countColor (makeMoveSequence b s).2 (if whiteTurn then 1 else -1)
          = countColor b (if whiteTurn then 1 else -1)
        ∧ (countColor (makeMoveSequence b s).2 (-(if whiteTurn then 1 else -1)) : Int)
            + s.capturesCount = countColor b (-(if whiteTurn then 1 else -1))
        ∧ s.capturesCount = (s.steps.length : Int))
    ∧ (∀ s ∈ findAllNormalMoves hw b whiteTurn,
        countColor (makeMoveSequence b s).2 (if whiteTurn then 1 else -1)
          = countColor b (if whiteTurn then 1 else -1)
        ∧ countColor (makeMoveSequence b s).2 (-(if whiteTurn then 1 else -1))
          = countColor b (-(if whiteTurn then 1 else -1))) := by
  refine ⟨?_, ?_⟩
  · intro s hs
    obtain ⟨rr, cc, hon, hcol, hmem⟩ := mem_findAllCaptures hw b whiteTurn s hs
    obtain ⟨hpc, path, hne, hpath, hsteps, hcount⟩ := getAllCapturesForPiece_path b rr cc s hmem
    rw [makeMoveSequence_capture b s path hne hsteps hcount]
    obtain ⟨h1, h2⟩ := countColor_path _ path b rr cc [] hpath (searchInv_init b rr cc hpc) hon
    rw [hcol] at h1 h2
    refine ⟨h1, ?_, ?_⟩
    · rw [hcount, ← h2]
      push_cast
      rfl
    · rw [hcount, hsteps, List.length_map]
  · intro s hs
    obtain ⟨rr, cc, hon, hcol, hmem⟩ := mem_findAllNormalMoves hw b whiteTurn s hs
    have hmem2 : s ∈ getManSimpleMoves b rr cc (if whiteTurn then 1 else -1)
        ∨ s ∈ getKingSimpleMoves b rr cc := hmem.imp And.right And.right
    obtain ⟨er, ec, hone, hdot, rfl⟩ := simpleMove_shape b rr cc _ s hmem2
    have hne : ¬(rr = er ∧ cc = ec) := by
      rintro ⟨rfl, rfl⟩
      rw [hdot, pieceColor_dot] at hcol
      exact turn_color_ne_zero whiteTurn hcol.symm
    have hmm : (makeMoveSequence b ⟨[⟨rr, cc, er, ec⟩], 0⟩).2
        = makeOneStep b ⟨rr, cc, er, ec⟩ false := by
      simp [makeMoveSequence, applySteps]
    rw [hmm]
    exact ⟨countColor_simple b rr cc er ec _ hon hone hdot hne,
      countColor_simple b rr cc er ec _ hon hone hdot hne⟩

/-- Witness for C20: the four captures of the loop remove the four dark men. -/
theorem piece_accounting_witness :
    (⟨[⟨4, 1, 6, 3⟩, ⟨6, 3, 4, 5⟩, ⟨4, 5, 2, 3⟩, ⟨2, 3, 4, 1⟩], 4⟩ : MoveSequence)
        ∈ findAllCaptures 4 loopBoard true
      ∧ countColor loopBoard 1 = 1 ∧ countColor loopBoard (-1) = 4
      ∧ countColor (makeMoveSequence loopBoard
          ⟨[⟨4, 1, 6, 3⟩, ⟨6, 3, 4, 5⟩, ⟨4, 5, 2, 3⟩, ⟨2, 3, 4, 1⟩], 4⟩).2
            (if true then 1 else -1) = countColor loopBoard (if true then 1 else -1) :=
  ⟨by decide, by decide, by decide,
    ((piece_accounting 4 loopBoard true).1
      ⟨[⟨4, 1, 6, 3⟩, ⟨6, 3, 4, 5⟩, ⟨4, 5, 2, 3⟩, ⟨2, 3, 4, 1⟩], 4⟩ (by decide)).1⟩
/-! ## Completeness of the search -/

/-- Completeness of the search: every complete run of captures from `(r, c)`
is returned, appended to `currentSeq`. -/
theorem searchCaptures_complete (color : Int) (fuel : Nat) :
    ∀ (b : Board) (r c : Int) (used : List (Int × Int)) (cur : MoveSequence)
      (res : List MoveSequence),
      searchCaptures fuel b r c color used cur = some res → 0 ≤ cur.capturesCount →
      ∀ path, CapPath color b r c used path → (path = [] → cur.capturesCount > 0) →
      extendPath cur path ∈ res := by
  induction fuel with
  | zero => intro b r c used cur res h; simp [searchCaptures] at h
  | succ n ih =>
    intro b r c used cur res h hcc path hpath hne
    cases path with
    | nil =>
      rw [searchCaptures_leaf n b r c color used cur hpath, if_pos (hne rfl)] at h
      simp only [Option.some.injEq] at h
      subst h
      rw [extendPath_nil]
      exact List.mem_singleton_self _
    | cons t rest =>
      obtain ⟨ht, hrest⟩ := hpath
      obtain ⟨res2, hres2, hsub⟩ := searchCaptures_child n b r c color used cur res h t ht
      rw [extendPath_cons]
      exact hsub _ (ih _ _ _ _ _ _ hres2 (by simp only [extendSeq]; omega) rest hrest
        (fun _ => by simp only [extendSeq]; omega))

/-- Under the invariant of the search the complete runs of captures do not
depend on the cells marked used. -/
theorem capPath_used_irrelevant (color : Int) (path : List Target) :
    ∀ (b : Board) (r c : Int) (used1 used2 : List (Int × Int)),
      SearchInv color b r c used1 → SearchInv color b r c used2 →
      CapPath color b r c used1 path → CapPath color b r c used2 path := by
  induction path with
  | nil =>
    intro b r c used1 used2 h1 h2 hp
    show captureTargets b r c color used2 = []
    rw [captureTargets_used_irrelevant color b r c used2 h2,
      ← captureTargets_used_irrelevant color b r c used1 h1]
    exact hp
  | cons t rest ih =>
    intro b r c used1 used2 h1 h2 hp
    obtain ⟨ht, hrest⟩ := hp
    have ht2 : t ∈ captureTargets b r c color used2 := by
      rw [captureTargets_used_irrelevant color b r c used2 h2,
        ← captureTargets_used_irrelevant color b r c used1 h1]
      exact ht
    exact ⟨ht2, ih _ _ _ _ _ (searchInv_step color b r c used1 t h1 ht)
      (searchInv_step color b r c used2 t h2 ht2) hrest⟩

/-- The sequences returned by `getAllCapturesForPiece` are exactly the
non-empty complete runs of captures from the origin. -/
theorem mem_getAllCapturesForPiece (b : Board) (r c : Int) (hpc : pieceColor (b r c) ≠ 0)
    (s : MoveSequence) :
    s ∈ getAllCapturesForPiece b r c ↔
      ∃ path, path ≠ [] ∧ CapPath (pieceColor (b r c)) b r c [] path
        ∧ s = { steps := path.map Prod.fst, capturesCount := (path.length : Int) } := by
  constructor
  · intro hs
    obtain ⟨-, path, hne, hpath, hsteps, hcount⟩ := getAllCapturesForPiece_path b r c s hs
    refine ⟨path, hne, hpath, ?_⟩
    cases s
    simp only at hsteps hcount
    rw [hsteps, hcount]
  · rintro ⟨path, hne, hpath, rfl⟩
    have := searchCaptures_complete _ _ _ _ _ _ _ _ (getAllCapturesForPiece_eq b r c hpc)
      (le_refl _) path hpath (fun h => absurd h hne)
    simpa [extendPath] using this

/-- No sequence is returned exactly when no capture is found at the origin. -/
theorem getAllCapturesForPiece_eq_nil (b : Board) (r c : Int) (hpc : pieceColor (b r c) ≠ 0) :
    getAllCapturesForPiece b r c = [] ↔ captureTargets b r c (pieceColor (b r c)) [] = [] := by
  have heq := getAllCapturesForPiece_eq b r c hpc
  have hb : searchBudget = 64 + 1 := by decide
  rw [hb] at heq
  constructor
  · intro hnil
    cases hts : captureTargets b r c (pieceColor (b r c)) [] with
    | nil => rfl
    | cons t rest =>
      exfalso
      have ht : t ∈ captureTargets b r c (pieceColor (b r c)) [] := by
        rw [hts]; exact List.mem_cons_self _ _
      obtain ⟨res2, hres2, hsub⟩ := searchCaptures_child 64 b r c _ [] _ _ heq t ht
      have hne := searchCaptures_nonempty _ _ _ _ _ _ _ _ hres2 (by simp [extendSeq])
      obtain ⟨s, hs⟩ := List.exists_mem_of_ne_nil _ hne
      have := hsub s hs
      rw [hnil] at this
      exact absurd this (List.not_mem_nil _)
  · intro hts
    rw [searchCaptures_leaf 64 _ _ _ _ _ _ hts] at heq
    simp only [gt_iff_lt, lt_self_iff_false, if_false, Option.some.injEq] at heq
    exact heq.symm

/-! ## Promotion in the middle of a chain -/

/-- C17: let a man at (r,c) have a legal capture step s = (r,c) -> (r+2dr,
c+2dc) landing on the promotion row of its colour, and let board2 be the board
after makeOneStep(board, s, isCapture = true).  Then the landing cell of
board2 holds a king of the same colour, and the sequences of
getAllCapturesForPiece(board, r, c) that begin with s are exactly: s followed
by a sequence of getAllCapturesForPiece(board2, landing cell), with
capturesCount one greater; or the single step s with capturesCount = 1 when
that list is empty. -/
theorem mid_chain_promotion (b : Board) (r c dr dc : Int)
    (hpc : pieceColor (b r c) ≠ 0) (hman : isKing (b r c) = false)
    (hdr : dr = 1 ∨ dr = -1) (hdc : dc = 1 ∨ dc = -1)
    (hmid : onBoard (r + dr) (c + dc) = true)
    (hfoe : pieceColor (b (r + dr) (c + dc)) = -pieceColor (b r c))
    (hland : onBoard (r + 2 * dr) (c + 2 * dc) = true)
    (hempty : b (r + 2 * dr) (c + 2 * dc) = '.')
    (hrank : r + 2 * dr = promotionRow (pieceColor (b r c))) :
    isKing (makeOneStep b ⟨r, c, r + 2 * dr, c + 2 * dc⟩ true (r + 2 * dr) (c + 2 * dc)) = true
    ∧ pieceColor (makeOneStep b ⟨r, c, r + 2 * dr, c + 2 * dc⟩ true (r + 2 * dr) (c + 2 * dc))
        = pieceColor (b r c)
    ∧ ∀ q : MoveSequence,
        (q ∈ getAllCapturesForPiece b r c
            ∧ q.steps.head? = some ⟨r, c, r + 2 * dr, c + 2 * dc⟩)
        ↔ ((getAllCapturesForPiece (makeOneStep b ⟨r, c, r + 2 * dr, c + 2 * dc⟩ true)
                (r + 2 * dr) (c + 2 * dc) = []
              ∧ q = { steps := [⟨r, c, r + 2 * dr, c + 2 * dc⟩], capturesCount := 1 })
            ∨ ∃ q2 ∈ getAllCapturesForPiece (makeOneStep b ⟨r, c, r + 2 * dr, c + 2 * dc⟩ true)
                (r + 2 * dr) (c + 2 * dc),
                q = { steps := ⟨r, c, r + 2 * dr, c + 2 * dc⟩ :: q2.steps,
                      capturesCount := q2.capturesCount + 1 }) := by
  have hct : captureTargets b r c (pieceColor (b r c)) []
      = manTargets b r c (pieceColor (b r c)) [] directions := by
    simp [captureTargets, hman]
  have ht : ((⟨r, c, r + 2 * dr, c + 2 * dc⟩ : MoveStep), (r + dr, c + dc))
      ∈ captureTargets b r c (pieceColor (b r c)) [] := by
    rw [hct]
    exact (mem_manTargets_directions b r c _ [] _).mpr
      ⟨dr, dc, hdr, hdc, hmid, hland, hfoe, rfl, hempty, rfl⟩
  have hinv := searchInv_init b r c hpc
  have hinv2 := searchInv_step _ b r c [] _ hinv ht
  simp only [List.nil_append] at hinv2
  have hpc2 := hinv2.2.1
  have hinv0 : SearchInv (pieceColor (b r c))
      (makeOneStep b ⟨r, c, r + 2 * dr, c + 2 * dc⟩ true) (r + 2 * dr) (c + 2 * dc) [] :=
    ⟨hpc, hpc2, fun _ hu => absurd hu (List.not_mem_nil _)⟩
  have hpc2ne : pieceColor
      (makeOneStep b ⟨r, c, r + 2 * dr, c + 2 * dc⟩ true (r + 2 * dr) (c + 2 * dc)) ≠ 0 := by
    rw [hpc2]; exact hpc
  refine ⟨?_, hpc2, ?_⟩
  · have happ := makeOneStep_capture_apply _ b r c [] _ hpc ht (r + 2 * dr) (c + 2 * dc)
    rw [happ, if_pos ⟨rfl, rfl⟩, isKing_promoted_of_color _ _ _ rfl hpc]
    exact Or.inr hrank
  · intro q
    constructor
    · rintro ⟨hq, hhead⟩
      obtain ⟨path, hne, hpath, rfl⟩ := (mem_getAllCapturesForPiece b r c hpc q).mp hq
      cases path with
      | nil => exact absurd rfl hne
      | cons t rest =>
        obtain ⟨htm, hrest⟩ := hpath
        simp only [List.map_cons, List.head?_cons, Option.some.injEq] at hhead
        have ht_eq : t = (⟨r, c, r + 2 * dr, c + 2 * dc⟩, (r + dr, c + dc)) := by
          rw [hct] at htm
          obtain ⟨dr2, dc2, -, -, -, -, -, -, -, heq⟩ :=
            (mem_manTargets_directions b r c _ [] _).mp htm
          rw [heq] at hhead
          simp only [MoveStep.mk.injEq, true_and] at hhead
          have e1 : dr2 = dr := by omega
          have e2 : dc2 = dc := by omega
          rw [heq, e1, e2]
        subst ht_eq
        simp only [List.nil_append] at hrest
        have hrest0 := capPath_used_irrelevant _ rest _ _ _ _ [] hinv2 hinv0 hrest
        cases rest with
        | nil =>
          left
          refine ⟨(getAllCapturesForPiece_eq_nil _ _ _ hpc2ne).mpr ?_, ?_⟩
          · rw [hpc2]; exact hrest0
          · simp
        | cons t2 rest2 =>
          right
          refine ⟨{ steps := (t2 :: rest2).map Prod.fst,
                    capturesCount := ((t2 :: rest2).length : Int) }, ?_, ?_⟩
          · refine (mem_getAllCapturesForPiece _ _ _ hpc2ne _).mpr
              ⟨t2 :: rest2, List.cons_ne_nil _ _, ?_, rfl⟩
            rw [hpc2]; exact hrest0
          · simp
    · rintro (⟨hnil, rfl⟩ | ⟨q2, hq2, rfl⟩)
      · refine ⟨(mem_getAllCapturesForPiece b r c hpc _).mpr
          ⟨[(⟨r, c, r + 2 * dr, c + 2 * dc⟩, (r + dr, c + dc))], List.cons_ne_nil _ _,
            ⟨ht, ?_⟩, by simp⟩, rfl⟩
        have h0 := (getAllCapturesForPiece_eq_nil _ _ _ hpc2ne).mp hnil
        rw [hpc2] at h0
        have hcap0 : CapPath (pieceColor (b r c))
            (makeOneStep b ⟨r, c, r + 2 * dr, c + 2 * dc⟩ true) (r + 2 * dr) (c + 2 * dc)
            [] [] := h0
        exact capPath_used_irrelevant _ [] _ _ _ [] _ hinv0 (by simpa using hinv2) hcap0
      · obtain ⟨path2, hne2, hpath2, rfl⟩ := (mem_getAllCapturesForPiece _ _ _ hpc2ne q2).mp hq2
        rw [hpc2] at hpath2
        refine ⟨(mem_getAllCapturesForPiece b r c hpc _).mpr
          ⟨(⟨r, c, r + 2 * dr, c + 2 * dc⟩, (r + dr, c + dc)) :: path2, List.cons_ne_nil _ _,
            ⟨ht, ?_⟩, by simp⟩, rfl⟩
        exact capPath_used_irrelevant _ path2 _ _ _ [] _ hinv0 (by simpa using hinv2) hpath2

/-- Witness for C17: the man of promotionBoard jumps from (2,1) to (0,3),
becomes a king there and goes on over (2,5). -/
theorem mid_chain_promotion_witness :
    isKing (makeOneStep promotionBoard ⟨2, 1, 2 + 2 * (-1), 1 + 2 * 1⟩ true
        (2 + 2 * (-1)) (1 + 2 * 1)) = true
      ∧ getAllCapturesForPiece promotionBoard 2 1
          = [⟨[⟨2, 1, 0, 3⟩, ⟨0, 3, 3, 6⟩], 2⟩, ⟨[⟨2, 1, 0, 3⟩, ⟨0, 3, 4, 7⟩], 2⟩]
      ∧ getAllCapturesForPiece (makeOneStep promotionBoard ⟨2, 1, 0, 3⟩ true) 0 3
          = [⟨[⟨0, 3, 3, 6⟩], 1⟩, ⟨[⟨0, 3, 4, 7⟩], 1⟩] :=
  ⟨(mid_chain_promotion promotionBoard 2 1 (-1) 1 (by decide) (by decide) (Or.inr rfl)
      (Or.inl rfl) (by decide) (by decide) (by decide) (by decide) (by decide)).1,
    by decide, by decide⟩
/-! ## The turn step: captures are mandatory -/

/-- No sequence is both a capture sequence and a simple move. -/
theorem captures_normals_disjoint (hw hw2 : Nat) (b : Board) (whiteTurn : Bool)
    (s : MoveSequence) (h1 : s ∈ findAllCaptures hw b whiteTurn)
    (h2 : s ∈ findAllNormalMoves hw2 b whiteTurn) : False := by
  obtain ⟨rr, cc, -, -, hmem⟩ := mem_findAllCaptures hw b whiteTurn s h1
  obtain ⟨-, path, hne, -, -, hcount⟩ := getAllCapturesForPiece_path b rr cc s hmem
  obtain ⟨rr2, cc2, -, -, hmem2⟩ := mem_findAllNormalMoves hw2 b whiteTurn s h2
  have hmem3 : s ∈ getManSimpleMoves b rr2 cc2 (if whiteTurn then 1 else -1)
      ∨ s ∈ getKingSimpleMoves b rr2 cc2 := hmem2.imp And.right And.right
  obtain ⟨er, ec, -, -, rfl⟩ := simpleMove_shape b rr2 cc2 _ s hmem3
  have hpos : 0 < path.length := List.length_pos.mpr hne
  simp only at hcount
  omega

theorem chooseComputerMove_mem (moves : List MoveSequence) (rnd : Nat) (hne : moves ≠ []) :
    chooseComputerMove moves rnd ∈ moves := by
  unfold chooseComputerMove
  have hemp : moves.isEmpty = false := by
    cases moves with
    | nil => exact absurd rfl hne
    | cons s rest => rfl
  have hpos : 0 < moves.length := List.length_pos.mpr hne
  have hlt : rnd % moves.length < moves.length := Nat.mod_lt _ hpos
  rw [if_neg (by rw [hemp]; exact Bool.false_ne_true), List.getD_eq_getElem _ _ hlt]
  exact List.getElem_mem hlt

theorem humanMoveByCoords_some (b : Board) (moves : List MoveSequence)
    (lines : List (Option (Int × Int × Int × Int))) (sq : MoveSequence) (b2 : Board)
    (h : humanMoveByCoords b moves lines = some (sq, b2)) :
    sq ∈ moves ∧ b2 = (makeMoveSequence b sq).2 := by
  induction lines with
  | nil => simp [humanMoveByCoords] at h
  | cons line rest ih =>
    cases line with
    | none => exact ih (by simpa [humanMoveByCoords] using h)
    | some coords =>
      obtain ⟨fromR, fromC, toR, toC⟩ := coords
      simp only [humanMoveByCoords] at h
      cases hfind : moves.find? (matchesCoords fromR fromC toR toC) with
      | none =>
        rw [hfind] at h
        exact ih h
      | some found =>
        rw [hfind] at h
        simp only [Option.some.injEq, Prod.mk.injEq] at h
        obtain ⟨rfl, rfl⟩ := h
        exact ⟨List.mem_of_find?_eq_some hfind, rfl⟩

/-- The choice out of a non-empty list either is still asking the user or
has applied a sequence of the list. -/
theorem chooseAndApply_spec (b : Board) (moves : List MoveSequence) (inp : TurnInput)
    (hne : moves ≠ []) :
    chooseAndApply b moves inp = TurnOutcome.asking moves
      ∨ ∃ applied ∈ moves,
          chooseAndApply b moves inp
            = TurnOutcome.moved moves applied (makeMoveSequence b applied).2 := by
  unfold chooseAndApply
  cases hu : inp.isUserTurn with
  | true =>
    simp only [if_true]
    cases hh : humanMoveByCoords b moves inp.lines with
    | none => exact Or.inl rfl
    | some res =>
      obtain ⟨sq, b2⟩ := res
      obtain ⟨hmem, rfl⟩ := humanMoveByCoords_some b moves inp.lines sq b2 hh
      exact Or.inr ⟨sq, hmem, rfl⟩
  | false =>
    simp only [Bool.false_eq_true, if_false]
    exact Or.inr ⟨_, chooseComputerMove_mem moves inp.rnd hne, rfl⟩

/-- C16: in the turn step of the game loop, whenever findAllCaptures is
non-empty the list offered is the capture list, the sequence applied to the
board is taken from it and is not a sequence of findAllNormalMoves; the list
of findAllNormalMoves is offered only when findAllCaptures is empty. -/
theorem mandatory_capture (hw : Nat) (b : Board) (whiteMove : Bool) (inp : TurnInput) :
    (findAllCaptures hw b whiteMove ≠ [] →
        playTurn hw b whiteMove inp = TurnOutcome.asking (findAllCaptures hw b whiteMove)
        ∨ ∃ applied ∈ findAllCaptures hw b whiteMove,
            applied ∉ findAllNormalMoves hw b whiteMove
            ∧ playTurn hw b whiteMove inp
                = TurnOutcome.moved (findAllCaptures hw b whiteMove) applied
                    (makeMoveSequence b applied).2)
    ∧ (findAllCaptures hw b whiteMove = [] →
        playTurn hw b whiteMove inp = TurnOutcome.gameOver
        ∨ playTurn hw b whiteMove inp = TurnOutcome.asking (findAllNormalMoves hw b whiteMove)
        ∨ ∃ applied ∈ findAllNormalMoves hw b whiteMove,
            playTurn hw b whiteMove inp
              = TurnOutcome.moved (findAllNormalMoves hw b whiteMove) applied
                  (makeMoveSequence b applied).2)
    ∧ (∀ (offered : List MoveSequence) (applied : MoveSequence) (b2 : Board),
        playTurn hw b whiteMove inp = TurnOutcome.moved offered applied b2 →
        applied ∈ findAllNormalMoves hw b whiteMove →
        findAllCaptures hw b whiteMove = []) := by
  have hfirst : findAllCaptures hw b whiteMove ≠ [] →
        playTurn hw b whiteMove inp = TurnOutcome.asking (findAllCaptures hw b whiteMove)
        ∨ ∃ applied ∈ findAllCaptures hw b whiteMove,
            applied ∉ findAllNormalMoves hw b whiteMove
            ∧ playTurn hw b whiteMove inp
                = TurnOutcome.moved (findAllCaptures hw b whiteMove) applied
                    (makeMoveSequence b applied).2 := by
    intro hne
    have hany : hasAnyMove hw b whiteMove = true := by
      unfold hasAnyMove
      cases hc : findAllCaptures hw b whiteMove with
      | nil => exact absurd hc hne
      | cons s rest => rfl
    have hemp : (findAllCaptures hw b whiteMove).isEmpty = false := by
      cases hc : findAllCaptures hw b whiteMove with
      | nil => exact absurd hc hne
      | cons s rest => rfl
    have hplay : playTurn hw b whiteMove inp
        = chooseAndApply b (findAllCaptures hw b whiteMove) inp := by
      unfold playTurn
      simp only [hany, hemp, Bool.not_true, Bool.not_false, Bool.false_eq_true, if_false,
        if_true]
    rw [hplay]
    rcases chooseAndApply_spec b _ inp hne with h | ⟨applied, hmem, h⟩
    · exact Or.inl h
    · exact Or.inr ⟨applied, hmem,
        fun hn => captures_normals_disjoint hw hw b whiteMove applied hmem hn, h⟩
  refine ⟨hfirst, ?_, ?_⟩
  · intro hnil
    by_cases hn : findAllNormalMoves hw b whiteMove = []
    · left
      unfold playTurn hasAnyMove
      simp [hnil, hn]
    · right
      have hany : hasAnyMove hw b whiteMove = true := by
        unfold hasAnyMove
        rw [hnil]
        cases hc : findAllNormalMoves hw b whiteMove with
        | nil => exact absurd hc hn
        | cons s rest => rfl
      have hemp : (findAllNormalMoves hw b whiteMove).isEmpty = false := by
        cases hc : findAllNormalMoves hw b whiteMove with
        | nil => exact absurd hc hn
        | cons s rest => rfl
      have hplay : playTurn hw b whiteMove inp
          = chooseAndApply b (findAllNormalMoves hw b whiteMove) inp := by
        unfold playTurn
        simp only [hany, hnil, hemp, List.isEmpty_nil, Bool.not_true, Bool.not_false,
          Bool.false_eq_true, if_false, if_true]
      rw [hplay]
      exact chooseAndApply_spec b _ inp hn
  · intro offered applied b2 h hn
    by_contra hne
    rcases hfirst hne with h1 | ⟨a, -, hna, h1⟩
    · rw [h1] at h
      exact TurnOutcome.noConfusion h
    · rw [h1] at h
      injection h with _ h2 _
      exact hna (h2 ▸ hn)

/-- Witness for C16: on the board with the four-capture loop the computer,
playing light, applies a sequence of the capture list. -/
theorem mandatory_capture_witness :
    findAllCaptures 4 loopBoard true ≠ []
      ∧ (playTurn 4 loopBoard true ⟨false, 0, []⟩
            = TurnOutcome.asking (findAllCaptures 4 loopBoard true)
          ∨ ∃ applied ∈ findAllCaptures 4 loopBoard true,
              applied ∉ findAllNormalMoves 4 loopBoard true
              ∧ playTurn 4 loopBoard true ⟨false, 0, []⟩
                  = TurnOutcome.moved (findAllCaptures 4 loopBoard true) applied
                      (makeMoveSequence loopBoard applied).2) :=
  ⟨by decide, (mandatory_capture 4 loopBoard true ⟨false, 0, []⟩).1 (by decide)⟩
/-! ## Further concrete instances -/

/-- Witness for C12: the king of scenario 3 may move from (4,4) to (6,6). -/
theorem getKingSimpleMoves_spec_witness :
    (({ steps := [⟨4, 4, 6, 6⟩], capturesCount := 0 } : MoveSequence)
        ∈ getKingSimpleMoves scenario3 4 4
      ↔ ∃ dr dc k : Int, (dr = 1 ∨ dr = -1) ∧ (dc = 1 ∨ dc = -1) ∧ 1 ≤ k
          ∧ (∀ i, 1 ≤ i → i ≤ k →
              onBoard (4 + i * dr) (4 + i * dc) = true
                ∧ scenario3 (4 + i * dr) (4 + i * dc) = '.')
          ∧ ({ steps := [⟨4, 4, 6, 6⟩], capturesCount := 0 } : MoveSequence)
              = { steps := [⟨4, 4, 4 + k * dr, 4 + k * dc⟩], capturesCount := 0 })
      ∧ ({ steps := [⟨4, 4, 6, 6⟩], capturesCount := 0 } : MoveSequence)
          ∈ getKingSimpleMoves scenario3 4 4 :=
  ⟨(getKingSimpleMoves_spec scenario3 4 4).1 _, by decide⟩

/-- Witness for C14: the cell (5,0) of the starting board holds a light man. -/
theorem initBoard_moves_witness :
    ((5 : Int), (0 : Int)) ∈ allCells
      ∧ initBoard 5 0 =
          (if ((5 : Int) + 0) % 2 = 1 ∧ (5 : Int) < 3 then 'b'
           else if ((5 : Int) + 0) % 2 = 1 ∧ (5 : Int) ≤ 5 then 'w'
           else '.') :=
  ⟨by decide, (initBoard_moves 4).1 (5, 0) (by decide)⟩

/-- Witness for C18: with 3 and with 8 reported hardware threads the same
capture list is returned on the board with the four-capture loop. -/
theorem chunked_enumeration_eq_sequential_witness :
    findAllCaptures 3 loopBoard true = findAllCaptures 8 loopBoard true
      ∧ findAllNormalMoves 3 loopBoard true = findAllNormalMoves 8 loopBoard true
      ∧ (rowChunks (chunkSizeOf 3) BOARD_SIZE.toNat 0).flatMap (fun ch => intRange ch.1 ch.2)
          = [0, 1, 2, 3, 4, 5, 6, 7] :=
  ⟨((chunked_enumeration_eq_sequential 3 loopBoard true).2.2.2.2.2 8).1,
    ((chunked_enumeration_eq_sequential 3 loopBoard true).2.2.2.2.2 8).2,
    (chunked_enumeration_eq_sequential 3 loopBoard true).2.2.1⟩

/-! ## The search without the guard `wasUsed` -/

theorem wasUsed_nil (x y : Int) : wasUsed [] x y = false := rfl

theorem manLoopNoGuard_eq_runTargets (recCall : SearchCall) (b : Board) (r c color : Int)
    (used : List (Int × Int)) (cur : MoveSequence) (dirs : List (Int × Int))
    (state : List MoveSequence × Bool) :
    manLoopNoGuard recCall b r c color used cur dirs state
      = runTargets recCall b used cur (manTargets b r c color [] dirs) state := by
  induction dirs generalizing state with
  | nil => rfl
  | cons d rest ih =>
    obtain ⟨dr, dc⟩ := d
    obtain ⟨allSeq, ff⟩ := state
    simp only [manLoopNoGuard, manTargets, wasUsed_nil]
    by_cases h1 : (onBoard (r + dr) (c + dc) && onBoard (r + 2 * dr) (c + 2 * dc)) = true
    · by_cases h2 : (decide (pieceColor (b (r + dr) (c + dc)) = -color) && !false) = true
      · by_cases h3 : b (r + 2 * dr) (c + 2 * dc) = '.'
        · rw [if_pos h1, if_pos h2, if_pos h3, if_pos (by rw [h1, h2]; simp [h3])]
          simp only [runTargets]
          cases hrec : recCall (makeOneStep b ⟨r, c, r + 2 * dr, c + 2 * dc⟩ true)
              (r + 2 * dr) (c + 2 * dc) (used ++ [(r + dr, c + dc)])
              (extendSeq cur ⟨r, c, r + 2 * dr, c + 2 * dc⟩) with
          | none => rfl
          | some found => exact ih _
        · rw [if_pos h1, if_pos h2, if_neg h3, if_neg (by simp [h3])]
          exact ih _
      · rw [if_pos h1, if_neg h2, if_neg (by
          rw [Bool.not_eq_true] at h2
          rw [h1, h2]; simp)]
        exact ih _
    · rw [if_neg h1, if_neg (by simp [h1])]
      exact ih _

theorem kingScanNoGuard_eq_runTargets (recCall : SearchCall) (b : Board) (r c color : Int)
    (used : List (Int × Int)) (cur : MoveSequence) (dr dc : Int) (n : Nat)
    (stepR stepC : Int) (foeFound : Bool) (foeR foeC : Int)
    (state : List MoveSequence × Bool) :
    kingScanNoGuard recCall b r c color used cur dr dc n stepR stepC foeFound foeR foeC state
      = runTargets recCall b used cur
          (kingScanTargets b r c color [] dr dc n stepR stepC foeFound foeR foeC)
          state := by
  induction n generalizing stepR stepC foeFound foeR foeC state with
  | zero => rfl
  | succ n ih =>
    obtain ⟨allSeq, ff⟩ := state
    simp only [kingScanNoGuard, kingScanTargets, wasUsed_nil]
    split_ifs with h1 h2 h3 h4 h5
    · exact ih _ _ _ _ _ _
    · exact ih _ _ _ _ _ _
    · rfl
    · simp only [runTargets]
      cases hrec : recCall (makeOneStep b ⟨r, c, stepR, stepC⟩ true)
          stepR stepC (used ++ [(foeR, foeC)]) (extendSeq cur ⟨r, c, stepR, stepC⟩) with
      | none => rfl
      | some found => exact ih _ _ _ _ _ _
    · rfl
    · rfl

theorem kingLoopNoGuard_eq_runTargets (recCall : SearchCall) (b : Board) (r c color : Int)
    (used : List (Int × Int)) (cur : MoveSequence) (dirs : List (Int × Int))
    (state : List MoveSequence × Bool) :
    kingLoopNoGuard recCall b r c color used cur dirs state
      = runTargets recCall b used cur (kingTargets b r c color [] dirs) state := by
  induction dirs generalizing state with
  | nil => rfl
  | cons d rest ih =>
    obtain ⟨dr, dc⟩ := d
    simp only [kingLoopNoGuard, kingTargets, runTargets_append, kingScanNoGuard_eq_runTargets]
    cases hrun : runTargets recCall b used cur
        (kingScanTargets b r c color [] dr dc (BOARD_SIZE.toNat + 1) (r + dr) (c + dc)
          false (-1) (-1)) state with
    | none => rfl
    | some state2 => exact ih _

/-- One level of the search without the guard: the recursive calls are made
over the captures found with an empty list `used`, while the list passed on
still grows. -/
theorem searchCapturesNoGuard_succ (fuel : Nat) (b : Board) (r c color : Int)
    (used : List (Int × Int)) (cur : MoveSequence) :
    searchCapturesNoGuard (fuel + 1) b r c color used cur
      = match runTargets (fun b2 r2 c2 u s => searchCapturesNoGuard fuel b2 r2 c2 color u s)
            b used cur (captureTargets b r c color []) ([], false) with
        | none => none
        | some (allSeq, foundFurther) =>
          if !foundFurther && decide (cur.capturesCount > 0) then some (allSeq ++ [cur])
          else some allSeq := by
  simp only [searchCapturesNoGuard, captureTargets]
  split_ifs with h
  · rw [manLoopNoGuard_eq_runTargets]
  · rw [kingLoopNoGuard_eq_runTargets]

/-- The recursive calls of one level depend on the recursive function only
through its values at the captures of the list. -/
theorem runTargets_congr (rec1 rec2 : SearchCall) (b : Board) (used : List (Int × Int))
    (cur : MoveSequence) (ts : List Target) (state : List MoveSequence × Bool)
    (h : ∀ t ∈ ts,
        rec1 (makeOneStep b t.1 true) t.1.endRow t.1.endCol (used ++ [t.2]) (extendSeq cur t.1)
          = rec2 (makeOneStep b t.1 true) t.1.endRow t.1.endCol (used ++ [t.2])
              (extendSeq cur t.1)) :
    runTargets rec1 b used cur ts state = runTargets rec2 b used cur ts state := by
  induction ts generalizing state with
  | nil => rfl
  | cons t rest ih =>
    obtain ⟨allSeq, ff⟩ := state
    simp only [runTargets]
    rw [h t (List.mem_cons_self _ _)]
    cases hrec : rec2 (makeOneStep b t.1 true) t.1.endRow t.1.endCol (used ++ [t.2])
        (extendSeq cur t.1) with
    | none => rfl
    | some found => exact ih _ (fun t2 ht2 => h t2 (List.mem_cons_of_mem _ ht2))

/-- At every depth bound the search without the guard returns what the search
with the guard returns, provided no cell of `used` holds a piece of the other
colour: the guard never rejects a piece. -/
theorem searchCapturesNoGuard_eq (color : Int) (fuel : Nat) :
    ∀ (b : Board) (r c : Int) (used : List (Int × Int)) (cur : MoveSequence),
      SearchInv color b r c used →
      searchCapturesNoGuard fuel b r c color used cur
        = searchCaptures fuel b r c color used cur := by
  induction fuel with
  | zero => intro b r c used cur _; rfl
  | succ n ih =>
    intro b r c used cur hinv
    rw [searchCapturesNoGuard_succ, searchCaptures_succ,
      captureTargets_used_irrelevant color b r c used hinv]
    rw [runTargets_congr
      (fun b2 r2 c2 u s => searchCapturesNoGuard n b2 r2 c2 color u s)
      (fun b2 r2 c2 u s => searchCaptures n b2 r2 c2 color u s) b used cur
      (captureTargets b r c color []) ([], false) (by
        intro t ht
        rw [← captureTargets_used_irrelevant color b r c used hinv] at ht
        exact ih _ _ _ _ _ (searchInv_step color b r c used t hinv ht))]

/-! ## The depth of the search -/

/-- A recursive function that returns more often gives the same result at
every level where the first one returns. -/
theorem runTargets_mono (rec1 rec2 : SearchCall) (b : Board) (used : List (Int × Int))
    (cur : MoveSequence) (ts : List Target) (state out : List MoveSequence × Bool)
    (h : ∀ t ∈ ts, ∀ res,
        rec1 (makeOneStep b t.1 true) t.1.endRow t.1.endCol (used ++ [t.2]) (extendSeq cur t.1)
          = some res →
        rec2 (makeOneStep b t.1 true) t.1.endRow t.1.endCol (used ++ [t.2]) (extendSeq cur t.1)
          = some res)
    (h1 : runTargets rec1 b used cur ts state = some out) :
    runTargets rec2 b used cur ts state = some out := by
  induction ts generalizing state with
  | nil => exact h1
  | cons t rest ih =>
    obtain ⟨allSeq, ff⟩ := state
    simp only [runTargets] at h1 ⊢
    cases hrec : rec1 (makeOneStep b t.1 true) t.1.endRow t.1.endCol (used ++ [t.2])
        (extendSeq cur t.1) with
    | none => rw [hrec] at h1; exact absurd h1 (by simp)
    | some found =>
      rw [hrec] at h1
      rw [h t (List.mem_cons_self _ _) found hrec]
      exact ih _ (fun t2 ht2 => h t2 (List.mem_cons_of_mem _ ht2)) h1

/-- A larger depth bound does not change a result already returned. -/
theorem searchCaptures_fuel_mono (color : Int) (n : Nat) :
    ∀ (m : Nat) (b : Board) (r c : Int) (used : List (Int × Int)) (cur : MoveSequence)
      (res : List MoveSequence), n ≤ m →
      searchCaptures n b r c color used cur = some res →
      searchCaptures m b r c color used cur = some res := by
  induction n with
  | zero => intro m b r c used cur res _ h; simp [searchCaptures] at h
  | succ n ih =>
    intro m b r c used cur res hle h
    obtain ⟨m2, rfl⟩ : ∃ m2, m = m2 + 1 := ⟨m - 1, by omega⟩
    rw [searchCaptures_succ] at h ⊢
    cases hrun : runTargets (fun b2 r2 c2 u s => searchCaptures n b2 r2 c2 color u s)
        b used cur (captureTargets b r c color used) ([], false) with
    | none => rw [hrun] at h; exact absurd h (by simp)
    | some out =>
      rw [hrun] at h
      rw [runTargets_mono _ (fun b2 r2 c2 u s => searchCaptures m2 b2 r2 c2 color u s)
        b used cur _ _ out
        (fun t _ res2 hres2 => ih m2 _ _ _ _ _ res2 (by omega) hres2) hrun]
      exact h

/-- Termination by the number of enemy pieces: a depth bound above the number
of pieces of the other colour on the board is never hit. -/
theorem searchCaptures_depth (color : Int) (fuel : Nat) :
    ∀ (b : Board) (r c : Int) (used : List (Int × Int)) (cur : MoveSequence),
      SearchInv color b r c used → onBoard r c = true →
      countColor b (-color) < fuel →
      ∃ res, searchCaptures fuel b r c color used cur = some res := by
  induction fuel with
  | zero => intro b r c used cur _ _ h; omega
  | succ n ih =>
    intro b r c used cur hinv hon h
    rw [searchCaptures_succ]
    obtain ⟨out, hout⟩ := runTargets_isSome
      (fun b2 r2 c2 u s => searchCaptures n b2 r2 c2 color u s) b used cur
      (captureTargets b r c color used) ([], false) (by
        intro t ht
        have hT := isTarget_distinct b r c color used t (isTarget_of_mem b r c color used t ht)
        have hcount := (countColor_capture_step color b r c used t hinv hon ht).2
        exact ih _ _ _ _ _ (searchInv_step color b r c used t hinv ht) hT.2.2.2.2.2.1
          (by omega))
    rw [hout]
    obtain ⟨allSeq, ff⟩ := out
    simp only
    split_ifs
    · exact ⟨_, rfl⟩
    · exact ⟨_, rfl⟩

theorem countColor_le (b : Board) (col : Int) : countColor b col ≤ 64 := by
  unfold countColor
  refine le_trans (List.countP_le_length _) ?_
  decide

/-- Nested recursive calls remove one piece of the other colour each: the
call at the end of a chain works on a board with as many fewer pieces of the
other colour as the chain is long, and the same number of pieces of the
capturing colour. -/
theorem countColor_chain (color : Int) (chain : List Target) :
    ∀ (b : Board) (r c : Int) (used : List (Int × Int)),
      CallChain color b r c used chain → SearchInv color b r c used → onBoard r c = true →
      countColor (applySteps true b (chain.map Prod.fst)) color = countColor b color
        ∧ countColor (applySteps true b (chain.map Prod.fst)) (-color) + chain.length
            = countColor b (-color) := by
  induction chain with
  | nil => intro b r c used _ _ _; exact ⟨rfl, rfl⟩
  | cons t rest ih =>
    intro b r c used hp hinv hon
    obtain ⟨ht, hrest⟩ := hp
    have hT := isTarget_distinct b r c color used t (isTarget_of_mem b r c color used t ht)
    obtain ⟨h1, h2⟩ := countColor_capture_step color b r c used t hinv hon ht
    obtain ⟨h3, h4⟩ := ih _ _ _ _ hrest (searchInv_step color b r c used t hinv ht)
      hT.2.2.2.2.2.1
    simp only [List.map_cons, applySteps, List.length_cons]
    exact ⟨by omega, by omega⟩

/-- A chain of nested calls cut before its last element is a chain. -/
theorem callChain_initial (color : Int) (p1 p2 : List Target) :
    ∀ (b : Board) (r c : Int) (used : List (Int × Int)),
      CallChain color b r c used (p1 ++ p2) → CallChain color b r c used p1 := by
  induction p1 with
  | nil => intro b r c used _; exact trivial
  | cons t rest ih =>
    intro b r c used h
    exact ⟨h.1, ih _ _ _ _ h.2⟩

/-- A complete run of captures is a chain of nested calls. -/
theorem callChain_of_capPath (color : Int) (path : List Target) :
    ∀ (b : Board) (r c : Int) (used : List (Int × Int)),
      CapPath color b r c used path → CallChain color b r c used path := by
  induction path with
  | nil => intro b r c used _; exact trivial
  | cons t rest ih =>
    intro b r c used h
    exact ⟨h.1, ih _ _ _ _ h.2⟩

/-- The search of `getAllCapturesForPiece` returns the same list under every
depth bound above the number of pieces of the other colour. -/
theorem searchCaptures_enemy_bound (b : Board) (r c : Int) (hon : onBoard r c = true)
    (hpc : pieceColor (b r c) ≠ 0) (fuel : Nat)
    (hfuel : countColor b (-pieceColor (b r c)) < fuel) :
    searchCaptures fuel b r c (pieceColor (b r c)) [] { steps := [], capturesCount := 0 }
      = some (getAllCapturesForPiece b r c) := by
  obtain ⟨res, hres⟩ := searchCaptures_depth (pieceColor (b r c)) _ b r c []
    { steps := [], capturesCount := 0 } (searchInv_init b r c hpc) hon (Nat.lt_succ_self _)
  have h1 := searchCaptures_fuel_mono _ _ searchBudget b r c [] _ res
    (by
      have := countColor_le b (-pieceColor (b r c))
      have hb : searchBudget = 65 := by decide
      omega) hres
  rw [getAllCapturesForPiece_eq b r c hpc] at h1
  rw [searchCaptures_fuel_mono _ _ fuel b r c [] _ res (by omega) hres]
  exact h1.symm ▸ rfl

/-- Every sequence returned by `getAllCapturesForPiece` has at most as many
steps as there are pieces of the other colour on the board. -/
theorem getAllCapturesForPiece_length (b : Board) (r c : Int) (hon : onBoard r c = true)
    (s : MoveSequence) (hs : s ∈ getAllCapturesForPiece b r c) :
    s.steps.length ≤ countColor b (-pieceColor (b r c))
      ∧ s.capturesCount ≤ (countColor b (-pieceColor (b r c)) : Int) := by
  obtain ⟨hpc, path, -, hpath, hsteps, hcount⟩ := getAllCapturesForPiece_path b r c s hs
  have h := (countColor_path _ path b r c [] hpath (searchInv_init b r c hpc) hon).2
  rw [hsteps, hcount, List.length_map]
  exact ⟨by omega, by omega⟩

/-- The invariant of the search holds at every nested recursive call: no cell
of the list `used` passed to the call holds a piece of the other colour on the
board passed to the call. -/
theorem callChain_inv (color : Int) (chain : List Target) :
    ∀ (b : Board) (r c : Int) (used : List (Int × Int)),
      CallChain color b r c used chain → SearchInv color b r c used →
      SearchInv color (applySteps true b (chain.map Prod.fst))
        (pathEnd (r, c) chain).1 (pathEnd (r, c) chain).2 (used ++ chain.map Prod.snd) := by
  induction chain with
  | nil =>
    intro b r c used _ hinv
    simpa [applySteps, pathEnd] using hinv
  | cons t rest ih =>
    intro b r c used hp hinv
    have h := ih _ _ _ _ hp.2 (searchInv_step color b r c used t hinv hp.1)
    simpa [applySteps, pathEnd, List.append_assoc] using h

/-- The guard does reject pieces when the list `used` names a cell that still
holds a piece of the other colour: the two searches are different functions. -/
theorem guard_matters_without_invariant :
    searchCaptures 5 loopBoard 4 1 1 [(3, 2), (5, 2)] { steps := [], capturesCount := 0 }
        = some []
      ∧ searchCapturesNoGuard 5 loopBoard 4 1 1 [(3, 2), (5, 2)]
          { steps := [], capturesCount := 0 } ≠ some [] := by
  decide

/-- C21: the used-cell guard is redundant.  For every board and origin the
search of `getAllCapturesForPiece` run with `wasUsed(...)` replaced by `false`
returns, under the depth bound of the model and under every larger one, the
very list that `getAllCapturesForPiece` returns.  The reason is that at every
nested recursive call no cell of the list `used` holds a piece of the other
colour on the board copy of that call. -/
theorem used_guard_redundant (b : Board) (rr cc : Int) :
    getAllCapturesForPieceNoGuard b rr cc = some (getAllCapturesForPiece b rr cc)
    ∧ (∀ fuel, searchBudget ≤ fuel → pieceColor (b rr cc) ≠ 0 →
        searchCapturesNoGuard fuel b rr cc (pieceColor (b rr cc)) []
            { steps := [], capturesCount := 0 }
          = some (getAllCapturesForPiece b rr cc))
    ∧ (∀ chain, CallChain (pieceColor (b rr cc)) b rr cc [] chain →
        pieceColor (b rr cc) ≠ 0 →
        ∀ u ∈ chain.map Prod.snd,
          pieceColor (applySteps true b (chain.map Prod.fst) u.1 u.2)
            ≠ -pieceColor (b rr cc)) := by
  refine ⟨?_, ?_, ?_⟩
  · unfold getAllCapturesForPieceNoGuard
    by_cases h : pieceColor (b rr cc) = 0
    · rw [if_pos h, getAllCapturesForPiece_empty b rr cc h]
    · rw [if_neg h, searchCapturesNoGuard_eq _ _ _ _ _ _ _ (searchInv_init b rr cc h),
        getAllCapturesForPiece_eq b rr cc h]
  · intro fuel hfuel h
    rw [searchCapturesNoGuard_eq _ _ _ _ _ _ _ (searchInv_init b rr cc h)]
    exact searchCaptures_fuel_mono _ _ fuel _ _ _ _ _ _ hfuel
      (getAllCapturesForPiece_eq b rr cc h)
  · intro chain hchain h u hu
    have hinv := callChain_inv _ chain b rr cc [] hchain (searchInv_init b rr cc h)
    exact hinv.2.2 u (by simpa using hu)

theorem used_guard_redundant_witness :
    searchBudget ≤ 100 ∧ pieceColor (loopBoard 4 1) ≠ 0
      ∧ searchCapturesNoGuard 100 loopBoard 4 1 (pieceColor (loopBoard 4 1)) []
          { steps := [], capturesCount := 0 }
        = some (getAllCapturesForPiece loopBoard 4 1)
      ∧ (getAllCapturesForPiece loopBoard 4 1).length = 2 :=
  ⟨by decide, by decide,
    (used_guard_redundant loopBoard 4 1).2.1 100 (by decide) (by decide), by decide⟩

/-- C22: `searchCaptures` terminates.  The search returns for every board,
origin, colour, list `used` and sequence `currentSeq`.  When the origin is on
the board and holds a piece, the search of `getAllCapturesForPiece` returns
under every depth bound above the number of pieces of the other colour; every
nested recursive call is made on a board with exactly one piece of the other
colour fewer than the board of its caller, so that the nesting depth is at
most that number; and no returned sequence has more steps than that. -/
theorem searchCaptures_terminates (b : Board) (r c : Int) :
    (∀ (color : Int) (used : List (Int × Int)) (cur : MoveSequence) (fuel : Nat),
        searchBudget ≤ fuel → ∃ res, searchCaptures fuel b r c color used cur = some res)
    ∧ (onBoard r c = true → pieceColor (b r c) ≠ 0 →
        (∀ fuel, countColor b (-pieceColor (b r c)) < fuel →
          searchCaptures fuel b r c (pieceColor (b r c)) []
              { steps := [], capturesCount := 0 }
            = some (getAllCapturesForPiece b r c))
        ∧ (∀ chain t, CallChain (pieceColor (b r c)) b r c [] (chain ++ [t]) →
            countColor (applySteps true b ((chain ++ [t]).map Prod.fst))
                (-pieceColor (b r c)) + 1
              = countColor (applySteps true b (chain.map Prod.fst)) (-pieceColor (b r c))
            ∧ (chain ++ [t]).length ≤ countColor b (-pieceColor (b r c)))
        ∧ ∀ s ∈ getAllCapturesForPiece b r c,
            s.steps.length ≤ countColor b (-pieceColor (b r c))
              ∧ s.capturesCount ≤ (countColor b (-pieceColor (b r c)) : Int)) := by
  refine ⟨?_, ?_⟩
  · intro color used cur fuel hfuel
    obtain ⟨res, hres⟩ := searchCaptures_total color searchBudget b r c used cur
      (lt_of_le_of_lt (unusedCount_le used) (by decide))
    exact ⟨res, searchCaptures_fuel_mono _ _ fuel _ _ _ _ _ _ hfuel hres⟩
  · intro hon hpc
    refine ⟨fun fuel hfuel => searchCaptures_enemy_bound b r c hon hpc fuel hfuel, ?_,
      fun s hs => getAllCapturesForPiece_length b r c hon s hs⟩
    intro chain t hchain
    have hinv := searchInv_init b r c hpc
    have h1 := (countColor_chain _ _ b r c [] hchain hinv hon).2
    have h2 := (countColor_chain _ _ b r c []
      (callChain_initial _ chain [t] b r c [] hchain) hinv hon).2
    rw [List.length_append, List.length_singleton] at h1 ⊢
    exact ⟨by omega, by omega⟩

theorem searchCaptures_terminates_witness :
    onBoard 4 1 = true ∧ pieceColor (loopBoard 4 1) ≠ 0
      ∧ countColor loopBoard (-pieceColor (loopBoard 4 1)) = 4
      ∧ searchCaptures 5 loopBoard 4 1 (pieceColor (loopBoard 4 1)) []
          { steps := [], capturesCount := 0 }
        = some (getAllCapturesForPiece loopBoard 4 1)
      ∧ searchCaptures 4 loopBoard 4 1 (pieceColor (loopBoard 4 1)) []
          { steps := [], capturesCount := 0 } = none
      ∧ (getAllCapturesForPiece loopBoard 4 1).map (fun s => s.steps.length) = [4, 4] :=
  ⟨by decide, by decide, by decide,
    ((searchCaptures_terminates loopBoard 4 1).2 (by decide) (by decide)).1 5 (by decide),
    by decide, by decide⟩

/-! ## The applicator with the accesses to the vector checked -/

/-- When the checked loop returns, the loop of `makeOneStep` returns the same
board. -/
theorem clearCapturedInBounds_eq_some (n : Nat) :
    ∀ (b b2 : Board) (checkR checkC dirR dirC endRow endCol : Int),
      clearCapturedInBounds n b checkR checkC dirR dirC endRow endCol = some b2 →
      clearCaptured n b checkR checkC dirR dirC endRow endCol = b2 := by
  induction n with
  | zero => intro b b2 checkR checkC dirR dirC endRow endCol h; simp [clearCapturedInBounds] at h
  | succ n ih =>
    intro b b2 checkR checkC dirR dirC endRow endCol h
    simp only [clearCapturedInBounds] at h
    simp only [clearCaptured]
    by_cases hne : checkR ≠ endRow ∨ checkC ≠ endCol
    · rw [if_pos hne] at h ⊢
      by_cases hon : onBoard checkR checkC = true
      · rw [if_pos hon] at h
        by_cases hp : pieceColor (b checkR checkC) ≠ 0
        · rw [if_pos hp] at h ⊢
          exact Option.some.inj h
        · rw [if_neg hp] at h ⊢
          exact ih _ _ _ _ _ _ _ _ h
      · rw [if_neg hon] at h
        exact absurd h (by simp)
    · rw [if_neg hne] at h ⊢
      exact Option.some.inj h

/-- The checked loop does not depend on its bound once the walk is sure to
have left the board within the bound. -/
theorem clearCapturedInBounds_bound (b : Board) (dirR dirC endRow endCol : Int) (n : Nat) :
    ∀ (m : Nat) (checkR checkC : Int),
      (∃ i : Int, 0 ≤ i ∧ i < n ∧ onBoard (checkR + i * dirR) (checkC + i * dirC) = false) →
      (∃ i : Int, 0 ≤ i ∧ i < m ∧ onBoard (checkR + i * dirR) (checkC + i * dirC) = false) →
      clearCapturedInBounds n b checkR checkC dirR dirC endRow endCol
        = clearCapturedInBounds m b checkR checkC dirR dirC endRow endCol := by
  induction n with
  | zero =>
    rintro m checkR checkC ⟨i, h0, hn, -⟩ -
    simp only [Nat.cast_zero] at hn
    omega
  | succ n ih =>
    rintro m checkR checkC ⟨i, hi0, hin, hi⟩ ⟨j, hj0, hjm, hj⟩
    cases m with
    | zero => simp only [Nat.cast_zero] at hjm; omega
    | succ m =>
      simp only [clearCapturedInBounds]
      by_cases hne : checkR ≠ endRow ∨ checkC ≠ endCol
      · rw [if_pos hne, if_pos hne]
        by_cases hon : onBoard checkR checkC = true
        · rw [if_pos hon, if_pos hon]
          by_cases hp : pieceColor (b checkR checkC) ≠ 0
          · rw [if_pos hp, if_pos hp]
          · rw [if_neg hp, if_neg hp]
            have hi1 : 1 ≤ i := by
              rcases eq_or_lt_of_le hi0 with rfl | h
              · simp only [zero_mul, add_zero] at hi
                rw [hon] at hi
                exact absurd hi (by simp)
              · omega
            have hj1 : 1 ≤ j := by
              rcases eq_or_lt_of_le hj0 with rfl | h
              · simp only [zero_mul, add_zero] at hj
                rw [hon] at hj
                exact absurd hj (by simp)
              · omega
            refine ih m _ _ ⟨i - 1, by omega, by push_cast at hin; omega, ?_⟩
              ⟨j - 1, by omega, by push_cast at hjm; omega, ?_⟩
            · rw [← hi]; congr 1 <;> ring
            · rw [← hj]; congr 1 <;> ring
        · rw [if_neg hon, if_neg hon]
      · rw [if_neg hne, if_neg hne]

/-- The bound `BOARD_SIZE` of the checked loop inside `makeOneStepInBounds` is
never the reason for `none`: with a start cell on the board every larger bound
gives the same result, whatever the end cell and the board. -/
theorem clearCapturedInBounds_bound_irrelevant (b : Board) (r c dr dc endRow endCol : Int)
    (hdr : dr = 1 ∨ dr = -1) (hon : onBoard r c = true) (n : Nat) (hn : 8 ≤ n) :
    clearCapturedInBounds n b (r + dr) (c + dc) dr dc endRow endCol
      = clearCapturedInBounds BOARD_SIZE.toNat b (r + dr) (c + dc) dr dc endRow endCol := by
  have h8 : ((BOARD_SIZE.toNat : Nat) : Int) = 8 := by decide
  have hoff : onBoard (r + dr + 7 * dr) (c + dc + 7 * dc) = false := by
    rw [← Bool.not_eq_true, onBoard_iff]
    rw [onBoard_iff] at hon
    rcases hdr with rfl | rfl <;> omega
  exact clearCapturedInBounds_bound b dr dc _ _ n _ (r + dr) (c + dc)
    ⟨7, by omega, by have : (8 : Int) ≤ n := by exact_mod_cast hn
                     omega, hoff⟩
    ⟨7, by omega, by rw [h8]; omega, hoff⟩

/-- When `makeOneStep` with the accesses checked returns, it returns the board
of `makeOneStep`. -/
theorem makeOneStepInBounds_eq_some (b b2 : Board) (st : MoveStep) (capture : Bool)
    (h : makeOneStepInBounds b st capture = some b2) : makeOneStep b st capture = b2 := by
  simp only [makeOneStepInBounds] at h
  simp only [makeOneStep]
  by_cases hon : (onBoard st.startRow st.startCol && onBoard st.endRow st.endCol) = true
  · rw [if_pos hon] at h
    cases capture with
    | false =>
      rw [if_neg (by decide)] at h ⊢
      exact Option.some.inj h
    | true =>
      rw [if_pos rfl] at h ⊢
      generalize (if st.endRow - st.startRow > 0 then (1 : Int) else -1) = dR at h ⊢
      generalize (if st.endCol - st.startCol > 0 then (1 : Int) else -1) = dC at h ⊢
      cases hw : clearCapturedInBounds BOARD_SIZE.toNat
          ((b.set st.startRow st.startCol '.').set st.endRow st.endCol
            (b st.startRow st.startCol))
          (st.startRow + dR) (st.startCol + dC) dR dC st.endRow st.endCol with
      | none => rw [hw] at h; exact absurd h (by simp)
      | some b3 =>
        rw [hw] at h
        rw [clearCapturedInBounds_eq_some _ _ _ _ _ _ _ _ _ hw]
        exact Option.some.inj h
  · rw [if_neg hon] at h
    exact absurd h (by simp)

/-- Along a diagonal whose cells up to the end cell are on the board the checked
loop returns. -/
theorem clearCapturedInBounds_isSome (b : Board) (r c dr dc k : Int) (n : Nat) :
    ∀ (i : Int), 1 ≤ i → i ≤ k → k - i < n →
      (∀ j, i ≤ j → j ≤ k → onBoard (r + j * dr) (c + j * dc) = true) →
      ∃ b2, clearCapturedInBounds n b (r + i * dr) (c + i * dc) dr dc
          (r + k * dr) (c + k * dc) = some b2 := by
  induction n with
  | zero => intro i _ hik hn _; simp only [Nat.cast_zero] at hn; omega
  | succ n ih =>
    intro i hi hik hn hon
    simp only [clearCapturedInBounds]
    by_cases hne : r + i * dr ≠ r + k * dr ∨ c + i * dc ≠ c + k * dc
    · rw [if_pos hne, if_pos (hon i (le_refl _) hik)]
      by_cases hp : pieceColor (b (r + i * dr) (c + i * dc)) ≠ 0
      · rw [if_pos hp]; exact ⟨_, rfl⟩
      · rw [if_neg hp]
        have hlt : i < k := by
          rcases eq_or_lt_of_le hik with rfl | h
          · exact absurd hne (by simp)
          · exact h
        have e1 : r + i * dr + dr = r + (i + 1) * dr := by ring
        have e2 : c + i * dc + dc = c + (i + 1) * dc := by ring
        rw [e1, e2]
        exact ih (i + 1) (by omega) (by omega) (by push_cast at hn; omega)
          (fun j hj hjk => hon j (by omega) hjk)
    · rw [if_neg hne]; exact ⟨_, rfl⟩

/-- A step that starts and ends on the board and, as a capture, runs along a
diagonal is applied without leaving the board, with the result of
`makeOneStep`. -/
theorem makeOneStepInBounds_of_stepInBounds (b : Board) (st : MoveStep) (capture : Bool)
    (h : stepInBounds st capture = true) :
    makeOneStepInBounds b st capture = some (makeOneStep b st capture) := by
  suffices hs : ∃ b2, makeOneStepInBounds b st capture = some b2 by
    obtain ⟨b2, hb2⟩ := hs
    rw [hb2, makeOneStepInBounds_eq_some b b2 st capture hb2]
  obtain ⟨r, c, er, ec⟩ := st
  simp only [stepInBounds, diagonalStep, Bool.and_eq_true, Bool.or_eq_true, decide_eq_true_eq,
    Bool.not_eq_true'] at h
  obtain ⟨⟨hs, he⟩, hcap⟩ := h
  unfold makeOneStepInBounds
  simp only
  rw [if_pos (by rw [hs, he]; rfl)]
  cases capture with
  | false => exact ⟨_, rfl⟩
  | true =>
    simp only [if_true]
    rcases hcap with hcap | ⟨hne, hdiag⟩
    · exact absurd hcap (by simp)
    have key : ∀ (dr dc k : Int), (dr = 1 ∨ dr = -1) → (dc = 1 ∨ dc = -1) → 1 ≤ k →
        er = r + k * dr → ec = c + k * dc →
        ∃ b2, clearCapturedInBounds BOARD_SIZE.toNat
          ((b.set r c '.').set er ec (b r c)) (r + dr) (c + dc) dr dc er ec = some b2 := by
      intro dr dc k hdr hdc hk her hec
      subst her hec
      have h8 : ((BOARD_SIZE.toNat : Nat) : Int) = 8 := by decide
      have hk7 : k ≤ 7 := by
        rw [onBoard_iff] at hs he
        rcases hdr with rfl | rfl <;> omega
      have := clearCapturedInBounds_isSome ((b.set r c '.').set (r + k * dr) (c + k * dc) (b r c))
        r c dr dc k BOARD_SIZE.toNat 1 (le_refl _) hk (by rw [h8]; omega)
        (fun j hj hjk => onBoard_between r c dr dc k j hdr hdc hs he (by omega) hjk)
      simpa using this
    have hex : ∃ b2, clearCapturedInBounds BOARD_SIZE.toNat
        ((b.set r c '.').set er ec (b r c))
        (r + if er - r > 0 then 1 else -1) (c + if ec - c > 0 then 1 else -1)
        (if er - r > 0 then 1 else -1) (if ec - c > 0 then 1 else -1) er ec = some b2 := by
      by_cases h1 : er - r > 0
      · by_cases h2 : ec - c > 0
        · rw [if_pos h1, if_pos h2]
          exact key 1 1 (er - r) (Or.inl rfl) (Or.inl rfl) (by omega) (by ring)
            (by rcases hdiag with h | h <;> omega)
        · rw [if_pos h1, if_neg h2]
          exact key 1 (-1) (er - r) (Or.inl rfl) (Or.inr rfl) (by omega) (by ring)
            (by rcases hdiag with h | h <;> omega)
      · by_cases h2 : ec - c > 0
        · rw [if_neg h1, if_pos h2]
          exact key (-1) 1 (r - er) (Or.inr rfl) (Or.inl rfl) (by omega) (by ring)
            (by rcases hdiag with h | h <;> omega)
        · rw [if_neg h1, if_neg h2]
          exact key (-1) (-1) (r - er) (Or.inr rfl) (Or.inr rfl) (by omega) (by ring)
            (by rcases hdiag with h | h <;> omega)
    obtain ⟨b2, hb2⟩ := hex
    rw [hb2]
    exact ⟨_, rfl⟩

/-- When the checked loop over the steps returns, it returns the board of the
loop of `makeMoveSequence`. -/
theorem applyStepsInBounds_eq_some (capture : Bool) (steps : List MoveStep) :
    ∀ (b b2 : Board), applyStepsInBounds capture b steps = some b2 →
      applySteps capture b steps = b2 := by
  induction steps with
  | nil => intro b b2 h; exact Option.some.inj h
  | cons st rest ih =>
    intro b b2 h
    simp only [applyStepsInBounds] at h
    simp only [applySteps]
    cases h1 : makeOneStepInBounds b st capture with
    | none => rw [h1] at h; exact absurd h (by simp)
    | some b3 =>
      rw [h1] at h
      rw [makeOneStepInBounds_eq_some b b3 st capture h1]
      exact ih _ _ h

/-- Steps that stay on the board are all applied. -/
theorem applyStepsInBounds_of_stepInBounds (capture : Bool) (steps : List MoveStep) :
    ∀ (b : Board), (∀ st ∈ steps, stepInBounds st capture = true) →
      applyStepsInBounds capture b steps = some (applySteps capture b steps) := by
  induction steps with
  | nil => intro b _; rfl
  | cons st rest ih =>
    intro b h
    simp only [applyStepsInBounds, applySteps]
    rw [makeOneStepInBounds_of_stepInBounds b st capture (h st (List.mem_cons_self _ _))]
    exact ih _ (fun st2 h2 => h st2 (List.mem_cons_of_mem _ h2))

/-- The checked loop over the steps is the fold of the checked `makeOneStep`
that stops at the first step leaving the board. -/
theorem applyStepsInBounds_eq_foldlM (capture : Bool) (steps : List MoveStep) :
    ∀ (b : Board), applyStepsInBounds capture b steps
      = steps.foldlM (fun bd st => makeOneStepInBounds bd st capture) b := by
  induction steps with
  | nil => intro b; rfl
  | cons st rest ih =>
    intro b
    simp only [applyStepsInBounds, List.foldlM_cons]
    cases h1 : makeOneStepInBounds b st capture with
    | none => rfl
    | some b2 => exact ih b2

/-- Every step of a run of captures from a cell of the board starts and ends on
the board and runs along a diagonal. -/
theorem capPath_stepInBounds (color : Int) (path : List Target) :
    ∀ (b : Board) (r c : Int) (used : List (Int × Int)),
      CapPath color b r c used path → onBoard r c = true →
      ∀ t ∈ path, stepInBounds t.1 true = true := by
  induction path with
  | nil => intro b r c used _ _ t ht; exact absurd ht (List.not_mem_nil _)
  | cons t rest ih =>
    intro b r c used hp hon t2 ht2
    obtain ⟨ht, hrest⟩ := hp
    have hT := isTarget_of_mem b r c color used t ht
    have hend := (isTarget_distinct b r c color used t hT).2.2.2.2.2.1
    rcases List.mem_cons.mp ht2 with rfl | hmem
    · obtain ⟨dr, dc, j, k, hdr, hdc, hj, hjk, hst, -, -, -, -, -⟩ := hT
      rw [hst] at hend ⊢
      simp only [stepInBounds, diagonalStep, Bool.and_eq_true, Bool.or_eq_true,
        decide_eq_true_eq, Bool.not_true, Bool.false_eq_true, false_or]
      refine ⟨⟨hon, hend⟩, ?_, ?_⟩
      · rcases hdr with rfl | rfl <;> omega
      · rcases hdr with rfl | rfl <;> rcases hdc with rfl | rfl
        · exact Or.inl (by ring)
        · exact Or.inr (by ring)
        · exact Or.inr (by ring)
        · exact Or.inl (by ring)
    · exact ih _ _ _ _ hrest hend t2 hmem

/-- Every sequence that the program passes to `makeMoveSequence` (the lists
come from `findAllCaptures` and `findAllNormalMoves`) is applied without
leaving the board, with the result of `makeMoveSequence`. -/
theorem makeMoveSequenceInBounds_generated (hw : Nat) (b : Board) (whiteTurn : Bool)
    (s : MoveSequence)
    (hs : s ∈ findAllCaptures hw b whiteTurn ∨ s ∈ findAllNormalMoves hw b whiteTurn) :
    (∀ st ∈ s.steps, stepInBounds st (decide (s.capturesCount > 0)) = true)
      ∧ makeMoveSequenceInBounds b s = some (makeMoveSequence b s) := by
  have hne_in : s.steps ≠ []
      ∧ ∀ st ∈ s.steps, stepInBounds st (decide (s.capturesCount > 0)) = true := by
    rcases hs with hs | hs
    · obtain ⟨rr, cc, hon, -, hmem⟩ := mem_findAllCaptures hw b whiteTurn s hs
      obtain ⟨-, path, hne, hpath, hsteps, hcount⟩ := getAllCapturesForPiece_path b rr cc s hmem
      have hpos : s.capturesCount > 0 := by
        rw [hcount]
        have : 0 < path.length := List.length_pos.mpr hne
        exact_mod_cast this
      refine ⟨by rw [hsteps]; simpa using hne, ?_⟩
      intro st hst
      rw [hsteps, List.mem_map] at hst
      obtain ⟨t, ht, rfl⟩ := hst
      rw [decide_eq_true hpos]
      exact capPath_stepInBounds _ path b rr cc [] hpath hon t ht
    · obtain ⟨rr, cc, hon, -, hmem⟩ := mem_findAllNormalMoves hw b whiteTurn s hs
      obtain ⟨er, ec, hend, -, rfl⟩ := simpleMove_shape b rr cc (if whiteTurn then 1 else -1) s
        (hmem.imp And.right And.right)
      refine ⟨by simp, ?_⟩
      intro st hst
      rw [List.mem_singleton] at hst
      subst hst
      simp [stepInBounds, hon, hend]
  obtain ⟨hne, hin⟩ := hne_in
  refine ⟨hin, ?_⟩
  unfold makeMoveSequenceInBounds makeMoveSequence
  have hemp : s.steps.isEmpty = false := by
    cases hst : s.steps with
    | nil => exact absurd hst hne
    | cons a l => rfl
  simp only [hemp, Bool.false_eq_true, if_false]
  rw [applyStepsInBounds_of_stepInBounds _ _ b hin]

/-- C7, counterexample: a non-empty sequence on which the code does not return
true.  With a light man on (3,4), the step (3,4) -> (3,6) applied
as a capture computes the direction (-1, 1), walks over the empty cells (2,5),
(1,6), (0,7) and then reads `board[-1][8]`, outside the vector; this does not
depend on the bound of the loop. -/
theorem makeMoveSequence_leaves_board :
    (⟨[⟨3, 4, 3, 6⟩], 1⟩ : MoveSequence).steps ≠ []
      ∧ makeMoveSequenceInBounds (emptyBoard.set 3 4 'w') ⟨[⟨3, 4, 3, 6⟩], 1⟩ = none
      ∧ ∀ n, clearCapturedInBounds n (((emptyBoard.set 3 4 'w').set 3 4 '.').set 3 6 'w')
          2 5 (-1) 1 3 6 = none := by
  refine ⟨by decide, Option.isNone_iff_eq_none.mp (by decide), ?_⟩
  intro n
  by_cases hn : 8 ≤ n
  · have h := clearCapturedInBounds_bound_irrelevant
      (((emptyBoard.set 3 4 'w').set 3 4 '.').set 3 6 'w') 3 4 (-1) 1 3 6 (Or.inr rfl)
      (by decide) n hn
    have e1 : (3 : Int) + -1 = 2 := by decide
    have e2 : (4 : Int) + 1 = 5 := by decide
    rw [e1, e2] at h
    rw [h]
    exact Option.isNone_iff_eq_none.mp (by decide)
  · have hlt : n < 8 := by omega
    interval_cases n <;> exact Option.isNone_iff_eq_none.mp (by decide)

/-- C7, amended: makeMoveSequence returns false iff the sequence has no steps,
and then leaves the board unchanged.  For a non-empty sequence the call is the
fold of makeOneStep over the steps in order with isCapture =
(capturesCount > 0), which stops without a result at the first step that
accesses a cell outside the board; whenever the call returns, it returns true
and the board of that fold.  It does return when every step starts and ends on
the board and, for capturesCount > 0, runs along a diagonal. -/
theorem makeMoveSequence_spec (b : Board) (seq : MoveSequence) :
    (seq.steps = [] → makeMoveSequenceInBounds b seq = some (false, b))
    ∧ (seq.steps ≠ [] →
        makeMoveSequenceInBounds b seq
          = (seq.steps.foldlM
              (fun bd st => makeOneStepInBounds bd st (decide (seq.capturesCount > 0))) b).map
              (fun b2 => (true, b2)))
    ∧ (∀ res, makeMoveSequenceInBounds b seq = some res →
        (res.1 = false ↔ seq.steps = [])
        ∧ res.2 = seq.steps.foldl
            (fun bd st => makeOneStep bd st (decide (seq.capturesCount > 0))) b)
    ∧ (seq.steps ≠ [] →
        (∀ st ∈ seq.steps, stepInBounds st (decide (seq.capturesCount > 0)) = true) →
        makeMoveSequenceInBounds b seq
          = some (true, seq.steps.foldl
              (fun bd st => makeOneStep bd st (decide (seq.capturesCount > 0))) b)) := by
  have hnil : seq.steps = [] → makeMoveSequenceInBounds b seq = some (false, b) := by
    intro h
    unfold makeMoveSequenceInBounds
    rw [h]
    rfl
  have hcons : seq.steps ≠ [] →
      makeMoveSequenceInBounds b seq
        = match applyStepsInBounds (decide (seq.capturesCount > 0)) b seq.steps with
          | none => none
          | some b2 => some (true, b2) := by
    intro h
    unfold makeMoveSequenceInBounds
    cases hst : seq.steps with
    | nil => exact absurd hst h
    | cons a l => rfl
  refine ⟨hnil, ?_, ?_, ?_⟩
  · intro h
    rw [hcons h, applyStepsInBounds_eq_foldlM]
    cases List.foldlM (fun bd st => makeOneStepInBounds bd st (decide (seq.capturesCount > 0)))
      b seq.steps <;> rfl
  · intro res hres
    by_cases h : seq.steps = []
    · rw [hnil h] at hres
      rw [← Option.some.inj hres, h]
      exact ⟨by simp, rfl⟩
    · rw [hcons h] at hres
      cases happ : applyStepsInBounds (decide (seq.capturesCount > 0)) b seq.steps with
      | none => rw [happ] at hres; exact absurd hres (by simp)
      | some b2 =>
        rw [happ] at hres
        rw [← Option.some.inj hres, ← applySteps_eq_foldl,
          applyStepsInBounds_eq_some _ _ _ _ happ]
        exact ⟨by simp [h], rfl⟩
  · intro h hin
    rw [hcons h, applyStepsInBounds_of_stepInBounds _ _ b hin, applySteps_eq_foldl]

/-- Witness for C7: the capture of scenario 2. -/
theorem makeMoveSequence_spec_witness :
    (⟨[⟨3, 4, 1, 2⟩], 1⟩ : MoveSequence).steps ≠ []
      ∧ (∀ st ∈ (⟨[⟨3, 4, 1, 2⟩], 1⟩ : MoveSequence).steps,
          stepInBounds st (decide ((⟨[⟨3, 4, 1, 2⟩], 1⟩ : MoveSequence).capturesCount > 0))
            = true)
      ∧ makeMoveSequenceInBounds scenario2 ⟨[⟨3, 4, 1, 2⟩], 1⟩
          = some (true, (⟨[⟨3, 4, 1, 2⟩], 1⟩ : MoveSequence).steps.foldl
              (fun bd st => makeOneStep bd st
                (decide ((⟨[⟨3, 4, 1, 2⟩], 1⟩ : MoveSequence).capturesCount > 0))) scenario2)
      ∧ makeOneStep scenario2 ⟨3, 4, 1, 2⟩ true 2 3 = '.' :=
  ⟨by decide, by decide,
    (makeMoveSequence_spec scenario2 ⟨[⟨3, 4, 1, 2⟩], 1⟩).2.2.2 (by decide) (by decide),
    by decide⟩

end Checkers
